import Mathlib

/-!
Verification development for the sheepit_project_submitter packing core.

The definitions below are shallow embeddings of the Python sources:
  * `src/pack.py` (batch packer: `compute_target_relpath`, the dependency
    `visit` order, the main copy loop, `cleanup_blend_backups`),
  * `src/ops/pack_ops.py` (`compute_target_relpath`,
    `truncate_caches_to_frame_range`, `IncrementalPacker.process_batch`),
  * `src/batter/asset_usage.py` (`AssetUsage`, `find_blend_asset_usage`,
    `find_nonblend_asset_usage`, `_merge_keys`, `find`).

Filesystem paths are modelled at the component level: a normalized absolute
path is an anchor (`/`, `C:\`, `\\server\share\`, or a rooted driveless `\`)
together with the list of path components after the anchor.  All host
(Blender/`bpy`) lookups and subprocess/filesystem side effects are modelled
as read-only environment parameters.
-/

namespace SheepIt

/-- Filesystem anchor of an absolute path (`pathlib.PurePath.anchor`):
POSIX root `/`, a Windows drive root such as `C:\`, a UNC share root
`\\server\share\`, or a rooted-but-driveless Windows path `\`. -/
inductive Anchor where
  | posix
  | drive (letter : Char)
  | uncRoot (server share : String)
  | ntRooted
  deriving DecidableEq, Repr

/-- A normalized absolute filesystem path: an anchor together with the
path components following the anchor (each component nonempty, no
separators).  This is the component-level view `pathlib` exposes of a
resolved path. -/
structure PPath where
  anchor : Anchor
  parts : List String
  deriving DecidableEq, Repr

/-- Component-list prefix test: `partsLe a b` holds when `b` starts with
`a`.  Used to model `PurePath.relative_to` succeeding. -/
def partsLe {α : Type} [DecidableEq α] : List α → List α → Bool
  | [], _ => true
  | _ :: _, [] => false
  | a :: as, b :: bs => if a = b then partsLe as bs else false

theorem partsLe_iff {α : Type} [DecidableEq α] :
    ∀ (a b : List α), partsLe a b = true ↔ ∃ t, b = a ++ t := by
  intro a
  induction a with
  | nil =>
    intro b
    simp [partsLe]
  | cons x xs ih =>
    intro b
    cases b with
    | nil =>
      simp [partsLe]
    | cons y ys =>
      by_cases hxy : x = y
      · subst hxy
        have hstep : partsLe (x :: xs) (x :: ys) = partsLe xs ys := by
          simp [partsLe]
        rw [hstep, ih ys]
        constructor
        · rintro ⟨t, ht⟩
          exact ⟨t, by simp [ht]⟩
        · rintro ⟨t, ht⟩
          simp only [List.cons_append, List.cons.injEq] at ht
          exact ⟨t, ht.2⟩
      · simp only [partsLe, if_neg hxy]
        constructor
        · intro h
          exact absurd h (by simp)
        · rintro ⟨t, ht⟩
          simp only [List.cons_append, List.cons.injEq] at ht
          exact absurd ht.1.symm hxy

/-- Model of `abs_path.relative_to(base_root)` succeeding: same anchor and
the root's components are a prefix of the path's components. -/
def underRoot (p root : PPath) : Bool :=
  if p.anchor = root.anchor then partsLe root.parts p.parts else false

/-- The synthetic out-of-root label computed by `compute_target_relpath`
(`src/pack.py:88-101`, `src/ops/pack_ops.py:102-113`): on Windows,
`UNC_<server>_<share>` for UNC anchors, `DRIVE_<letter>` for drive anchors
and `ROOT` otherwise; on other platforms always `ROOT`. -/
def anchorLabel (nt : Bool) (a : Anchor) : String :=
  if nt then
    match a with
    | .uncRoot server share => "UNC_" ++ server ++ "_" ++ share
    | .drive c => "DRIVE_" ++ String.singleton c.toUpper
    | _ => "ROOT"
  else
    "ROOT"

/-- Embedding of `compute_target_relpath(abs_path, base_root)`
(`src/pack.py:78-104` and the identical `src/ops/pack_ops.py:98-115`).
If `abs_path` is under `base_root` it returns the ordinary relative path
(the remaining components); otherwise it returns the synthetic label
followed by the path's components with the anchor stripped.  The result is
a relative path, given as its component list.  `nt` is the `os.name == "nt"`
flag. -/
def compute_target_relpath (nt : Bool) (absPath baseRoot : PPath) : List String :=
  if underRoot absPath baseRoot then
    absPath.parts.drop baseRoot.parts.length
  else
    anchorLabel nt absPath.anchor :: absPath.parts

/-- Joining a relative component list back onto a root
(`base_root / relpath`). -/
def joinUnder (root : PPath) (rel : List String) : PPath :=
  ⟨root.anchor, root.parts ++ rel⟩

/-- C4: for an absolute path `p` under the root `r`, `compute_target_relpath`
returns the straightforward relative path (the components of `p` after
dropping `r`'s components), and joining it back onto `r` yields `p`. -/
theorem relativize_roundtrip (nt : Bool) (p r : PPath)
    (hanchor : p.anchor = r.anchor)
    (hpre : partsLe r.parts p.parts = true) :
    compute_target_relpath nt p r = p.parts.drop r.parts.length ∧
      joinUnder r (compute_target_relpath nt p r) = p := by
  have hunder : underRoot p r = true := by
    unfold underRoot
    rw [if_pos hanchor]
    exact hpre
  obtain ⟨t, ht⟩ := (partsLe_iff r.parts p.parts).mp hpre
  constructor
  · unfold compute_target_relpath
    rw [if_pos hunder]
  · unfold compute_target_relpath
    rw [if_pos hunder]
    unfold joinUnder
    cases p with
    | mk pa pp =>
      simp only at ht hanchor
      subst ht
      subst hanchor
      simp [List.drop_left]

/-- Witness for `relativize_roundtrip` at a concrete path/root pair. -/
theorem relativize_roundtrip_witness :
    (PPath.mk .posix ["home", "u", "proj", "scene.blend"]).anchor
        = (PPath.mk .posix ["home", "u"]).anchor ∧
      partsLe (PPath.mk .posix ["home", "u"]).parts
        (PPath.mk .posix ["home", "u", "proj", "scene.blend"]).parts = true ∧
      (compute_target_relpath false
          (PPath.mk .posix ["home", "u", "proj", "scene.blend"])
          (PPath.mk .posix ["home", "u"])
        = (PPath.mk .posix ["home", "u", "proj", "scene.blend"]).parts.drop
            (PPath.mk .posix ["home", "u"]).parts.length ∧
        joinUnder (PPath.mk .posix ["home", "u"])
            (compute_target_relpath false
              (PPath.mk .posix ["home", "u", "proj", "scene.blend"])
              (PPath.mk .posix ["home", "u"]))
          = PPath.mk .posix ["home", "u", "proj", "scene.blend"]) :=
  ⟨rfl, by decide,
    relativize_roundtrip false
      (PPath.mk .posix ["home", "u", "proj", "scene.blend"])
      (PPath.mk .posix ["home", "u"]) rfl (by decide)⟩

/-- C5 counterexample: the synthetic-prefix scheme collides on Windows.
The two distinct UNC paths `\\a_b\c\f` and `\\a\b_c\f`, both outside the
root `C:\proj`, are mapped by `compute_target_relpath` to the same target
relative path `UNC_a_b_c/f`, because the label joins server and share with
an underscore.  This refutes the claim that `relativize` is injective on
out-of-root absolute paths. -/
theorem relativize_unc_collision :
    (PPath.mk (.uncRoot "a_b" "c") ["f"]) ≠ (PPath.mk (.uncRoot "a" "b_c") ["f"]) ∧
      underRoot (PPath.mk (.uncRoot "a_b" "c") ["f"]) (PPath.mk (.drive 'C') ["proj"]) = false ∧
      underRoot (PPath.mk (.uncRoot "a" "b_c") ["f"]) (PPath.mk (.drive 'C') ["proj"]) = false ∧
      compute_target_relpath true (PPath.mk (.uncRoot "a_b" "c") ["f"])
          (PPath.mk (.drive 'C') ["proj"])
        = compute_target_relpath true (PPath.mk (.uncRoot "a" "b_c") ["f"])
          (PPath.mk (.drive 'C') ["proj"]) := by
  refine ⟨by decide, by decide, by decide, ?_⟩
  rfl

/-- C5 (amended): injectivity of `compute_target_relpath` for out-of-root
paths holds on the non-Windows branch, where every out-of-root absolute
path carries the single POSIX anchor `/` and the label is always `ROOT`:
two distinct POSIX absolute paths outside the root map to distinct target
relative paths.  (On Windows the `UNC_<server>_<share>` labelling can
collide when underscores in server/share names make the joined label
ambiguous, as shown by the counterexample.) -/
theorem relativize_out_of_root_injective_posix (p₁ p₂ r : PPath)
    (h₁ : p₁.anchor = .posix) (h₂ : p₂.anchor = .posix)
    (hout₁ : underRoot p₁ r = false) (hout₂ : underRoot p₂ r = false)
    (hne : p₁ ≠ p₂) :
    compute_target_relpath false p₁ r ≠ compute_target_relpath false p₂ r := by
  unfold compute_target_relpath
  rw [hout₁, hout₂]
  simp only [Bool.false_eq_true, if_false]
  intro h
  simp only [anchorLabel, List.cons.injEq] at h
  apply hne
  cases p₁ with
  | mk a₁ l₁ =>
    cases p₂ with
    | mk a₂ l₂ =>
      simp only at h₁ h₂
      subst h₁
      subst h₂
      simp only at h
      rw [h.2]

/-- Witness for `relativize_out_of_root_injective_posix` at concrete
distinct out-of-root paths. -/
theorem relativize_out_of_root_injective_posix_witness :
    (PPath.mk .posix ["mnt", "x", "tex.png"]).anchor = .posix ∧
      (PPath.mk .posix ["mnt", "y", "tex.png"]).anchor = .posix ∧
      underRoot (PPath.mk .posix ["mnt", "x", "tex.png"])
          (PPath.mk .posix ["home", "u"]) = false ∧
      underRoot (PPath.mk .posix ["mnt", "y", "tex.png"])
          (PPath.mk .posix ["home", "u"]) = false ∧
      (PPath.mk .posix ["mnt", "x", "tex.png"]) ≠ (PPath.mk .posix ["mnt", "y", "tex.png"]) ∧
      compute_target_relpath false (PPath.mk .posix ["mnt", "x", "tex.png"])
          (PPath.mk .posix ["home", "u"])
        ≠ compute_target_relpath false (PPath.mk .posix ["mnt", "y", "tex.png"])
          (PPath.mk .posix ["home", "u"]) :=
  ⟨rfl, rfl, by decide, by decide, by decide,
    relativize_out_of_root_injective_posix
      (PPath.mk .posix ["mnt", "x", "tex.png"])
      (PPath.mk .posix ["mnt", "y", "tex.png"])
      (PPath.mk .posix ["home", "u"]) rfl rfl (by decide) (by decide) (by decide)⟩

/-! ### String helpers: `pathlib` suffix/stem and Python `int()`/`str.lower()`

All helpers operate on the character list of a file name (`String` appears
only at the boundary), mirroring CPython's character-level semantics on the
ASCII names handled by the packer. -/

/-- Helper for `pathlib` suffix computation.  Given the reversed character
list of a file name, returns `some (ext, rest)` where `ext` is the (reversed
input order) run of characters before the first `'.'` and `rest` the
(reversed) remainder after it, or `none` when the name has no dot. -/
def afterLastDot : List Char → Option (List Char × List Char)
  | [] => none
  | c :: cs =>
    if c = '.' then some ([], cs)
    else
      match afterLastDot cs with
      | none => none
      | some (ext, rest) => some (c :: ext, rest)

/-- `pathlib.PurePath.suffix` of a file name, as a character list: the final
`"." + ext` portion, empty when the name has no dot, starts with its only
dot, or ends with a dot. -/
def suffixL (nameL : List Char) : List Char :=
  match afterLastDot nameL.reverse with
  | none => []
  | some (ext, rest) => if ext ≠ [] ∧ rest ≠ [] then '.' :: ext.reverse else []

/-- `pathlib.PurePath.suffix` on strings. -/
def pySuffix (name : String) : String :=
  String.mk (suffixL name.toList)

/-- `pathlib.PurePath.stem` of a file name, as a character list: the name
with its suffix removed. -/
def stemL (nameL : List Char) : List Char :=
  match afterLastDot nameL.reverse with
  | none => nameL
  | some (ext, rest) => if ext ≠ [] ∧ rest ≠ [] then rest.reverse else nameL

/-- `pathlib.PurePath.stem` on strings. -/
def pyStem (name : String) : String :=
  String.mk (stemL name.toList)

/-- Value of a single ASCII digit character, `none` for non-digits. -/
def charDigitVal (c : Char) : Option Nat :=
  if 48 ≤ c.toNat ∧ c.toNat ≤ 57 then some (c.toNat - 48) else none

/-- Accumulating decimal value of a digit run. -/
def digitsValAux : Nat → List Char → Option Nat
  | acc, [] => some acc
  | acc, c :: cs =>
    match charDigitVal c with
    | some d => digitsValAux (acc * 10 + d) cs
    | none => none

/-- Decimal value of a nonempty all-digit character list, else `none`. -/
def digitsToNat : List Char → Option Nat
  | [] => none
  | c :: cs =>
    match charDigitVal c with
    | some d => digitsValAux d cs
    | none => none

/-- Sign handling of Python `int()` over the first character and the rest. -/
def pyIntAux (c : Char) (cs : List Char) : Option Int :=
  if c = '-' then (digitsToNat cs).map (fun n => -(Int.ofNat n))
  else if c = '+' then (digitsToNat cs).map (fun n => Int.ofNat n)
  else (digitsToNat (c :: cs)).map (fun n => Int.ofNat n)

/-- Model of Python `int()` on a character list: an optional sign followed by
a nonempty run of decimal digits; anything else raises `ValueError`,
modelled as `none`. -/
def pyIntL : List Char → Option Int
  | [] => none
  | c :: cs => pyIntAux c cs

/-- Model of Python `int(s)` on strings. -/
def pyInt (s : String) : Option Int :=
  pyIntL s.toList

/-! ### `cleanup_blend_backups` (src/pack.py:1619-1640) -/

/-- The file-name shape selected by `root.rglob("*.blend?")`, on the name's
character list: any characters, then the literal `.blend`, then exactly one
more character. -/
def backupGlobMatchL (nameL : List Char) : Bool :=
  match nameL.reverse with
  | [] => false
  | _ :: rest => partsLe ['d', 'n', 'e', 'l', 'b', '.'] rest

/-- `suffix.replace(".blend", "")`: remove every (non-overlapping, leftmost
first) occurrence of `.blend`. -/
def replaceDotBlend : List Char → List Char
  | '.' :: 'b' :: 'l' :: 'e' :: 'n' :: 'd' :: rest => replaceDotBlend rest
  | c :: cs => c :: replaceDotBlend cs
  | [] => []

/-- The per-candidate deletion decision of `cleanup_blend_backups`
(`src/pack.py:1623-1637`), on the name's character list: the name matched
the `*.blend?` glob, its lower-cased `pathlib` suffix starts with `.blend`,
the suffix with `.blend` removed parses as an `int` `n`, and `1 <= n <= 32`.
(`path.unlink(missing_ok=True)` is modelled as always succeeding.) -/
def blendBackupDeleteL (nameL : List Char) : Bool :=
  if backupGlobMatchL nameL then
    let suffixLow := (suffixL nameL).map Char.toLower
    if partsLe ['.', 'b', 'l', 'e', 'n', 'd'] suffixLow then
      match pyIntL (replaceDotBlend suffixLow) with
      | some n => decide (1 ≤ n ∧ n ≤ 32)
      | none => false
    else false
  else false

/-- The deletion decision on strings. -/
def blendBackupDelete (name : String) : Bool :=
  blendBackupDeleteL name.toList

/-- Embedding of `cleanup_blend_backups(root)` (`src/pack.py:1619-1640`)
over the list of file names under the root: returns the removed count and
the list of removed names. -/
def cleanup_blend_backups (files : List String) : Nat × List String :=
  files.foldl
    (fun acc name =>
      if blendBackupDelete name then (acc.1 + 1, acc.2 ++ [name]) else acc)
    (0, [])

theorem afterLastDot_dot (cs : List Char) : afterLastDot ('.' :: cs) = some ([], cs) := by
  simp [afterLastDot]

theorem afterLastDot_ne (c : Char) (cs : List Char) (h : ¬ c = '.') :
    afterLastDot (c :: cs) =
      match afterLastDot cs with
      | none => none
      | some (ext, rest) => some (c :: ext, rest) := by
  simp [afterLastDot, h]

theorem afterLastDot_shape :
    ∀ (rev ext rest : List Char), afterLastDot rev = some (ext, rest) →
      rev = ext ++ '.' :: rest := by
  intro rev
  induction rev with
  | nil =>
    intro ext rest h
    simp [afterLastDot] at h
  | cons c cs ih =>
    intro ext rest h
    by_cases hc : c = '.'
    · subst hc
      rw [afterLastDot_dot] at h
      simp only [Option.some.injEq, Prod.mk.injEq] at h
      rw [← h.1, ← h.2]
      rfl
    · rw [afterLastDot_ne c cs hc] at h
      cases hcs : afterLastDot cs with
      | none =>
        rw [hcs] at h
        simp at h
      | some p =>
        rw [hcs] at h
        obtain ⟨e, r⟩ := p
        simp only [Option.some.injEq, Prod.mk.injEq] at h
        rw [← h.1, ← h.2]
        have hcs' := ih e r hcs
        rw [hcs']
        rfl

theorem replaceDotBlend_single (x : Char) : replaceDotBlend [x] = [x] := by
  unfold replaceDotBlend
  split
  · rename_i heq
    simp at heq
  · rename_i heq
    injection heq with h1 h2
    subst h1
    subst h2
    rfl
  · rename_i heq
    simp at heq

theorem replaceDotBlend_blend_cons (x : Char) :
    replaceDotBlend ('.' :: 'b' :: 'l' :: 'e' :: 'n' :: 'd' :: [x]) = [x] := by
  have h1 : replaceDotBlend ('.' :: 'b' :: 'l' :: 'e' :: 'n' :: 'd' :: [x])
      = replaceDotBlend [x] := rfl
  rw [h1, replaceDotBlend_single]

theorem digitsToNat_single (x : Char) : digitsToNat [x] = charDigitVal x := by
  cases hd : charDigitVal x with
  | none => simp [digitsToNat, hd]
  | some d => simp [digitsToNat, digitsValAux, hd]

/-- A single character parses as an `int` exactly when it is an ASCII digit,
and then its value is its digit value. -/
theorem pyIntL_single_digit (x : Char) (n : Int) (h : pyIntL [x] = some n) :
    48 ≤ x.toNat ∧ x.toNat ≤ 57 ∧ n = ((x.toNat - 48 : Nat) : Int) := by
  have h' : pyIntAux x [] = some n := h
  unfold pyIntAux at h'
  by_cases hm : x = '-'
  · rw [if_pos hm] at h'
    simp [digitsToNat] at h'
  · rw [if_neg hm] at h'
    by_cases hp : x = '+'
    · rw [if_pos hp] at h'
      simp [digitsToNat] at h'
    · rw [if_neg hp] at h'
      rw [digitsToNat_single] at h'
      cases hd : charDigitVal x with
      | none =>
        rw [hd] at h'
        simp at h'
      | some d =>
        rw [hd] at h'
        simp only [Option.map_some', Option.some.injEq] at h'
        unfold charDigitVal at hd
        by_cases hr : 48 ≤ x.toNat ∧ x.toNat ≤ 57
        · rw [if_pos hr] at hd
          simp only [Option.some.injEq] at hd
          refine ⟨hr.1, hr.2, ?_⟩
          rw [← h', ← hd]
          rfl
        · rw [if_neg hr] at hd
          simp at hd

/-- Characterization of the `cleanup_blend_backups` deletion decision on a
name's character list: a file name is deleted exactly when its `pathlib`
suffix is `.blend` followed by one extra character whose lower-casing parses
as an integer `n` with `1 ≤ n ≤ 32`; such a character is necessarily an
ASCII digit `1`–`9` (lower-cased code point in `(48, 57]`). -/
theorem blendBackupDeleteL_iff (nameL : List Char) :
    blendBackupDeleteL nameL = true ↔
      ∃ c n, suffixL nameL = ['.', 'b', 'l', 'e', 'n', 'd', c] ∧
        pyIntL [c.toLower] = some n ∧ 1 ≤ n ∧ n ≤ 32 ∧
        48 < c.toLower.toNat ∧ c.toLower.toNat ≤ 57 := by
  have hmap : ∀ c : Char, List.map Char.toLower ['.', 'b', 'l', 'e', 'n', 'd', c]
      = ['.', 'b', 'l', 'e', 'n', 'd', c.toLower] := by
    intro c
    simp only [List.map_cons, List.map_nil]
    rw [show Char.toLower '.' = '.' from by decide]
    rw [show Char.toLower 'b' = 'b' from by decide]
    rw [show Char.toLower 'l' = 'l' from by decide]
    rw [show Char.toLower 'e' = 'e' from by decide]
    rw [show Char.toLower 'n' = 'n' from by decide]
    rw [show Char.toLower 'd' = 'd' from by decide]
  have hstarts : ∀ c : Char,
      partsLe ['.', 'b', 'l', 'e', 'n', 'd'] ['.', 'b', 'l', 'e', 'n', 'd', c] = true := by
    intro c
    simp [partsLe]
  constructor
  · intro hdel
    simp only [blendBackupDeleteL] at hdel
    cases hglob : backupGlobMatchL nameL with
    | false =>
      rw [hglob] at hdel
      simp at hdel
    | true =>
      rw [hglob] at hdel
      simp only [eq_self_iff_true, if_true] at hdel
      unfold backupGlobMatchL at hglob
      cases hrev : nameL.reverse with
      | nil =>
        rw [hrev] at hglob
        simp at hglob
      | cons c rest' =>
        rw [hrev] at hglob
        have hglob' : partsLe ['d', 'n', 'e', 'l', 'b', '.'] rest' = true := hglob
        obtain ⟨t, ht⟩ := (partsLe_iff _ _).mp hglob'
        have hrevlist : nameL.reverse
            = c :: 'd' :: 'n' :: 'e' :: 'l' :: 'b' :: '.' :: t := by
          rw [hrev, ht]
          rfl
        by_cases hc : c = '.'
        · have hsuf : suffixL nameL = [] := by
            unfold suffixL
            rw [hrevlist, hc, afterLastDot_dot]
            simp
          rw [hsuf] at hdel
          simp [partsLe] at hdel
        · have hald : afterLastDot nameL.reverse
              = some (c :: 'd' :: 'n' :: 'e' :: 'l' :: 'b' :: [], t) := by
            rw [hrevlist]
            rw [afterLastDot_ne c _ hc]
            rw [afterLastDot_ne 'd' _ (by decide)]
            rw [afterLastDot_ne 'n' _ (by decide)]
            rw [afterLastDot_ne 'e' _ (by decide)]
            rw [afterLastDot_ne 'l' _ (by decide)]
            rw [afterLastDot_ne 'b' _ (by decide)]
            rw [afterLastDot_dot]
          cases ht' : t with
          | nil =>
            have hsuf : suffixL nameL = [] := by
              unfold suffixL
              rw [hald, ht']
              simp
            rw [hsuf] at hdel
            simp [partsLe] at hdel
          | cons t0 ts =>
            have hsuf : suffixL nameL = ['.', 'b', 'l', 'e', 'n', 'd', c] := by
              unfold suffixL
              rw [hald, ht']
              simp
            rw [hsuf] at hdel
            rw [hmap c] at hdel
            rw [hstarts c.toLower] at hdel
            simp only [eq_self_iff_true, if_true] at hdel
            rw [replaceDotBlend_blend_cons c.toLower] at hdel
            cases hint : pyIntL [c.toLower] with
            | none =>
              rw [hint] at hdel
              simp at hdel
            | some n =>
              rw [hint] at hdel
              have hdel' : decide (1 ≤ n ∧ n ≤ 32) = true := hdel
              simp only [decide_eq_true_eq] at hdel'
              obtain ⟨hd1, hd2, hd3⟩ := pyIntL_single_digit c.toLower n hint
              refine ⟨c, n, hsuf, hint, hdel'.1, hdel'.2, ?_, hd2⟩
              have h1 : 1 ≤ n := hdel'.1
              omega
  · rintro ⟨c, n, hsuf, hint, hn1, hn32, _, _⟩
    have hshape : ∃ rest, rest ≠ [] ∧
        nameL.reverse = (c :: 'd' :: 'n' :: 'e' :: 'l' :: 'b' :: []) ++ '.' :: rest := by
      unfold suffixL at hsuf
      cases hald : afterLastDot nameL.reverse with
      | none =>
        rw [hald] at hsuf
        simp at hsuf
      | some p =>
        rw [hald] at hsuf
        obtain ⟨ext, rest⟩ := p
        have hsuf' : (if ext ≠ [] ∧ rest ≠ [] then '.' :: ext.reverse else ([] : List Char))
            = ['.', 'b', 'l', 'e', 'n', 'd', c] := hsuf
        by_cases hguard : ext ≠ [] ∧ rest ≠ []
        · rw [if_pos hguard] at hsuf'
          have hext2 : ext.reverse = ['b', 'l', 'e', 'n', 'd', c] := by
            injection hsuf'
          have hext3 : ext = c :: 'd' :: 'n' :: 'e' :: 'l' :: 'b' :: [] := by
            have := congrArg List.reverse hext2
            simpa using this
          refine ⟨rest, hguard.2, ?_⟩
          rw [← hext3]
          exact afterLastDot_shape _ _ _ hald
        · rw [if_neg hguard] at hsuf'
          simp at hsuf'
    obtain ⟨rest, hrestne, hrev⟩ := hshape
    have hglob : backupGlobMatchL nameL = true := by
      unfold backupGlobMatchL
      rw [hrev]
      have hp : partsLe ['d', 'n', 'e', 'l', 'b', '.']
          ('d' :: 'n' :: 'e' :: 'l' :: 'b' :: '.' :: rest) = true := by
        apply (partsLe_iff _ _).mpr
        exact ⟨rest, rfl⟩
      exact hp
    simp only [blendBackupDeleteL]
    rw [hglob]
    simp only [eq_self_iff_true, if_true]
    rw [hsuf]
    rw [hmap c]
    rw [hstarts c.toLower]
    simp only [eq_self_iff_true, if_true]
    rw [replaceDotBlend_blend_cons c.toLower]
    rw [hint]
    exact decide_eq_true ⟨hn1, hn32⟩

theorem cleanup_blend_backups_eq (files : List String) :
    cleanup_blend_backups files
      = ((files.filter blendBackupDelete).length, files.filter blendBackupDelete) := by
  have haux : ∀ (fs : List String) (acc : Nat × List String),
      fs.foldl (fun acc name =>
        if blendBackupDelete name then (acc.1 + 1, acc.2 ++ [name]) else acc) acc
      = (acc.1 + (fs.filter blendBackupDelete).length,
          acc.2 ++ fs.filter blendBackupDelete) := by
    intro fs
    induction fs with
    | nil =>
      intro acc
      simp
    | cons f fs ih =>
      intro acc
      cases hdel : blendBackupDelete f with
      | true =>
        simp only [List.foldl_cons, List.filter_cons, hdel, eq_self_iff_true, if_true]
        rw [ih]
        simp only [Prod.mk.injEq, List.length_cons]
        constructor
        · omega
        · simp
      | false =>
        simp only [List.foldl_cons, List.filter_cons, hdel, Bool.false_eq_true, if_false]
        exact ih acc
  unfold cleanup_blend_backups
  rw [haux]
  simp

/-- C10: backup cleanup never touches primary documents.
`cleanup_blend_backups` removes a file iff its `pathlib` suffix is `.blend`
followed by a single extra character whose lower-casing parses as an integer
`n` with `1 ≤ n ≤ 32` — which forces that character to be an ASCII digit
`1`–`9` (lower-cased code point in `(48, 57]`), i.e. only `.blend1` …
`.blend9` names can match the `*.blend?` glob and be removed.  Every file
whose suffix is exactly `.blend` is left untouched, and the function returns
the count of files it removed. -/
theorem cleanup_blend_backups_spec (files : List String) :
    (∀ name, name ∈ (cleanup_blend_backups files).2 ↔
      name ∈ files ∧
        ∃ c n, pySuffix name = String.mk ['.', 'b', 'l', 'e', 'n', 'd', c] ∧
          pyInt (String.mk [c.toLower]) = some n ∧ 1 ≤ n ∧ n ≤ 32 ∧
          48 < c.toLower.toNat ∧ c.toLower.toNat ≤ 57) ∧
    (∀ name, pySuffix name = ".blend" → name ∉ (cleanup_blend_backups files).2) ∧
    (cleanup_blend_backups files).1 = (cleanup_blend_backups files).2.length := by
  rw [cleanup_blend_backups_eq]
  refine ⟨?_, ?_, rfl⟩
  · intro name
    rw [List.mem_filter]
    constructor
    · rintro ⟨hmem, hdel⟩
      obtain ⟨c, n, hs, hi, h1, h2, h3, h4⟩ := (blendBackupDeleteL_iff name.toList).mp hdel
      refine ⟨hmem, c, n, ?_, hi, h1, h2, h3, h4⟩
      unfold pySuffix
      rw [hs]
    · rintro ⟨hmem, c, n, hs, hi, h1, h2, h3, h4⟩
      refine ⟨hmem, ?_⟩
      apply (blendBackupDeleteL_iff name.toList).mpr
      refine ⟨c, n, ?_, hi, h1, h2, h3, h4⟩
      unfold pySuffix at hs
      exact congrArg String.data hs
  · intro name hsufblend hmem
    rw [List.mem_filter] at hmem
    obtain ⟨c, n, hs, _⟩ := (blendBackupDeleteL_iff name.toList).mp hmem.2
    unfold pySuffix at hsufblend
    have hdata : suffixL name.toList = (".blend" : String).data :=
      congrArg String.data hsufblend
    rw [hs] at hdata
    have hlit : (".blend" : String).data = ['.', 'b', 'l', 'e', 'n', 'd'] := rfl
    rw [hlit] at hdata
    simp at hdata

/-- Witness for `cleanup_blend_backups_spec`: on a concrete directory
listing, `a.blend` (suffix exactly `.blend`) is kept while `a.blend1` is
removed. -/
theorem cleanup_blend_backups_spec_witness :
    pySuffix "a.blend" = ".blend" ∧
      "a.blend" ∉ (cleanup_blend_backups ["a.blend", "a.blend1", "notes.txt"]).2 ∧
      (cleanup_blend_backups ["a.blend", "a.blend1", "notes.txt"]).2 = ["a.blend1"] :=
  ⟨by decide,
    (cleanup_blend_backups_spec ["a.blend", "a.blend1", "notes.txt"]).2.1
      "a.blend" (by decide),
    by decide⟩

/-! ### `truncate_caches_to_frame_range` (src/ops/pack_ops.py:338-378) -/

/-- Is this character an ASCII decimal digit (regex `\d` on the ASCII names
handled here)? -/
def isDigitChar (c : Char) : Bool :=
  decide (48 ≤ c.toNat ∧ c.toNat ≤ 57)

/-- Value of the maximal (greedy `\d+`) digit run at the head of the list;
`none` when it is empty. -/
def takeDigitsVal (cs : List Char) : Option Nat :=
  digitsToNat (cs.takeWhile isDigitChar)

/-- Try to match `frame_(\d+)` (case-insensitively) at the head of the
list. -/
def matchFrameAt (cs : List Char) : Option Nat :=
  match cs with
  | c1 :: c2 :: c3 :: c4 :: c5 :: c6 :: rest =>
    if c1.toLower = 'f' ∧ c2.toLower = 'r' ∧ c3.toLower = 'a' ∧
        c4.toLower = 'm' ∧ c5.toLower = 'e' ∧ c6 = '_' then
      takeDigitsVal rest
    else none
  | _ => none

/-- After a literal `cache`, match `[^_]*_(\d+)`: the greedy `[^_]*` forces
the `_` to be the first underscore, and at least one digit must follow. -/
def cacheUnderscore : List Char → Option Nat
  | [] => none
  | c :: rest => if c = '_' then takeDigitsVal rest else cacheUnderscore rest

/-- Try to match `cache[^_]*_(\d+)` (case-insensitively) at the head of the
list. -/
def matchCacheAt (cs : List Char) : Option Nat :=
  match cs with
  | c1 :: c2 :: c3 :: c4 :: c5 :: rest =>
    if c1.toLower = 'c' ∧ c2.toLower = 'a' ∧ c3.toLower = 'c' ∧
        c4.toLower = 'h' ∧ c5.toLower = 'e' then
      cacheUnderscore rest
    else none
  | _ => none

/-- `re.search(r'(?:frame_|cache[^_]*_)(\d+)', stem, re.IGNORECASE)`:
scan start positions left to right, trying the `frame_` alternative first,
and capture the digit run. -/
def searchFrameCache : List Char → Option Nat
  | [] => none
  | c :: cs =>
    match matchFrameAt (c :: cs) with
    | some n => some n
    | none =>
      match matchCacheAt (c :: cs) with
      | some n => some n
      | none => searchFrameCache cs

/-- `re.search(r'(\d+)$', stem)`: the maximal digit suffix, when nonempty. -/
def trailingDigitsVal (cs : List Char) : Option Nat :=
  digitsToNat ((cs.reverse.takeWhile isDigitChar).reverse)

/-- Frame-number extraction of `truncate_caches_to_frame_range`
(`src/ops/pack_ops.py:359-369`): pattern `(?:frame_|cache[^_]*_)(\d+)`
first, then the trailing-digits pattern `(\d+)$`, both on the file's stem. -/
def extractFrame (stem : List Char) : Option Nat :=
  match searchFrameCache stem with
  | some n => some n
  | none => trailingDigitsVal stem

/-- `pyRangeAux s st k` is `[s, s+st, ..., s+st*(k-1)]`. -/
def pyRangeAux (start step : Int) : Nat → List Int
  | 0 => []
  | k + 1 => start :: pyRangeAux (start + step) step k

/-- Number of elements of Python `range(start, stop, step)` for a positive
step. -/
def pyCount (start stop step : Int) : Nat :=
  if stop ≤ start then 0 else ((stop - start - 1) / step).toNat + 1

/-- Model of Python `range(start, stop, step)` as a list.  The packer only
calls it with a positive step (`frame_step ≥ 1`); a non-positive step is
modelled as the empty range. -/
def pyRange (start stop step : Int) : List Int :=
  if 0 < step then pyRangeAux start step (pyCount start stop step) else []

/-- The per-file removal decision of `truncate_caches_to_frame_range`
(`src/ops/pack_ops.py:355-373`): remove iff a frame number can be extracted
from the stem and it is not in `set(range(frame_start, frame_end + 1,
frame_step))`. -/
def shouldRemoveCacheFile (frame_start frame_end frame_step : Int) (name : String) : Bool :=
  match extractFrame (stemL name.toList) with
  | some fnum => decide (Int.ofNat fnum ∉ pyRange frame_start (frame_end + 1) frame_step)
  | none => false

/-- Embedding of `truncate_caches_to_frame_range(cache_dir, frame_start,
frame_end, frame_step)` (`src/ops/pack_ops.py:338-378`) over the list of
regular file names under the cache directory: returns the removed count and
the removed names.  (`cache_file.unlink()` is modelled as always
succeeding.) -/
def truncate_caches_to_frame_range (files : List String)
    (frame_start frame_end frame_step : Int) : Nat × List String :=
  files.foldl
    (fun acc name =>
      if shouldRemoveCacheFile frame_start frame_end frame_step name then
        (acc.1 + 1, acc.2 ++ [name])
      else acc)
    (0, [])

theorem mem_pyRangeAux (st : Int) :
    ∀ (k : Nat) (s n : Int),
      n ∈ pyRangeAux s st k ↔ ∃ j : Nat, j < k ∧ n = s + st * (j : Int) := by
  intro k
  induction k with
  | zero =>
    intro s n
    simp [pyRangeAux]
  | succ k ih =>
    intro s n
    simp only [pyRangeAux, List.mem_cons]
    rw [ih (s + st) n]
    constructor
    · rintro (h | ⟨j, hj, hn⟩)
      · refine ⟨0, by omega, ?_⟩
        rw [h]
        ring
      · refine ⟨j + 1, by omega, ?_⟩
        rw [hn]
        push_cast
        ring
    · rintro ⟨j, hj, hn⟩
      cases j with
      | zero =>
        left
        rw [hn]
        simp
      | succ j =>
        right
        refine ⟨j, by omega, ?_⟩
        rw [hn]
        push_cast
        ring

theorem mem_pyRange_pos (s e st : Int) (hst : 0 < st) (n : Int) :
    n ∈ pyRange s (e + 1) st ↔ ∃ k : Nat, n = s + st * (k : Int) ∧ n ≤ e := by
  unfold pyRange pyCount
  rw [if_pos hst]
  rw [mem_pyRangeAux]
  constructor
  · rintro ⟨j, hj, hn⟩
    refine ⟨j, hn, ?_⟩
    by_cases hse : e + 1 ≤ s
    · rw [if_pos hse] at hj
      omega
    · rw [if_neg hse] at hj
      have h2 : (0:Int) ≤ (e + 1 - s - 1) / st :=
        Int.ediv_nonneg (by omega) (by omega)
      have h1 : (j : Int) ≤ (e + 1 - s - 1) / st := by omega
      have h3 : (j : Int) * st ≤ e + 1 - s - 1 :=
        (Int.le_ediv_iff_mul_le hst).mp h1
      have hcomm : st * (j : Int) = (j : Int) * st := mul_comm _ _
      linarith
  · rintro ⟨k, hn, hle⟩
    refine ⟨k, ?_, hn⟩
    by_cases hse : e + 1 ≤ s
    · exfalso
      have h0 : (0:Int) ≤ st * (k : Int) :=
        mul_nonneg (by omega) (Int.natCast_nonneg k)
      linarith
    · rw [if_neg hse]
      have hcomm : st * (k : Int) = (k : Int) * st := mul_comm _ _
      have h3 : (k : Int) * st ≤ e + 1 - s - 1 := by linarith
      have h1 : (k : Int) ≤ (e + 1 - s - 1) / st :=
        (Int.le_ediv_iff_mul_le hst).mpr h3
      have h2 : (0:Int) ≤ (e + 1 - s - 1) / st :=
        Int.ediv_nonneg (by omega) (by omega)
      omega

theorem foldl_removal_eq {α : Type} (p : α → Bool) (fs : List α) :
    fs.foldl (fun acc x => if p x then (acc.1 + 1, acc.2 ++ [x]) else acc)
        ((0 : Nat), ([] : List α))
      = ((fs.filter p).length, fs.filter p) := by
  have haux : ∀ (fs : List α) (acc : Nat × List α),
      fs.foldl (fun acc x => if p x then (acc.1 + 1, acc.2 ++ [x]) else acc) acc
      = (acc.1 + (fs.filter p).length, acc.2 ++ fs.filter p) := by
    intro fs
    induction fs with
    | nil =>
      intro acc
      simp
    | cons f fs ih =>
      intro acc
      cases hdel : p f with
      | true =>
        simp only [List.foldl_cons, List.filter_cons, hdel, eq_self_iff_true, if_true]
        rw [ih]
        simp only [Prod.mk.injEq, List.length_cons]
        constructor
        · omega
        · simp
      | false =>
        simp only [List.foldl_cons, List.filter_cons, hdel, Bool.false_eq_true, if_false]
        exact ih acc
  rw [haux]
  simp

/-- C6: frame-range cache truncation keeps exactly the right files.
`truncate_caches_to_frame_range` removes a file iff a frame number can be
extracted from its stem (a `frame_`/`cache…_`-prefixed or trailing integer)
and that number is not in the stepped set
`{start, start+step, …} ∩ (-∞, end]`; files with no extractable frame
number are always kept; the returned count is the number of removed files.
In particular with `frame_start=10, frame_end=20, frame_step=5` the files
`frame_0010.ext`, `frame_0015.ext`, `frame_0020.ext` and `notes.txt` are
retained while `frame_0008.ext` and `frame_0022.ext` are removed. -/
theorem truncate_caches_to_frame_range_spec (fs fe st : Int) (hst : 0 < st)
    (files : List String) :
    (∀ name, name ∈ (truncate_caches_to_frame_range files fs fe st).2 ↔
        name ∈ files ∧
          ∃ m, extractFrame (stemL name.toList) = some m ∧
            ¬ ∃ k : Nat, Int.ofNat m = fs + st * (k : Int) ∧ Int.ofNat m ≤ fe) ∧
    (∀ name, extractFrame (stemL name.toList) = none →
        name ∉ (truncate_caches_to_frame_range files fs fe st).2) ∧
    (truncate_caches_to_frame_range files fs fe st).1
      = (truncate_caches_to_frame_range files fs fe st).2.length ∧
    truncate_caches_to_frame_range
        ["frame_0008.ext", "frame_0010.ext", "frame_0015.ext",
          "frame_0020.ext", "frame_0022.ext", "notes.txt"] 10 20 5
      = (2, ["frame_0008.ext", "frame_0022.ext"]) := by
  have hremove : ∀ name,
      shouldRemoveCacheFile fs fe st name = true ↔
        ∃ m, extractFrame (stemL name.toList) = some m ∧
          ¬ ∃ k : Nat, Int.ofNat m = fs + st * (k : Int) ∧ Int.ofNat m ≤ fe := by
    intro name
    unfold shouldRemoveCacheFile
    cases hex : extractFrame (stemL name.toList) with
    | none =>
      simp
    | some m =>
      simp only [decide_eq_true_eq, Option.some.injEq]
      rw [mem_pyRange_pos fs fe st hst]
      constructor
      · intro h
        exact ⟨m, rfl, h⟩
      · rintro ⟨m', hm', h⟩
        rw [hm']
        exact h
  unfold truncate_caches_to_frame_range
  rw [foldl_removal_eq]
  refine ⟨?_, ?_, rfl, ?_⟩
  · intro name
    rw [List.mem_filter]
    rw [hremove name]
  · intro name hnone hmem
    rw [List.mem_filter] at hmem
    obtain ⟨m, hm, _⟩ := (hremove name).mp hmem.2
    rw [hnone] at hm
    exact Option.noConfusion hm
  · rw [foldl_removal_eq]
    decide

/-- Witness for `truncate_caches_to_frame_range_spec` at the scenario's
frame range. -/
theorem truncate_caches_to_frame_range_spec_witness :
    (0 : Int) < 5 ∧
      truncate_caches_to_frame_range
          ["frame_0008.ext", "frame_0010.ext", "frame_0015.ext",
            "frame_0020.ext", "frame_0022.ext", "notes.txt"] 10 20 5
        = (2, ["frame_0008.ext", "frame_0022.ext"]) :=
  ⟨by decide,
    (truncate_caches_to_frame_range_spec 10 20 5 (by decide) []).2.2.2⟩

/-! ### Data model of `src/batter/asset_usage.py`

`bpy` objects are modelled structurally: a `Library` carries an identity tag
(`lid`, standing for Python object identity), its stored `filepath` string
and its `packed_file` flag.  `library_abspath` and
`bpy.path.abspath(..., library=lib)` are host (`bpy`) lookups and are passed
in as resolver functions. -/

/-- A `bpy.types.Library` record: identity, stored path, inline-content
flag. -/
structure Library where
  lid : Nat
  filepath : String
  packed_file : Bool
  deriving DecidableEq, Repr

/-- A non-library `bpy.types.ID` datablock, exposing its owning library
(`None` for the currently open file). -/
structure BlendID where
  library : Option Library
  deriving DecidableEq, Repr

/-- One discovered dependency edge (`AssetUsage`,
`src/batter/asset_usage.py:23-65`): structural equality and hashing over
`(abspath, reference_path, is_blendfile)`. -/
structure AssetUsage where
  abspath : PPath
  reference_path : String
  is_blendfile : Bool
  deriving DecidableEq, Repr

/-- A key of `bpy.data.file_path_map(include_libraries=False)`: either a
`Library` datablock itself or an ordinary `ID` with its owning library. -/
inductive FPMKey where
  | libKey (l : Library)
  | idKey (library : Option Library)
  deriving DecidableEq, Repr

/-- A `bpy.data.images` entry. -/
structure Image where
  packed_file : Bool
  filepath : String
  source : String
  library : Option Library
  deriving DecidableEq, Repr

/-- A `bpy.data.sounds` entry. -/
structure Sound where
  packed_file : Bool
  filepath : String
  library : Option Library
  deriving DecidableEq, Repr

/-- A `bpy.data.movieclips` entry. -/
structure MovieClip where
  filepath : String
  library : Option Library
  deriving DecidableEq, Repr

/-- The read-only host data consulted by `find_nonblend_asset_usage`. -/
structure BpyData where
  file_path_map : List (FPMKey × List String)
  images : List Image
  sounds : List Sound
  movieclips : List MovieClip
  deriving DecidableEq, Repr

/-- The distinct failures `asset_usage.py` can raise: the named
"unsupported packed library" `RuntimeError` (lines 123/147/169/188), and the
`AttributeError` from reading `id_lib.filepath` when `id_lib` is `None`
(line 97). -/
inductive AUError where
  | unsupportedPackedLibrary (lib : Library)
  | attributeError
  deriving DecidableEq, Repr

/-- Python `set.add`: insert if absent (modelled with deterministic
insertion order). -/
def listSetInsert {α : Type} [DecidableEq α] (x : α) (l : List α) : List α :=
  if x ∈ l then l else l ++ [x]

/-- The keys of a `dict[K, set[V]]` modelled as an association list. -/
def auKeys {κ α : Type} (d : List (κ × List α)) : List κ :=
  d.map Prod.fst

/-- Python `dict.setdefault(k, set())`. -/
def dictSetdefault {κ α : Type} [DecidableEq κ]
    (d : List (κ × List α)) (k : κ) : List (κ × List α) :=
  if k ∈ auKeys d then d else d ++ [(k, [])]

/-- Python `defaultdict(set)`: `d[k].add(v)` (creates the key when
absent). -/
def dictAddTo {κ α : Type} [DecidableEq κ] [DecidableEq α] :
    List (κ × List α) → κ → α → List (κ × List α)
  | [], k, v => [(k, [v])]
  | (k', vs) :: rest, k, v =>
    if k' = k then (k', listSetInsert v vs) :: rest
    else (k', vs) :: dictAddTo rest k v

/-- Python `defaultdict(set)`: `d[k].update(vs)`. -/
def dictUpdateMany {κ α : Type} [DecidableEq κ] [DecidableEq α]
    (d : List (κ × List α)) (k : κ) (vs : List α) : List (κ × List α) :=
  vs.foldl (fun d' v => dictAddTo d' k v) (dictSetdefault d k)

/-- The dependency maps of `asset_usage.py`: `dict[Library | None,
set[AssetUsage]]`, modelled as an insertion-ordered association list. -/
abbrev AUMap : Type :=
  List (Option Library × List AssetUsage)

/-! ### `find_blend_asset_usage` (src/batter/asset_usage.py:81-103) -/

/-- Inner loop of `find_blend_asset_usage`: for each user of an `ID` owned
by `idLib`, skip users in the same library, otherwise build the usage
`AssetUsage(abspath=library_abspath(id_lib), reference_path=id_lib.filepath,
is_blendfile=True)` and add it under the user's library.  Reading
`id_lib.filepath` with `id_lib = None` raises `AttributeError`. -/
def fbauInner (libAbs : Option Library → PPath) (idLib : Option Library) :
    List BlendID → AUMap → Except AUError AUMap
  | [], d => .ok d
  | user :: rest, d =>
    if user.library = idLib then fbauInner libAbs idLib rest d
    else
      match idLib with
      | none => .error .attributeError
      | some l =>
        fbauInner libAbs idLib rest
          (dictAddTo d user.library ⟨libAbs idLib, l.filepath, true⟩)

/-- Outer loop of `find_blend_asset_usage` over `bpy.data.user_map()`
items: `libs_deps.setdefault(id_lib, set())`, then the inner user loop. -/
def fbauOuter (libAbs : Option Library → PPath) :
    List (BlendID × List BlendID) → AUMap → Except AUError AUMap
  | [], d => .ok d
  | (i, users) :: rest, d =>
    match fbauInner libAbs i.library users (dictSetdefault d i.library) with
    | .error e => .error e
    | .ok d' => fbauOuter libAbs rest d'

/-- Embedding of `find_blend_asset_usage()`
(`src/batter/asset_usage.py:81-103`).  `libAbs` models the memoized
`library_abspath` resolver; `user_map` is the iteration of
`bpy.data.user_map().items()`. -/
def find_blend_asset_usage (libAbs : Option Library → PPath)
    (user_map : List (BlendID × List BlendID)) : Except AUError AUMap :=
  fbauOuter libAbs user_map []

/-! ### `find_nonblend_asset_usage` (src/batter/asset_usage.py:106-201) -/

/-- Add one usage per literal reference path under the owning library
(`asset_usages[lib].add(AssetUsage(abspath=..., reference_path=filepath,
is_blendfile=False))`).  `resolveAbs` models
`Path(bpy.path.abspath(filepath, library=lib)).resolve()`. -/
def fnbAddAll (resolveAbs : String → Option Library → PPath)
    (lib : Option Library) (fps : List String) (d : AUMap) : AUMap :=
  fps.foldl (fun d' fp => dictAddTo d' lib ⟨resolveAbs fp lib, fp, false⟩) d

/-- The `file_path_map` loop (`src/batter/asset_usage.py:113-132`): skip
entries with no file paths and `Library`-typed users; raise the
"unsupported packed library" failure when the owning library stores its
content inline; otherwise record one usage per path. -/
def fnbFpm (resolveAbs : String → Option Library → PPath) :
    List (FPMKey × List String) → AUMap → Except AUError AUMap
  | [], d => .ok d
  | (k, fps) :: rest, d =>
    if fps = [] then fnbFpm resolveAbs rest d
    else
      match k with
      | .libKey _ => fnbFpm resolveAbs rest d
      | .idKey lib =>
        match lib with
        | some l =>
          if l.packed_file then .error (.unsupportedPackedLibrary l)
          else fnbFpm resolveAbs rest (fnbAddAll resolveAbs lib fps d)
        | none => fnbFpm resolveAbs rest (fnbAddAll resolveAbs none fps d)

/-- The fallback `bpy.data.images` scan
(`src/batter/asset_usage.py:136-158`): skip packed, path-less and
generated/sequence images; raise on a packed owning library; the per-image
`try`/`except` only guards the host path resolution, which the model treats
as total. -/
def fnbImages (resolveAbs : String → Option Library → PPath) :
    List Image → AUMap → Except AUError AUMap
  | [], d => .ok d
  | img :: rest, d =>
    if img.packed_file then fnbImages resolveAbs rest d
    else if img.filepath = "" then fnbImages resolveAbs rest d
    else if ¬ (img.source = "FILE" ∨ img.source = "TILED") then
      fnbImages resolveAbs rest d
    else
      match img.library with
      | some l =>
        if l.packed_file then .error (.unsupportedPackedLibrary l)
        else
          fnbImages resolveAbs rest
            (dictAddTo d img.library ⟨resolveAbs img.filepath img.library, img.filepath, false⟩)
      | none =>
        fnbImages resolveAbs rest
          (dictAddTo d none ⟨resolveAbs img.filepath none, img.filepath, false⟩)

/-- The `bpy.data.sounds` scan (`src/batter/asset_usage.py:161-180`). -/
def fnbSounds (resolveAbs : String → Option Library → PPath) :
    List Sound → AUMap → Except AUError AUMap
  | [], d => .ok d
  | snd :: rest, d =>
    if snd.packed_file then fnbSounds resolveAbs rest d
    else if snd.filepath = "" then fnbSounds resolveAbs rest d
    else
      match snd.library with
      | some l =>
        if l.packed_file then .error (.unsupportedPackedLibrary l)
        else
          fnbSounds resolveAbs rest
            (dictAddTo d snd.library ⟨resolveAbs snd.filepath snd.library, snd.filepath, false⟩)
      | none =>
        fnbSounds resolveAbs rest
          (dictAddTo d none ⟨resolveAbs snd.filepath none, snd.filepath, false⟩)

/-- The `bpy.data.movieclips` scan (`src/batter/asset_usage.py:182-199`). -/
def fnbClips (resolveAbs : String → Option Library → PPath) :
    List MovieClip → AUMap → Except AUError AUMap
  | [], d => .ok d
  | mc :: rest, d =>
    if mc.filepath = "" then fnbClips resolveAbs rest d
    else
      match mc.library with
      | some l =>
        if l.packed_file then .error (.unsupportedPackedLibrary l)
        else
          fnbClips resolveAbs rest
            (dictAddTo d mc.library ⟨resolveAbs mc.filepath mc.library, mc.filepath, false⟩)
      | none =>
        fnbClips resolveAbs rest
          (dictAddTo d none ⟨resolveAbs mc.filepath none, mc.filepath, false⟩)

/-- Embedding of `find_nonblend_asset_usage()`
(`src/batter/asset_usage.py:106-201`): the `file_path_map` loop, then the
image, sound and movie-clip fallback scans. -/
def find_nonblend_asset_usage (resolveAbs : String → Option Library → PPath)
    (data : BpyData) : Except AUError AUMap :=
  match fnbFpm resolveAbs data.file_path_map [] with
  | .error e => .error e
  | .ok d1 =>
    match fnbImages resolveAbs data.images d1 with
    | .error e => .error e
    | .ok d2 =>
      match fnbSounds resolveAbs data.sounds d2 with
      | .error e => .error e
      | .ok d3 => fnbClips resolveAbs data.movieclips d3

/-- Embedding of `_merge_keys(a, b)` (`src/batter/asset_usage.py:204-213`):
fold `a`'s items, then `b`'s, into a fresh `defaultdict(set)` via
`merged[key].update(values)`. -/
def _merge_keys (a b : AUMap) : AUMap :=
  b.foldl (fun m kv => dictUpdateMany m kv.1 kv.2)
    (a.foldl (fun m kv => dictUpdateMany m kv.1 kv.2) [])

/-- Embedding of `find()` (`src/batter/asset_usage.py:12-20`): the merge of
the blend-file map and the non-blend map, propagating either's failure. -/
def find (libAbs : Option Library → PPath)
    (resolveAbs : String → Option Library → PPath)
    (user_map : List (BlendID × List BlendID)) (data : BpyData) :
    Except AUError AUMap :=
  match find_blend_asset_usage libAbs user_map with
  | .error e => .error e
  | .ok a =>
    match find_nonblend_asset_usage resolveAbs data with
    | .error e => .error e
    | .ok b => .ok (_merge_keys a b)

theorem fnbFpm_cons_empty (ra : String → Option Library → PPath)
    (k : FPMKey) (rest : List (FPMKey × List String)) (d : AUMap) :
    fnbFpm ra ((k, []) :: rest) d = fnbFpm ra rest d := by
  cases k <;> rfl

theorem fnbFpm_cons_lib (ra : String → Option Library → PPath)
    (l0 : Library) (fps : List String) (rest : List (FPMKey × List String))
    (d : AUMap) (h : ¬ fps = []) :
    fnbFpm ra ((.libKey l0, fps) :: rest) d = fnbFpm ra rest d := by
  simp only [fnbFpm]
  rw [if_neg h]

theorem fnbFpm_cons_some (ra : String → Option Library → PPath)
    (l : Library) (fps : List String) (rest : List (FPMKey × List String))
    (d : AUMap) (h : ¬ fps = []) :
    fnbFpm ra ((.idKey (some l), fps) :: rest) d =
      if l.packed_file then .error (.unsupportedPackedLibrary l)
      else fnbFpm ra rest (fnbAddAll ra (some l) fps d) := by
  simp only [fnbFpm]
  rw [if_neg h]

theorem fnbFpm_cons_none (ra : String → Option Library → PPath)
    (fps : List String) (rest : List (FPMKey × List String))
    (d : AUMap) (h : ¬ fps = []) :
    fnbFpm ra ((.idKey none, fps) :: rest) d =
      fnbFpm ra rest (fnbAddAll ra none fps d) := by
  simp only [fnbFpm]
  rw [if_neg h]

theorem fnbFpm_error_shape (ra : String → Option Library → PPath) :
    ∀ (list : List (FPMKey × List String)) (d : AUMap) (e : AUError),
      fnbFpm ra list d = .error e →
      ∃ l, e = .unsupportedPackedLibrary l ∧ l.packed_file = true ∧
        ∃ kv ∈ list, kv.2 ≠ [] ∧ kv.1 = .idKey (some l) := by
  intro list
  induction list with
  | nil =>
    intro d e h
    simp [fnbFpm] at h
  | cons kv rest ih =>
    intro d e h
    obtain ⟨k, fps⟩ := kv
    by_cases hfps : fps = []
    · subst hfps
      rw [fnbFpm_cons_empty] at h
      obtain ⟨l, he, hp, kv', hkv', h1, h2⟩ := ih _ _ h
      exact ⟨l, he, hp, kv', List.mem_cons_of_mem _ hkv', h1, h2⟩
    · cases k with
      | libKey l0 =>
        rw [fnbFpm_cons_lib _ _ _ _ _ hfps] at h
        obtain ⟨l, he, hp, kv', hkv', h1, h2⟩ := ih _ _ h
        exact ⟨l, he, hp, kv', List.mem_cons_of_mem _ hkv', h1, h2⟩
      | idKey lib =>
        cases lib with
        | some l =>
          rw [fnbFpm_cons_some _ _ _ _ _ hfps] at h
          by_cases hpk : l.packed_file
          · rw [if_pos hpk] at h
            injection h with h
            exact ⟨l, h.symm, hpk, (.idKey (some l), fps),
              List.mem_cons_self _ _, hfps, rfl⟩
          · rw [if_neg hpk] at h
            obtain ⟨l', he, hp, kv', hkv', h1, h2⟩ := ih _ _ h
            exact ⟨l', he, hp, kv', List.mem_cons_of_mem _ hkv', h1, h2⟩
        | none =>
          rw [fnbFpm_cons_none _ _ _ _ hfps] at h
          obtain ⟨l', he, hp, kv', hkv', h1, h2⟩ := ih _ _ h
          exact ⟨l', he, hp, kv', List.mem_cons_of_mem _ hkv', h1, h2⟩

theorem fnbFpm_packed_error (ra : String → Option Library → PPath) :
    ∀ (list : List (FPMKey × List String)) (d : AUMap),
      (∃ kv ∈ list, kv.2 ≠ [] ∧ ∃ l, kv.1 = FPMKey.idKey (some l) ∧ l.packed_file = true) →
      ∃ e, fnbFpm ra list d = .error e := by
  intro list
  induction list with
  | nil =>
    rintro d ⟨kv, hkv, _⟩
    simp at hkv
  | cons kv rest ih =>
    rintro d ⟨kv', hkv', hne, l, hk, hp⟩
    obtain ⟨k, fps⟩ := kv
    rcases List.mem_cons.mp hkv' with heq | hmem
    · subst heq
      have hne' : ¬ fps = [] := hne
      have hk' : k = FPMKey.idKey (some l) := hk
      subst hk'
      rw [fnbFpm_cons_some _ _ _ _ _ hne']
      rw [if_pos hp]
      exact ⟨_, rfl⟩
    · by_cases hfps : fps = []
      · subst hfps
        rw [fnbFpm_cons_empty]
        exact ih d ⟨kv', hmem, hne, l, hk, hp⟩
      · cases k with
        | libKey l0 =>
          rw [fnbFpm_cons_lib _ _ _ _ _ hfps]
          exact ih d ⟨kv', hmem, hne, l, hk, hp⟩
        | idKey lib =>
          cases lib with
          | some l0 =>
            rw [fnbFpm_cons_some _ _ _ _ _ hfps]
            by_cases hp0 : l0.packed_file
            · rw [if_pos hp0]
              exact ⟨_, rfl⟩
            · rw [if_neg hp0]
              exact ih _ ⟨kv', hmem, hne, l, hk, hp⟩
          | none =>
            rw [fnbFpm_cons_none _ _ _ _ hfps]
            exact ih _ ⟨kv', hmem, hne, l, hk, hp⟩

theorem fnbImages_cons_skip (ra : String → Option Library → PPath)
    (img : Image) (rest : List Image) (d : AUMap)
    (h : img.packed_file = true ∨ img.filepath = "" ∨
      ¬ (img.source = "FILE" ∨ img.source = "TILED")) :
    fnbImages ra (img :: rest) d = fnbImages ra rest d := by
  simp only [fnbImages]
  rcases h with h1 | h2 | h3
  · rw [if_pos h1]
  · by_cases h1 : img.packed_file = true
    · rw [if_pos h1]
    · rw [if_neg h1, if_pos h2]
  · by_cases h1 : img.packed_file = true
    · rw [if_pos h1]
    · by_cases h2 : img.filepath = ""
      · rw [if_neg h1, if_pos h2]
      · rw [if_neg h1, if_neg h2, if_pos h3]

theorem fnbImages_cons_some (ra : String → Option Library → PPath)
    (img : Image) (rest : List Image) (d : AUMap) (l : Library)
    (h1 : img.packed_file = false) (h2 : ¬ img.filepath = "")
    (h3 : img.source = "FILE" ∨ img.source = "TILED")
    (hl : img.library = some l) :
    fnbImages ra (img :: rest) d =
      if l.packed_file then .error (.unsupportedPackedLibrary l)
      else fnbImages ra rest
        (dictAddTo d (some l) ⟨ra img.filepath (some l), img.filepath, false⟩) := by
  simp only [fnbImages]
  rw [if_neg (by simp [h1]), if_neg h2, if_neg (not_not_intro h3), hl]

theorem fnbImages_cons_none (ra : String → Option Library → PPath)
    (img : Image) (rest : List Image) (d : AUMap)
    (h1 : img.packed_file = false) (h2 : ¬ img.filepath = "")
    (h3 : img.source = "FILE" ∨ img.source = "TILED")
    (hl : img.library = none) :
    fnbImages ra (img :: rest) d =
      fnbImages ra rest
        (dictAddTo d none ⟨ra img.filepath none, img.filepath, false⟩) := by
  simp only [fnbImages]
  rw [if_neg (by simp [h1]), if_neg h2, if_neg (not_not_intro h3), hl]

theorem fnbImages_error_shape (ra : String → Option Library → PPath) :
    ∀ (list : List Image) (d : AUMap) (e : AUError),
      fnbImages ra list d = .error e →
      ∃ l, e = .unsupportedPackedLibrary l ∧ l.packed_file = true ∧
        ∃ img ∈ list, img.packed_file = false ∧ img.filepath ≠ "" ∧
          (img.source = "FILE" ∨ img.source = "TILED") ∧ img.library = some l := by
  intro list
  induction list with
  | nil =>
    intro d e h
    simp [fnbImages] at h
  | cons img rest ih =>
    intro d e h
    by_cases h1 : img.packed_file = true
    · rw [fnbImages_cons_skip _ _ _ _ (Or.inl h1)] at h
      obtain ⟨l, he, hp, img', hmem, hrest⟩ := ih _ _ h
      exact ⟨l, he, hp, img', List.mem_cons_of_mem _ hmem, hrest⟩
    · have h1' : img.packed_file = false := by
        cases hx : img.packed_file
        · rfl
        · exact absurd hx h1
      by_cases h2 : img.filepath = ""
      · rw [fnbImages_cons_skip _ _ _ _ (Or.inr (Or.inl h2))] at h
        obtain ⟨l, he, hp, img', hmem, hrest⟩ := ih _ _ h
        exact ⟨l, he, hp, img', List.mem_cons_of_mem _ hmem, hrest⟩
      · by_cases h3 : img.source = "FILE" ∨ img.source = "TILED"
        · cases hl : img.library with
          | some l =>
            rw [fnbImages_cons_some _ _ _ _ _ h1' h2 h3 hl] at h
            by_cases hpk : l.packed_file
            · rw [if_pos hpk] at h
              injection h with h
              exact ⟨l, h.symm, hpk, img, List.mem_cons_self _ _, h1', h2, h3, hl⟩
            · rw [if_neg hpk] at h
              obtain ⟨l', he, hp, img', hmem, hrest⟩ := ih _ _ h
              exact ⟨l', he, hp, img', List.mem_cons_of_mem _ hmem, hrest⟩
          | none =>
            rw [fnbImages_cons_none _ _ _ _ h1' h2 h3 hl] at h
            obtain ⟨l', he, hp, img', hmem, hrest⟩ := ih _ _ h
            exact ⟨l', he, hp, img', List.mem_cons_of_mem _ hmem, hrest⟩
        · rw [fnbImages_cons_skip _ _ _ _ (Or.inr (Or.inr h3))] at h
          obtain ⟨l, he, hp, img', hmem, hrest⟩ := ih _ _ h
          exact ⟨l, he, hp, img', List.mem_cons_of_mem _ hmem, hrest⟩

theorem fnbImages_packed_error (ra : String → Option Library → PPath) :
    ∀ (list : List Image) (d : AUMap),
      (∃ img ∈ list, img.packed_file = false ∧ img.filepath ≠ "" ∧
        (img.source = "FILE" ∨ img.source = "TILED") ∧
        ∃ l, img.library = some l ∧ l.packed_file = true) →
      ∃ e, fnbImages ra list d = .error e := by
  intro list
  induction list with
  | nil =>
    rintro d ⟨img, hmem, _⟩
    simp at hmem
  | cons img0 rest ih =>
    rintro d ⟨img, hmem, hoff⟩
    rcases List.mem_cons.mp hmem with heq | hmem'
    · subst heq
      obtain ⟨h1, h2, h3, l, hl, hp⟩ := hoff
      rw [fnbImages_cons_some _ _ _ _ _ h1 h2 h3 hl]
      rw [if_pos hp]
      exact ⟨_, rfl⟩
    · by_cases h1 : img0.packed_file = true
      · rw [fnbImages_cons_skip _ _ _ _ (Or.inl h1)]
        exact ih d ⟨img, hmem', hoff⟩
      · have h1' : img0.packed_file = false := by
          cases hx : img0.packed_file
          · rfl
          · exact absurd hx h1
        by_cases h2 : img0.filepath = ""
        · rw [fnbImages_cons_skip _ _ _ _ (Or.inr (Or.inl h2))]
          exact ih d ⟨img, hmem', hoff⟩
        · by_cases h3 : img0.source = "FILE" ∨ img0.source = "TILED"
          · cases hl : img0.library with
            | some l0 =>
              rw [fnbImages_cons_some _ _ _ _ _ h1' h2 h3 hl]
              by_cases hp0 : l0.packed_file
              · rw [if_pos hp0]
                exact ⟨_, rfl⟩
              · rw [if_neg hp0]
                exact ih _ ⟨img, hmem', hoff⟩
            | none =>
              rw [fnbImages_cons_none _ _ _ _ h1' h2 h3 hl]
              exact ih _ ⟨img, hmem', hoff⟩
          · rw [fnbImages_cons_skip _ _ _ _ (Or.inr (Or.inr h3))]
            exact ih d ⟨img, hmem', hoff⟩

theorem fnbSounds_cons_skip (ra : String → Option Library → PPath)
    (snd : Sound) (rest : List Sound) (d : AUMap)
    (h : snd.packed_file = true ∨ snd.filepath = "") :
    fnbSounds ra (snd :: rest) d = fnbSounds ra rest d := by
  simp only [fnbSounds]
  rcases h with h1 | h2
  · rw [if_pos h1]
  · by_cases h1 : snd.packed_file = true
    · rw [if_pos h1]
    · rw [if_neg h1, if_pos h2]

theorem fnbSounds_cons_some (ra : String → Option Library → PPath)
    (snd : Sound) (rest : List Sound) (d : AUMap) (l : Library)
    (h1 : snd.packed_file = false) (h2 : ¬ snd.filepath = "")
    (hl : snd.library = some l) :
    fnbSounds ra (snd :: rest) d =
      if l.packed_file then .error (.unsupportedPackedLibrary l)
      else fnbSounds ra rest
        (dictAddTo d (some l) ⟨ra snd.filepath (some l), snd.filepath, false⟩) := by
  simp only [fnbSounds]
  rw [if_neg (by simp [h1]), if_neg h2, hl]

theorem fnbSounds_cons_none (ra : String → Option Library → PPath)
    (snd : Sound) (rest : List Sound) (d : AUMap)
    (h1 : snd.packed_file = false) (h2 : ¬ snd.filepath = "")
    (hl : snd.library = none) :
    fnbSounds ra (snd :: rest) d =
      fnbSounds ra rest
        (dictAddTo d none ⟨ra snd.filepath none, snd.filepath, false⟩) := by
  simp only [fnbSounds]
  rw [if_neg (by simp [h1]), if_neg h2, hl]

theorem fnbSounds_error_shape (ra : String → Option Library → PPath) :
    ∀ (list : List Sound) (d : AUMap) (e : AUError),
      fnbSounds ra list d = .error e →
      ∃ l, e = .unsupportedPackedLibrary l ∧ l.packed_file = true ∧
        ∃ snd ∈ list, snd.packed_file = false ∧ snd.filepath ≠ "" ∧
          snd.library = some l := by
  intro list
  induction list with
  | nil =>
    intro d e h
    simp [fnbSounds] at h
  | cons snd rest ih =>
    intro d e h
    by_cases h1 : snd.packed_file = true
    · rw [fnbSounds_cons_skip _ _ _ _ (Or.inl h1)] at h
      obtain ⟨l, he, hp, s', hmem, hrest⟩ := ih _ _ h
      exact ⟨l, he, hp, s', List.mem_cons_of_mem _ hmem, hrest⟩
    · have h1' : snd.packed_file = false := by
        cases hx : snd.packed_file
        · rfl
        · exact absurd hx h1
      by_cases h2 : snd.filepath = ""
      · rw [fnbSounds_cons_skip _ _ _ _ (Or.inr h2)] at h
        obtain ⟨l, he, hp, s', hmem, hrest⟩ := ih _ _ h
        exact ⟨l, he, hp, s', List.mem_cons_of_mem _ hmem, hrest⟩
      · cases hl : snd.library with
        | some l =>
          rw [fnbSounds_cons_some _ _ _ _ _ h1' h2 hl] at h
          by_cases hpk : l.packed_file
          · rw [if_pos hpk] at h
            injection h with h
            exact ⟨l, h.symm, hpk, snd, List.mem_cons_self _ _, h1', h2, hl⟩
          · rw [if_neg hpk] at h
            obtain ⟨l', he, hp, s', hmem, hrest⟩ := ih _ _ h
            exact ⟨l', he, hp, s', List.mem_cons_of_mem _ hmem, hrest⟩
        | none =>
          rw [fnbSounds_cons_none _ _ _ _ h1' h2 hl] at h
          obtain ⟨l', he, hp, s', hmem, hrest⟩ := ih _ _ h
          exact ⟨l', he, hp, s', List.mem_cons_of_mem _ hmem, hrest⟩

theorem fnbSounds_packed_error (ra : String → Option Library → PPath) :
    ∀ (list : List Sound) (d : AUMap),
      (∃ snd ∈ list, snd.packed_file = false ∧ snd.filepath ≠ "" ∧
        ∃ l, snd.library = some l ∧ l.packed_file = true) →
      ∃ e, fnbSounds ra list d = .error e := by
  intro list
  induction list with
  | nil =>
    rintro d ⟨snd, hmem, _⟩
    simp at hmem
  | cons s0 rest ih =>
    rintro d ⟨snd, hmem, hoff⟩
    rcases List.mem_cons.mp hmem with heq | hmem'
    · subst heq
      obtain ⟨h1, h2, l, hl, hp⟩ := hoff
      rw [fnbSounds_cons_some _ _ _ _ _ h1 h2 hl]
      rw [if_pos hp]
      exact ⟨_, rfl⟩
    · by_cases h1 : s0.packed_file = true
      · rw [fnbSounds_cons_skip _ _ _ _ (Or.inl h1)]
        exact ih d ⟨snd, hmem', hoff⟩
      · have h1' : s0.packed_file = false := by
          cases hx : s0.packed_file
          · rfl
          · exact absurd hx h1
        by_cases h2 : s0.filepath = ""
        · rw [fnbSounds_cons_skip _ _ _ _ (Or.inr h2)]
          exact ih d ⟨snd, hmem', hoff⟩
        · cases hl : s0.library with
          | some l0 =>
            rw [fnbSounds_cons_some _ _ _ _ _ h1' h2 hl]
            by_cases hp0 : l0.packed_file
            · rw [if_pos hp0]
              exact ⟨_, rfl⟩
            · rw [if_neg hp0]
              exact ih _ ⟨snd, hmem', hoff⟩
          | none =>
            rw [fnbSounds_cons_none _ _ _ _ h1' h2 hl]
            exact ih _ ⟨snd, hmem', hoff⟩

theorem fnbClips_cons_skip (ra : String → Option Library → PPath)
    (mc : MovieClip) (rest : List MovieClip) (d : AUMap)
    (h : mc.filepath = "") :
    fnbClips ra (mc :: rest) d = fnbClips ra rest d := by
  simp only [fnbClips]
  rw [if_pos h]

theorem fnbClips_cons_some (ra : String → Option Library → PPath)
    (mc : MovieClip) (rest : List MovieClip) (d : AUMap) (l : Library)
    (h2 : ¬ mc.filepath = "") (hl : mc.library = some l) :
    fnbClips ra (mc :: rest) d =
      if l.packed_file then .error (.unsupportedPackedLibrary l)
      else fnbClips ra rest
        (dictAddTo d (some l) ⟨ra mc.filepath (some l), mc.filepath, false⟩) := by
  simp only [fnbClips]
  rw [if_neg h2, hl]

theorem fnbClips_cons_none (ra : String → Option Library → PPath)
    (mc : MovieClip) (rest : List MovieClip) (d : AUMap)
    (h2 : ¬ mc.filepath = "") (hl : mc.library = none) :
    fnbClips ra (mc :: rest) d =
      fnbClips ra rest
        (dictAddTo d none ⟨ra mc.filepath none, mc.filepath, false⟩) := by
  simp only [fnbClips]
  rw [if_neg h2, hl]

theorem fnbClips_error_shape (ra : String → Option Library → PPath) :
    ∀ (list : List MovieClip) (d : AUMap) (e : AUError),
      fnbClips ra list d = .error e →
      ∃ l, e = .unsupportedPackedLibrary l ∧ l.packed_file = true ∧
        ∃ mc ∈ list, mc.filepath ≠ "" ∧ mc.library = some l := by
  intro list
  induction list with
  | nil =>
    intro d e h
    simp [fnbClips] at h
  | cons mc rest ih =>
    intro d e h
    by_cases h2 : mc.filepath = ""
    · rw [fnbClips_cons_skip _ _ _ _ h2] at h
      obtain ⟨l, he, hp, m', hmem, hrest⟩ := ih _ _ h
      exact ⟨l, he, hp, m', List.mem_cons_of_mem _ hmem, hrest⟩
    · cases hl : mc.library with
      | some l =>
        rw [fnbClips_cons_some _ _ _ _ _ h2 hl] at h
        by_cases hpk : l.packed_file
        · rw [if_pos hpk] at h
          injection h with h
          exact ⟨l, h.symm, hpk, mc, List.mem_cons_self _ _, h2, hl⟩
        · rw [if_neg hpk] at h
          obtain ⟨l', he, hp, m', hmem, hrest⟩ := ih _ _ h
          exact ⟨l', he, hp, m', List.mem_cons_of_mem _ hmem, hrest⟩
      | none =>
        rw [fnbClips_cons_none _ _ _ _ h2 hl] at h
        obtain ⟨l', he, hp, m', hmem, hrest⟩ := ih _ _ h
        exact ⟨l', he, hp, m', List.mem_cons_of_mem _ hmem, hrest⟩

theorem fnbClips_packed_error (ra : String → Option Library → PPath) :
    ∀ (list : List MovieClip) (d : AUMap),
      (∃ mc ∈ list, mc.filepath ≠ "" ∧
        ∃ l, mc.library = some l ∧ l.packed_file = true) →
      ∃ e, fnbClips ra list d = .error e := by
  intro list
  induction list with
  | nil =>
    rintro d ⟨mc, hmem, _⟩
    simp at hmem
  | cons m0 rest ih =>
    rintro d ⟨mc, hmem, hoff⟩
    rcases List.mem_cons.mp hmem with heq | hmem'
    · subst heq
      obtain ⟨h2, l, hl, hp⟩ := hoff
      rw [fnbClips_cons_some _ _ _ _ _ h2 hl]
      rw [if_pos hp]
      exact ⟨_, rfl⟩
    · by_cases h2 : m0.filepath = ""
      · rw [fnbClips_cons_skip _ _ _ _ h2]
        exact ih d ⟨mc, hmem', hoff⟩
      · cases hl : m0.library with
        | some l0 =>
          rw [fnbClips_cons_some _ _ _ _ _ h2 hl]
          by_cases hp0 : l0.packed_file
          · rw [if_pos hp0]
            exact ⟨_, rfl⟩
          · rw [if_neg hp0]
            exact ih _ ⟨mc, hmem', hoff⟩
        | none =>
          rw [fnbClips_cons_none _ _ _ _ h2 hl]
          exact ih _ ⟨mc, hmem', hoff⟩

/-- `l` is the owning library of some entry that
`find_nonblend_asset_usage` actually consults: a `file_path_map` entry with
paths, or a scanned image/sound/movie-clip (passing the respective skip
guards). -/
def namesPackedOwner (data : BpyData) (l : Library) : Prop :=
  (∃ kv ∈ data.file_path_map, kv.2 ≠ [] ∧ kv.1 = FPMKey.idKey (some l)) ∨
  (∃ img ∈ data.images, img.packed_file = false ∧ img.filepath ≠ "" ∧
    (img.source = "FILE" ∨ img.source = "TILED") ∧ img.library = some l) ∨
  (∃ snd ∈ data.sounds, snd.packed_file = false ∧ snd.filepath ≠ "" ∧
    snd.library = some l) ∨
  (∃ mc ∈ data.movieclips, mc.filepath ≠ "" ∧ mc.library = some l)

/-- C2: when an owning document's defining library stores its content inline
(`packed_file` set), `find_nonblend_asset_usage` raises the distinct, named
"unsupported packed library" failure — the dedicated
`AUError.unsupportedPackedLibrary` constructor, not a generic error — and
the raised failure names a specific offending document: a library with the
packed flag set that owns a consulted entry.  Because the function returns
`Except.error`, no dependency map is returned for that call. -/
theorem find_nonblend_asset_usage_packed (ra : String → Option Library → PPath)
    (data : BpyData) (l : Library)
    (hp : l.packed_file = true) (hnames : namesPackedOwner data l) :
    ∃ l', find_nonblend_asset_usage ra data
        = .error (.unsupportedPackedLibrary l') ∧
      l'.packed_file = true ∧ namesPackedOwner data l' := by
  cases hfpm : fnbFpm ra data.file_path_map [] with
  | error e =>
    obtain ⟨l', he, hp', kv, hkv, hne, hk⟩ := fnbFpm_error_shape ra _ _ _ hfpm
    subst he
    have hres : find_nonblend_asset_usage ra data
        = .error (.unsupportedPackedLibrary l') := by
      simp only [find_nonblend_asset_usage, hfpm]
    exact ⟨l', hres, hp', Or.inl ⟨kv, hkv, hne, hk⟩⟩
  | ok d1 =>
    cases himg : fnbImages ra data.images d1 with
    | error e =>
      obtain ⟨l', he, hp', img, hmem, hrest⟩ := fnbImages_error_shape ra _ _ _ himg
      subst he
      have hres : find_nonblend_asset_usage ra data
          = .error (.unsupportedPackedLibrary l') := by
        simp only [find_nonblend_asset_usage, hfpm, himg]
      exact ⟨l', hres, hp', Or.inr (Or.inl ⟨img, hmem, hrest⟩)⟩
    | ok d2 =>
      cases hsnd : fnbSounds ra data.sounds d2 with
      | error e =>
        obtain ⟨l', he, hp', snd, hmem, hrest⟩ := fnbSounds_error_shape ra _ _ _ hsnd
        subst he
        have hres : find_nonblend_asset_usage ra data
            = .error (.unsupportedPackedLibrary l') := by
          simp only [find_nonblend_asset_usage, hfpm, himg, hsnd]
        exact ⟨l', hres, hp', Or.inr (Or.inr (Or.inl ⟨snd, hmem, hrest⟩))⟩
      | ok d3 =>
        cases hclip : fnbClips ra data.movieclips d3 with
        | error e =>
          obtain ⟨l', he, hp', mc, hmem, hrest⟩ := fnbClips_error_shape ra _ _ _ hclip
          subst he
          have hres : find_nonblend_asset_usage ra data
              = .error (.unsupportedPackedLibrary l') := by
            simp only [find_nonblend_asset_usage, hfpm, himg, hsnd, hclip]
          exact ⟨l', hres, hp', Or.inr (Or.inr (Or.inr ⟨mc, hmem, hrest⟩))⟩
        | ok dm =>
          exfalso
          rcases hnames with hf | hi | hs | hm
          · obtain ⟨kv, hkv, hne, hk⟩ := hf
            obtain ⟨e, he⟩ := fnbFpm_packed_error ra data.file_path_map []
              ⟨kv, hkv, hne, l, hk, hp⟩
            rw [hfpm] at he
            exact Except.noConfusion he
          · obtain ⟨img, hmem, h1, h2, h3, hl⟩ := hi
            obtain ⟨e, he⟩ := fnbImages_packed_error ra data.images d1
              ⟨img, hmem, h1, h2, h3, l, hl, hp⟩
            rw [himg] at he
            exact Except.noConfusion he
          · obtain ⟨snd, hmem, h1, h2, hl⟩ := hs
            obtain ⟨e, he⟩ := fnbSounds_packed_error ra data.sounds d2
              ⟨snd, hmem, h1, h2, l, hl, hp⟩
            rw [hsnd] at he
            exact Except.noConfusion he
          · obtain ⟨mc, hmem, h2, hl⟩ := hm
            obtain ⟨e, he⟩ := fnbClips_packed_error ra data.movieclips d3
              ⟨mc, hmem, h2, l, hl, hp⟩
            rw [hclip] at he
            exact Except.noConfusion he

/-- Witness for `find_nonblend_asset_usage_packed`: a single
`file_path_map` entry owned by a packed library triggers the named
failure. -/
theorem find_nonblend_asset_usage_packed_witness :
    (Library.mk 1 "lib.blend" true).packed_file = true ∧
      namesPackedOwner
        (BpyData.mk [(FPMKey.idKey (some (Library.mk 1 "lib.blend" true)), ["tex.png"])]
          [] [] [])
        (Library.mk 1 "lib.blend" true) ∧
      ∃ l', find_nonblend_asset_usage (fun _ _ => PPath.mk .posix ["a"])
          (BpyData.mk [(FPMKey.idKey (some (Library.mk 1 "lib.blend" true)), ["tex.png"])]
            [] [] [])
          = .error (.unsupportedPackedLibrary l') ∧
        l'.packed_file = true ∧
        namesPackedOwner
          (BpyData.mk [(FPMKey.idKey (some (Library.mk 1 "lib.blend" true)), ["tex.png"])]
            [] [] [])
          l' :=
  ⟨rfl,
    Or.inl ⟨(FPMKey.idKey (some (Library.mk 1 "lib.blend" true)), ["tex.png"]),
      List.mem_singleton.mpr rfl, by decide, rfl⟩,
    find_nonblend_asset_usage_packed (fun _ _ => PPath.mk .posix ["a"])
      (BpyData.mk [(FPMKey.idKey (some (Library.mk 1 "lib.blend" true)), ["tex.png"])]
        [] [] [])
      (Library.mk 1 "lib.blend" true) rfl
      (Or.inl ⟨(FPMKey.idKey (some (Library.mk 1 "lib.blend" true)), ["tex.png"]),
        List.mem_singleton.mpr rfl, by decide, rfl⟩)⟩

theorem mem_listSetInsert {α : Type} [DecidableEq α] (x v : α) (l : List α)
    (h : v ∈ listSetInsert x l) : v ∈ l ∨ v = x := by
  unfold listSetInsert at h
  by_cases hx : x ∈ l
  · rw [if_pos hx] at h
    exact Or.inl h
  · rw [if_neg hx] at h
    rcases List.mem_append.mp h with h1 | h2
    · exact Or.inl h1
    · exact Or.inr (List.mem_singleton.mp h2)

theorem mem_value_dictAddTo {κ α : Type} [DecidableEq κ] [DecidableEq α] :
    ∀ (d : List (κ × List α)) (k : κ) (v : α) (kv : κ × List α),
      kv ∈ dictAddTo d k v → ∀ v' ∈ kv.2,
        (∃ kv' ∈ d, kv'.1 = kv.1 ∧ v' ∈ kv'.2) ∨ (v' = v ∧ kv.1 = k) := by
  intro d
  induction d with
  | nil =>
    intro k v kv hkv v' hv'
    simp only [dictAddTo, List.mem_singleton] at hkv
    subst hkv
    simp only [List.mem_singleton] at hv'
    exact Or.inr ⟨hv', rfl⟩
  | cons kv0 rest ih =>
    intro k v kv hkv v' hv'
    obtain ⟨k0, vs0⟩ := kv0
    by_cases hk : k0 = k
    · simp only [dictAddTo, if_pos hk] at hkv
      rcases List.mem_cons.mp hkv with heq | hmem
      · subst heq
        rcases mem_listSetInsert v v' vs0 hv' with h1 | h2
        · exact Or.inl ⟨(k0, vs0), List.mem_cons_self _ _, rfl, h1⟩
        · exact Or.inr ⟨h2, hk⟩
      · exact Or.inl ⟨kv, List.mem_cons_of_mem _ hmem, rfl, hv'⟩
    · simp only [dictAddTo, if_neg hk] at hkv
      rcases List.mem_cons.mp hkv with heq | hmem
      · subst heq
        exact Or.inl ⟨(k0, vs0), List.mem_cons_self _ _, rfl, hv'⟩
      · rcases ih k v kv hmem v' hv' with ⟨kv', hkv', h1, h2⟩ | h
        · exact Or.inl ⟨kv', List.mem_cons_of_mem _ hkv', h1, h2⟩
        · exact Or.inr h

theorem auKeys_dictAddTo_mono {κ α : Type} [DecidableEq κ] [DecidableEq α] :
    ∀ (d : List (κ × List α)) (k k' : κ) (v : α),
      k' ∈ auKeys d → k' ∈ auKeys (dictAddTo d k v) := by
  intro d
  induction d with
  | nil =>
    intro k k' v h
    simp [auKeys] at h
  | cons kv0 rest ih =>
    intro k k' v h
    obtain ⟨k0, vs0⟩ := kv0
    simp only [auKeys, List.map_cons, List.mem_cons] at h
    by_cases hk : k0 = k
    · simp only [dictAddTo, if_pos hk, auKeys, List.map_cons, List.mem_cons]
      rcases h with h1 | h2
      · exact Or.inl h1
      · exact Or.inr h2
    · simp only [dictAddTo, if_neg hk, auKeys, List.map_cons, List.mem_cons]
      rcases h with h1 | h2
      · exact Or.inl h1
      · exact Or.inr (ih k k' v h2)

theorem auKeys_dictAddTo_self {κ α : Type} [DecidableEq κ] [DecidableEq α] :
    ∀ (d : List (κ × List α)) (k : κ) (v : α), k ∈ auKeys (dictAddTo d k v) := by
  intro d
  induction d with
  | nil =>
    intro k v
    simp [dictAddTo, auKeys]
  | cons kv0 rest ih =>
    intro k v
    obtain ⟨k0, vs0⟩ := kv0
    by_cases hk : k0 = k
    · simp only [dictAddTo, if_pos hk, auKeys, List.map_cons, List.mem_cons]
      exact Or.inl hk.symm
    · simp only [dictAddTo, if_neg hk, auKeys, List.map_cons, List.mem_cons]
      exact Or.inr (ih k v)

theorem mem_dictSetdefault {κ α : Type} [DecidableEq κ]
    (d : List (κ × List α)) (k : κ) (kv : κ × List α)
    (h : kv ∈ dictSetdefault d k) : kv ∈ d ∨ kv = (k, []) := by
  unfold dictSetdefault at h
  by_cases hk : k ∈ auKeys d
  · rw [if_pos hk] at h
    exact Or.inl h
  · rw [if_neg hk] at h
    rcases List.mem_append.mp h with h1 | h2
    · exact Or.inl h1
    · exact Or.inr (List.mem_singleton.mp h2)

theorem auKeys_dictSetdefault_mono {κ α : Type} [DecidableEq κ]
    (d : List (κ × List α)) (k k' : κ)
    (h : k' ∈ auKeys d) : k' ∈ auKeys (dictSetdefault d k) := by
  unfold dictSetdefault
  by_cases hk : k ∈ auKeys d
  · rw [if_pos hk]
    exact h
  · rw [if_neg hk]
    simp only [auKeys, List.map_append]
    exact List.mem_append_left _ h

theorem auKeys_dictSetdefault_self {κ α : Type} [DecidableEq κ]
    (d : List (κ × List α)) (k : κ) : k ∈ auKeys (dictSetdefault d k) := by
  unfold dictSetdefault
  by_cases hk : k ∈ auKeys d
  · rw [if_pos hk]
    exact hk
  · rw [if_neg hk]
    simp [auKeys]

theorem mem_value_dictUpdateMany {κ α : Type} [DecidableEq κ] [DecidableEq α]
    (k : κ) :
    ∀ (vs : List α) (d : List (κ × List α)) (kv : κ × List α),
      kv ∈ dictUpdateMany d k vs → ∀ v' ∈ kv.2,
        (∃ kv' ∈ d, kv'.1 = kv.1 ∧ v' ∈ kv'.2) ∨ (kv.1 = k ∧ v' ∈ vs) := by
  have haux : ∀ (vs : List α) (d0 : List (κ × List α)) (kv : κ × List α),
      kv ∈ vs.foldl (fun d' v => dictAddTo d' k v) d0 → ∀ v' ∈ kv.2,
        (∃ kv' ∈ d0, kv'.1 = kv.1 ∧ v' ∈ kv'.2) ∨ (kv.1 = k ∧ v' ∈ vs) := by
    intro vs
    induction vs with
    | nil =>
      intro d0 kv hkv v' hv'
      exact Or.inl ⟨kv, hkv, rfl, hv'⟩
    | cons v vs' ih =>
      intro d0 kv hkv v' hv'
      simp only [List.foldl_cons] at hkv
      rcases ih (dictAddTo d0 k v) kv hkv v' hv' with ⟨kv', hkv', h1, h2⟩ | ⟨h1, h2⟩
      · rcases mem_value_dictAddTo d0 k v kv' hkv' v' h2 with ⟨kv'', hkv'', h3, h4⟩ | ⟨h3, h4⟩
        · exact Or.inl ⟨kv'', hkv'', h3.trans h1, h4⟩
        · exact Or.inr ⟨h1 ▸ h4, h3 ▸ List.mem_cons_self _ _⟩
      · exact Or.inr ⟨h1, List.mem_cons_of_mem _ h2⟩
  intro vs d kv hkv v' hv'
  unfold dictUpdateMany at hkv
  rcases haux vs (dictSetdefault d k) kv hkv v' hv' with ⟨kv', hkv', h1, h2⟩ | h
  · rcases mem_dictSetdefault d k kv' hkv' with h3 | h3
    · exact Or.inl ⟨kv', h3, h1, h2⟩
    · rw [h3] at h2
      simp at h2
  · exact Or.inr h

theorem auKeys_dictUpdateMany_mono {κ α : Type} [DecidableEq κ] [DecidableEq α]
    (k : κ) :
    ∀ (vs : List α) (d : List (κ × List α)) (k' : κ),
      k' ∈ auKeys d → k' ∈ auKeys (dictUpdateMany d k vs) := by
  have haux : ∀ (vs : List α) (d0 : List (κ × List α)) (k' : κ),
      k' ∈ auKeys d0 → k' ∈ auKeys (vs.foldl (fun d' v => dictAddTo d' k v) d0) := by
    intro vs
    induction vs with
    | nil =>
      intro d0 k' h
      exact h
    | cons v vs' ih =>
      intro d0 k' h
      simp only [List.foldl_cons]
      exact ih _ _ (auKeys_dictAddTo_mono d0 k k' v h)
  intro vs d k' h
  unfold dictUpdateMany
  exact haux vs _ k' (auKeys_dictSetdefault_mono d k k' h)

theorem auKeys_dictUpdateMany_self {κ α : Type} [DecidableEq κ] [DecidableEq α]
    (k : κ) (vs : List α) (d : List (κ × List α)) :
    k ∈ auKeys (dictUpdateMany d k vs) := by
  have haux : ∀ (vs : List α) (d0 : List (κ × List α)),
      k ∈ auKeys d0 → k ∈ auKeys (vs.foldl (fun d' v => dictAddTo d' k v) d0) := by
    intro vs
    induction vs with
    | nil =>
      intro d0 h
      exact h
    | cons v vs' ih =>
      intro d0 h
      simp only [List.foldl_cons]
      exact ih _ (auKeys_dictAddTo_mono d0 k k v h)
  unfold dictUpdateMany
  exact haux vs _ (auKeys_dictSetdefault_self d k)

theorem fbauInner_cons_skip (libAbs : Option Library → PPath)
    (idLib : Option Library) (user : BlendID) (rest : List BlendID) (d : AUMap)
    (h : user.library = idLib) :
    fbauInner libAbs idLib (user :: rest) d = fbauInner libAbs idLib rest d := by
  simp only [fbauInner]
  rw [if_pos h]

theorem fbauInner_cons_add (libAbs : Option Library → PPath) (l : Library)
    (user : BlendID) (rest : List BlendID) (d : AUMap)
    (h : ¬ user.library = some l) :
    fbauInner libAbs (some l) (user :: rest) d =
      fbauInner libAbs (some l) rest
        (dictAddTo d user.library ⟨libAbs (some l), l.filepath, true⟩) := by
  simp only [fbauInner]
  rw [if_neg h]

theorem fbauInner_cons_err (libAbs : Option Library → PPath)
    (user : BlendID) (rest : List BlendID) (d : AUMap)
    (h : ¬ user.library = none) :
    fbauInner libAbs none (user :: rest) d = .error .attributeError := by
  simp only [fbauInner]
  rw [if_neg h]

/-- Invariant behind C3's graph closure: every blend-file usage's target
path is the resolved path of some key already present in the map. -/
def blendClosed (libAbs : Option Library → PPath) (d : AUMap) : Prop :=
  ∀ kv ∈ d, ∀ u ∈ kv.2, u.is_blendfile = true →
    ∃ k', k' ∈ auKeys d ∧ libAbs k' = u.abspath

theorem blendClosed_dictSetdefault (libAbs : Option Library → PPath)
    (d : AUMap) (k : Option Library) (h : blendClosed libAbs d) :
    blendClosed libAbs (dictSetdefault d k) := by
  intro kv hkv u hu hub
  rcases mem_dictSetdefault d k kv hkv with h1 | h1
  · obtain ⟨k', hk', habs⟩ := h kv h1 u hu hub
    exact ⟨k', auKeys_dictSetdefault_mono d k k' hk', habs⟩
  · rw [h1] at hu
    simp at hu

theorem blendClosed_dictAddTo (libAbs : Option Library → PPath)
    (d : AUMap) (k : Option Library) (u0 : AssetUsage)
    (h : blendClosed libAbs d)
    (hk0 : ∃ k0, k0 ∈ auKeys d ∧ libAbs k0 = u0.abspath) :
    blendClosed libAbs (dictAddTo d k u0) := by
  intro kv hkv u hu hub
  rcases mem_value_dictAddTo d k u0 kv hkv u hu with ⟨kv', hkv', h1, h2⟩ | ⟨h1, h2⟩
  · obtain ⟨k', hk', habs⟩ := h kv' hkv' u h2 hub
    exact ⟨k', auKeys_dictAddTo_mono d k k' u0 hk', habs⟩
  · obtain ⟨k0, hk0m, habs⟩ := hk0
    rw [h1]
    exact ⟨k0, auKeys_dictAddTo_mono d k k0 u0 hk0m, habs⟩

theorem fbauInner_ok (libAbs : Option Library → PPath) (idLib : Option Library) :
    ∀ (users : List BlendID) (d d' : AUMap),
      fbauInner libAbs idLib users d = .ok d' →
      blendClosed libAbs d → idLib ∈ auKeys d →
      blendClosed libAbs d' ∧ (∀ k', k' ∈ auKeys d → k' ∈ auKeys d') := by
  intro users
  induction users with
  | nil =>
    intro d d' h hc hk
    simp only [fbauInner] at h
    injection h with h
    subst h
    exact ⟨hc, fun _ hx => hx⟩
  | cons user rest ih =>
    intro d d' h hc hk
    by_cases hu : user.library = idLib
    · rw [fbauInner_cons_skip _ _ _ _ _ hu] at h
      exact ih d d' h hc hk
    · cases idLib with
      | none =>
        rw [fbauInner_cons_err _ _ _ _ hu] at h
        exact Except.noConfusion h
      | some l =>
        rw [fbauInner_cons_add _ _ _ _ _ hu] at h
        have hc2 : blendClosed libAbs
            (dictAddTo d user.library ⟨libAbs (some l), l.filepath, true⟩) :=
          blendClosed_dictAddTo libAbs d user.library _ hc ⟨some l, hk, rfl⟩
        have hk2 : some l ∈ auKeys
            (dictAddTo d user.library ⟨libAbs (some l), l.filepath, true⟩) :=
          auKeys_dictAddTo_mono d user.library (some l) _ hk
        obtain ⟨hc', hmono⟩ := ih _ d' h hc2 hk2
        exact ⟨hc', fun k' hx =>
          hmono k' (auKeys_dictAddTo_mono d user.library k' _ hx)⟩

theorem fbauOuter_ok (libAbs : Option Library → PPath) :
    ∀ (um : List (BlendID × List BlendID)) (d d' : AUMap),
      fbauOuter libAbs um d = .ok d' → blendClosed libAbs d →
      blendClosed libAbs d' := by
  intro um
  induction um with
  | nil =>
    intro d d' h hc
    simp only [fbauOuter] at h
    injection h with h
    subst h
    exact hc
  | cons entry rest ih =>
    intro d d' h hc
    obtain ⟨i, users⟩ := entry
    cases hin : fbauInner libAbs i.library users (dictSetdefault d i.library) with
    | error e =>
      have hstep : fbauOuter libAbs ((i, users) :: rest) d = .error e := by
        simp only [fbauOuter, hin]
      rw [hstep] at h
      exact Except.noConfusion h
    | ok d1 =>
      have hstep : fbauOuter libAbs ((i, users) :: rest) d
          = fbauOuter libAbs rest d1 := by
        simp only [fbauOuter, hin]
      rw [hstep] at h
      have hsd : blendClosed libAbs (dictSetdefault d i.library) :=
        blendClosed_dictSetdefault libAbs d i.library hc
      have hkd : i.library ∈ auKeys (dictSetdefault d i.library) :=
        auKeys_dictSetdefault_self d i.library
      obtain ⟨hc1, _⟩ := fbauInner_ok libAbs i.library users _ d1 hin hsd hkd
      exact ih d1 d' h hc1

theorem find_blend_closed (libAbs : Option Library → PPath)
    (um : List (BlendID × List BlendID)) (a : AUMap)
    (h : find_blend_asset_usage libAbs um = .ok a) : blendClosed libAbs a := by
  apply fbauOuter_ok libAbs um [] a h
  intro kv hkv
  simp at hkv

/-- Invariant: `find_nonblend_asset_usage` only ever records non-blend
usages. -/
def nonblendOnly (d : AUMap) : Prop :=
  ∀ kv ∈ d, ∀ u ∈ kv.2, u.is_blendfile = false

theorem nonblendOnly_dictAddTo (d : AUMap) (k : Option Library)
    (u0 : AssetUsage) (h : nonblendOnly d) (hu0 : u0.is_blendfile = false) :
    nonblendOnly (dictAddTo d k u0) := by
  intro kv hkv u hu
  rcases mem_value_dictAddTo d k u0 kv hkv u hu with ⟨kv', hkv', _, h2⟩ | ⟨h1, _⟩
  · exact h kv' hkv' u h2
  · rw [h1]
    exact hu0

theorem nonblendOnly_fnbAddAll (ra : String → Option Library → PPath)
    (lib : Option Library) :
    ∀ (fps : List String) (d : AUMap),
      nonblendOnly d → nonblendOnly (fnbAddAll ra lib fps d) := by
  intro fps
  induction fps with
  | nil =>
    intro d h
    exact h
  | cons fp rest ih =>
    intro d h
    have hstep : fnbAddAll ra lib (fp :: rest) d
        = fnbAddAll ra lib rest (dictAddTo d lib ⟨ra fp lib, fp, false⟩) := rfl
    rw [hstep]
    exact ih _ (nonblendOnly_dictAddTo d lib _ h rfl)

theorem fnbFpm_ok_nonblend (ra : String → Option Library → PPath) :
    ∀ (list : List (FPMKey × List String)) (d d' : AUMap),
      fnbFpm ra list d = .ok d' → nonblendOnly d → nonblendOnly d' := by
  intro list
  induction list with
  | nil =>
    intro d d' h hq
    simp only [fnbFpm] at h
    injection h with h
    subst h
    exact hq
  | cons kv rest ih =>
    intro d d' h hq
    obtain ⟨k, fps⟩ := kv
    by_cases hfps : fps = []
    · subst hfps
      rw [fnbFpm_cons_empty] at h
      exact ih d d' h hq
    · cases k with
      | libKey l0 =>
        rw [fnbFpm_cons_lib _ _ _ _ _ hfps] at h
        exact ih d d' h hq
      | idKey lib =>
        cases lib with
        | some l =>
          rw [fnbFpm_cons_some _ _ _ _ _ hfps] at h
          by_cases hpk : l.packed_file
          · rw [if_pos hpk] at h
            exact Except.noConfusion h
          · rw [if_neg hpk] at h
            exact ih _ d' h (nonblendOnly_fnbAddAll ra _ fps d hq)
        | none =>
          rw [fnbFpm_cons_none _ _ _ _ hfps] at h
          exact ih _ d' h (nonblendOnly_fnbAddAll ra _ fps d hq)

theorem fnbImages_ok_nonblend (ra : String → Option Library → PPath) :
    ∀ (list : List Image) (d d' : AUMap),
      fnbImages ra list d = .ok d' → nonblendOnly d → nonblendOnly d' := by
  intro list
  induction list with
  | nil =>
    intro d d' h hq
    simp only [fnbImages] at h
    injection h with h
    subst h
    exact hq
  | cons img rest ih =>
    intro d d' h hq
    by_cases h1 : img.packed_file = true
    · rw [fnbImages_cons_skip _ _ _ _ (Or.inl h1)] at h
      exact ih d d' h hq
    · have h1' : img.packed_file = false := by
        cases hx : img.packed_file
        · rfl
        · exact absurd hx h1
      by_cases h2 : img.filepath = ""
      · rw [fnbImages_cons_skip _ _ _ _ (Or.inr (Or.inl h2))] at h
        exact ih d d' h hq
      · by_cases h3 : img.source = "FILE" ∨ img.source = "TILED"
        · cases hl : img.library with
          | some l =>
            rw [fnbImages_cons_some _ _ _ _ _ h1' h2 h3 hl] at h
            by_cases hpk : l.packed_file
            · rw [if_pos hpk] at h
              exact Except.noConfusion h
            · rw [if_neg hpk] at h
              exact ih _ d' h (nonblendOnly_dictAddTo d _ _ hq rfl)
          | none =>
            rw [fnbImages_cons_none _ _ _ _ h1' h2 h3 hl] at h
            exact ih _ d' h (nonblendOnly_dictAddTo d _ _ hq rfl)
        · rw [fnbImages_cons_skip _ _ _ _ (Or.inr (Or.inr h3))] at h
          exact ih d d' h hq

theorem fnbSounds_ok_nonblend (ra : String → Option Library → PPath) :
    ∀ (list : List Sound) (d d' : AUMap),
      fnbSounds ra list d = .ok d' → nonblendOnly d → nonblendOnly d' := by
  intro list
  induction list with
  | nil =>
    intro d d' h hq
    simp only [fnbSounds] at h
    injection h with h
    subst h
    exact hq
  | cons snd rest ih =>
    intro d d' h hq
    by_cases h1 : snd.packed_file = true
    · rw [fnbSounds_cons_skip _ _ _ _ (Or.inl h1)] at h
      exact ih d d' h hq
    · have h1' : snd.packed_file = false := by
        cases hx : snd.packed_file
        · rfl
        · exact absurd hx h1
      by_cases h2 : snd.filepath = ""
      · rw [fnbSounds_cons_skip _ _ _ _ (Or.inr h2)] at h
        exact ih d d' h hq
      · cases hl : snd.library with
        | some l =>
          rw [fnbSounds_cons_some _ _ _ _ _ h1' h2 hl] at h
          by_cases hpk : l.packed_file
          · rw [if_pos hpk] at h
            exact Except.noConfusion h
          · rw [if_neg hpk] at h
            exact ih _ d' h (nonblendOnly_dictAddTo d _ _ hq rfl)
        | none =>
          rw [fnbSounds_cons_none _ _ _ _ h1' h2 hl] at h
          exact ih _ d' h (nonblendOnly_dictAddTo d _ _ hq rfl)

theorem fnbClips_ok_nonblend (ra : String → Option Library → PPath) :
    ∀ (list : List MovieClip) (d d' : AUMap),
      fnbClips ra list d = .ok d' → nonblendOnly d → nonblendOnly d' := by
  intro list
  induction list with
  | nil =>
    intro d d' h hq
    simp only [fnbClips] at h
    injection h with h
    subst h
    exact hq
  | cons mc rest ih =>
    intro d d' h hq
    by_cases h2 : mc.filepath = ""
    · rw [fnbClips_cons_skip _ _ _ _ h2] at h
      exact ih d d' h hq
    · cases hl : mc.library with
      | some l =>
        rw [fnbClips_cons_some _ _ _ _ _ h2 hl] at h
        by_cases hpk : l.packed_file
        · rw [if_pos hpk] at h
          exact Except.noConfusion h
        · rw [if_neg hpk] at h
          exact ih _ d' h (nonblendOnly_dictAddTo d _ _ hq rfl)
      | none =>
        rw [fnbClips_cons_none _ _ _ _ h2 hl] at h
        exact ih _ d' h (nonblendOnly_dictAddTo d _ _ hq rfl)

theorem find_nonblend_nonblendOnly (ra : String → Option Library → PPath)
    (data : BpyData) (b : AUMap)
    (h : find_nonblend_asset_usage ra data = .ok b) : nonblendOnly b := by
  have hempty : nonblendOnly ([] : AUMap) := by
    intro kv hkv
    simp at hkv
  cases hfpm : fnbFpm ra data.file_path_map [] with
  | error e =>
    simp only [find_nonblend_asset_usage, hfpm] at h
    exact Except.noConfusion h
  | ok d1 =>
    simp only [find_nonblend_asset_usage, hfpm] at h
    cases himg : fnbImages ra data.images d1 with
    | error e =>
      simp only [himg] at h
      exact Except.noConfusion h
    | ok d2 =>
      simp only [himg] at h
      cases hsnd : fnbSounds ra data.sounds d2 with
      | error e =>
        simp only [hsnd] at h
        exact Except.noConfusion h
      | ok d3 =>
        simp only [hsnd] at h
        have h1 := fnbFpm_ok_nonblend ra data.file_path_map [] d1 hfpm hempty
        have h2 := fnbImages_ok_nonblend ra data.images d1 d2 himg h1
        have h3 := fnbSounds_ok_nonblend ra data.sounds d2 d3 hsnd h2
        exact fnbClips_ok_nonblend ra data.movieclips d3 b h h3

theorem mergeFold_value :
    ∀ (list m : AUMap) (kv : Option Library × List AssetUsage),
      kv ∈ list.foldl (fun m kv => dictUpdateMany m kv.1 kv.2) m →
      ∀ v' ∈ kv.2,
        (∃ kv' ∈ m, kv'.1 = kv.1 ∧ v' ∈ kv'.2) ∨
        (∃ kv' ∈ list, kv'.1 = kv.1 ∧ v' ∈ kv'.2) := by
  intro list
  induction list with
  | nil =>
    intro m kv hkv v' hv'
    exact Or.inl ⟨kv, hkv, rfl, hv'⟩
  | cons kv0 rest ih =>
    intro m kv hkv v' hv'
    simp only [List.foldl_cons] at hkv
    rcases ih (dictUpdateMany m kv0.1 kv0.2) kv hkv v' hv' with
      ⟨kv', hkv', h1, h2⟩ | ⟨kv', hkv', h1, h2⟩
    · rcases mem_value_dictUpdateMany kv0.1 kv0.2 m kv' hkv' v' h2 with
        ⟨kv'', hkv'', h3, h4⟩ | ⟨h3, h4⟩
      · exact Or.inl ⟨kv'', hkv'', h3.trans h1, h4⟩
      · exact Or.inr ⟨kv0, List.mem_cons_self _ _, h3 ▸ h1, h4⟩
    · exact Or.inr ⟨kv', List.mem_cons_of_mem _ hkv', h1, h2⟩

theorem mergeFold_keys_mono :
    ∀ (list m : AUMap) (k : Option Library),
      k ∈ auKeys m →
      k ∈ auKeys (list.foldl (fun m kv => dictUpdateMany m kv.1 kv.2) m) := by
  intro list
  induction list with
  | nil =>
    intro m k h
    exact h
  | cons kv0 rest ih =>
    intro m k h
    simp only [List.foldl_cons]
    exact ih _ k (auKeys_dictUpdateMany_mono kv0.1 kv0.2 m k h)

theorem mergeFold_keys_from :
    ∀ (list m : AUMap) (kv : Option Library × List AssetUsage),
      kv ∈ list →
      kv.1 ∈ auKeys (list.foldl (fun m kv => dictUpdateMany m kv.1 kv.2) m) := by
  intro list
  induction list with
  | nil =>
    intro m kv hkv
    simp at hkv
  | cons kv0 rest ih =>
    intro m kv hkv
    simp only [List.foldl_cons]
    rcases List.mem_cons.mp hkv with heq | hmem
    · subst heq
      exact mergeFold_keys_mono rest _ kv.1
        (auKeys_dictUpdateMany_self kv.1 kv.2 m)
    · exact ih _ kv hmem

/-- C3: graph closure of `find()`.  Whenever `find()` succeeds with merged
map `m`, every `is_blendfile` usage's target absolute path is the resolved
path of some owning key of `m` — so a topological sort over `m` never
encounters an undefined node.  (Keys are identified by their resolved path
`libAbs k`, which is exactly how the usage's `abspath` was produced at
`src/batter/asset_usage.py:95-99`.) -/
theorem find_graph_closure (libAbs : Option Library → PPath)
    (ra : String → Option Library → PPath)
    (um : List (BlendID × List BlendID)) (data : BpyData) (m : AUMap)
    (h : find libAbs ra um data = .ok m) :
    ∀ kv ∈ m, ∀ u ∈ kv.2, u.is_blendfile = true →
      ∃ k', k' ∈ auKeys m ∧ libAbs k' = u.abspath := by
  cases ha : find_blend_asset_usage libAbs um with
  | error e =>
    simp only [find, ha] at h
    exact Except.noConfusion h
  | ok a =>
    simp only [find, ha] at h
    cases hb : find_nonblend_asset_usage ra data with
    | error e =>
      simp only [hb] at h
      exact Except.noConfusion h
    | ok b =>
      simp only [hb] at h
      injection h with h
      subst h
      have hca : blendClosed libAbs a := find_blend_closed libAbs um a ha
      have hqb : nonblendOnly b := find_nonblend_nonblendOnly ra data b hb
      intro kv hkv u hu hub
      unfold _merge_keys at hkv ⊢
      rcases mergeFold_value b _ kv hkv u hu with
        ⟨kv', hkv', h1, h2⟩ | ⟨kv', hkv', h1, h2⟩
      · -- the usage comes (through the a-fold) from `a`
        rcases mergeFold_value a [] kv' hkv' u h2 with
          ⟨kv'', hkv'', _, _⟩ | ⟨kv'', hkv'', h3, h4⟩
        · simp at hkv''
        · obtain ⟨k', hk', habs⟩ := hca kv'' hkv'' u h4 hub
          obtain ⟨kva, hkva, hfst⟩ := List.mem_map.mp hk'
          refine ⟨k', ?_, habs⟩
          have hin : k' ∈ auKeys (a.foldl (fun m kv => dictUpdateMany m kv.1 kv.2) []) := by
            rw [← hfst]
            exact mergeFold_keys_from a [] kva hkva
          exact mergeFold_keys_mono b _ k' hin
      · -- the usage would come from `b`, contradicting nonblendOnly
        have := hqb kv' hkv' u h2
        rw [hub] at this
        exact Bool.noConfusion this

/-- Concrete inputs for the `find_graph_closure` witness: the open file
(`None`) links one library. -/
def wLib : Library :=
  ⟨1, "//lib.blend", false⟩

/-- Concrete `library_abspath` resolver for the witness. -/
def wLibAbs : Option Library → PPath := fun ol =>
  match ol with
  | none => ⟨.posix, ["p", "top.blend"]⟩
  | some _ => ⟨.posix, ["p", "lib.blend"]⟩

/-- Concrete `bpy.path.abspath` resolver for the witness. -/
def wRa : String → Option Library → PPath := fun _ _ =>
  ⟨.posix, ["p", "tex.png"]⟩

/-- Concrete `user_map` for the witness: an `ID` owned by `wLib` is used by
an `ID` of the open file. -/
def wUm : List (BlendID × List BlendID) :=
  [(⟨some wLib⟩, [⟨none⟩])]

/-- Concrete host data for the witness (no non-blend assets). -/
def wData : BpyData :=
  ⟨[], [], [], []⟩

/-- The merged map computed by `find` on the witness inputs. -/
def wFindResult : AUMap :=
  (find wLibAbs wRa wUm wData).toOption.getD []

/-- Witness for `find_graph_closure` at the concrete inputs. -/
theorem find_graph_closure_witness :
    find wLibAbs wRa wUm wData = .ok wFindResult ∧
      (∀ kv ∈ wFindResult, ∀ u ∈ kv.2, u.is_blendfile = true →
        ∃ k', k' ∈ auKeys wFindResult ∧ wLibAbs k' = u.abspath) :=
  ⟨rfl, find_graph_closure wLibAbs wRa wUm wData wFindResult rfl⟩

/-! ### The batch packer's dependency order (src/pack.py:815-872)

`visit` is the post-order depth-first traversal of the blend→blend
adjacency: mark the node visited, visit all its dependencies, then append
the node to the order.  Python's unbounded recursion is modelled with an
explicit recursion-depth budget `fuel`; a rank function decreasing along
edges (the standard witness of acyclicity for finite graphs) bounds the
depth, so any `fuel` above all ranks makes the model agree with the
source. -/

/-- One `visit(node)` call (`src/pack.py:838-844`) on the state
`(visited, order)`, with `fuel` bounding the recursion depth. -/
def visitF {α : Type} [DecidableEq α] (adj : α → List α) :
    Nat → α → (List α × List α) → (List α × List α)
  | 0, _, s => s
  | fuel + 1, node, s =>
    if node ∈ s.1 then s
    else
      let s' := (adj node).foldl (fun acc dep => visitF adj fuel dep acc)
        (node :: s.1, s.2)
      (s'.1, s'.2 ++ [node])

/-- `for node in nodes: visit(node)` (`src/pack.py:846-847`), returning the
computed `order`. -/
def runVisit {α : Type} [DecidableEq α] (adj : α → List α) (fuel : Nat)
    (nodes : List α) : List α :=
  (nodes.foldl (fun s node => visitF adj fuel node s) ([], [])).2

/-- The DFS state invariant: the order is contained in the visited set,
dependencies appear before their dependents inside the order, and the order
has no duplicates. -/
def dfsInv {α : Type} (adj : α → List α) (v o : List α) : Prop :=
  (∀ x ∈ o, x ∈ v) ∧ (∀ a ∈ o, ∀ b ∈ adj a, List.Sublist [b, a] o) ∧ o.Nodup

theorem visitF_spec {α : Type} [DecidableEq α] (adj : α → List α)
    (r : α → Nat) (hr : ∀ a, ∀ b ∈ adj a, r b < r a) :
    ∀ (fuel : Nat) (node : α) (v o : List α),
      r node < fuel → dfsInv adj v o →
      (∀ x ∈ v, x ∉ o → r node < r x) →
      ∃ v' o' Δ, visitF adj fuel node (v, o) = (v', o') ∧
        o' = o ++ Δ ∧
        (∀ x ∈ v, x ∈ v') ∧
        dfsInv adj v' o' ∧
        (∀ x, (x ∈ v' ∧ x ∉ o') ↔ (x ∈ v ∧ x ∉ o)) ∧
        node ∈ o' := by
  intro fuel
  induction fuel with
  | zero =>
    intro node v o hfuel
    omega
  | succ fuel ih =>
    intro node v o hfuel hinv hstack
    by_cases hmem : node ∈ v
    · -- already visited: since the stack ranks are strictly above
      -- `r node`, the node cannot be on the stack, so it is in the order
      have hnode_o : node ∈ o := by
        by_contra hno
        exact absurd (hstack node hmem hno) (by omega)
      refine ⟨v, o, [], ?_, by simp, fun x hx => hx, hinv, fun x => Iff.rfl, hnode_o⟩
      simp only [visitF, if_pos hmem]
    · -- the dependency fold: all deps have rank below `r node`, and the
      -- stack (now including `node`) has ranks at least `r node`
      have hfold : ∀ (ds : List α), (∀ d ∈ ds, r d < r node) →
          ∀ (v2 o2 : List α), dfsInv adj v2 o2 →
          (∀ x ∈ v2, x ∉ o2 → r node ≤ r x) →
          ∃ v3 o3 Δ,
            ds.foldl (fun acc dep => visitF adj fuel dep acc) (v2, o2) = (v3, o3) ∧
            o3 = o2 ++ Δ ∧
            (∀ x ∈ v2, x ∈ v3) ∧
            dfsInv adj v3 o3 ∧
            (∀ x, (x ∈ v3 ∧ x ∉ o3) ↔ (x ∈ v2 ∧ x ∉ o2)) ∧
            (∀ d ∈ ds, d ∈ o3) := by
        intro ds
        induction ds with
        | nil =>
          intro _ v2 o2 hinv2 _
          exact ⟨v2, o2, [], rfl, by simp, fun x hx => hx, hinv2,
            fun x => Iff.rfl, by simp⟩
        | cons d ds' ihds =>
          intro hds v2 o2 hinv2 hstack2
          have hd : r d < r node := hds d (List.mem_cons_self _ _)
          have hdfuel : r d < fuel := by omega
          have hdstack : ∀ x ∈ v2, x ∉ o2 → r d < r x := by
            intro x hx hxo
            have := hstack2 x hx hxo
            omega
          obtain ⟨v3, o3, Δ1, heq1, hext1, hmono1, hinv3, hiff1, hdin⟩ :=
            ih d v2 o2 hdfuel hinv2 hdstack
          have hstack3 : ∀ x ∈ v3, x ∉ o3 → r node ≤ r x := by
            intro x hx hxo
            obtain ⟨hx2, hxo2⟩ := (hiff1 x).mp ⟨hx, hxo⟩
            exact hstack2 x hx2 hxo2
          obtain ⟨v4, o4, Δ2, heq2, hext2, hmono2, hinv4, hiff2, hds'in⟩ :=
            ihds (fun d' hd' => hds d' (List.mem_cons_of_mem _ hd')) v3 o3
              hinv3 hstack3
          refine ⟨v4, o4, Δ1 ++ Δ2, ?_, ?_, ?_, hinv4, ?_, ?_⟩
          · simp only [List.foldl_cons, heq1, heq2]
          · rw [hext2, hext1, List.append_assoc]
          · intro x hx
            exact hmono2 x (hmono1 x hx)
          · intro x
            exact (hiff2 x).trans (hiff1 x)
          · intro d' hd'
            rcases List.mem_cons.mp hd' with heq | hmem'
            · subst heq
              rw [hext2]
              exact List.mem_append_left _ hdin
            · exact hds'in d' hmem'
      have hinv1 : dfsInv adj (node :: v) o := by
        obtain ⟨hsub, htopo, hnd⟩ := hinv
        exact ⟨fun x hx => List.mem_cons_of_mem _ (hsub x hx), htopo, hnd⟩
      have hstack1 : ∀ x ∈ node :: v, x ∉ o → r node ≤ r x := by
        intro x hx hxo
        rcases List.mem_cons.mp hx with heq | hmem'
        · subst heq
          exact le_refl _
        · exact le_of_lt (hstack x hmem' hxo)
      obtain ⟨v3, o3, Δ1, heq1, hext1, hmono1, hinv3, hiff1, hdsin⟩ :=
        hfold (adj node) (hr node) (node :: v) o hinv1 hstack1
      have hnode_v3 : node ∈ v3 := hmono1 node (List.mem_cons_self _ _)
      have hnode_no3 : node ∉ o3 := by
        have hno : node ∉ o := by
          intro hno
          exact hmem (hinv.1 node hno)
        exact ((hiff1 node).mpr ⟨List.mem_cons_self _ _, hno⟩).2
      refine ⟨v3, o3 ++ [node], Δ1 ++ [node], ?_, ?_, ?_, ?_, ?_, ?_⟩
      · simp only [visitF, if_neg hmem, heq1]
      · rw [hext1, List.append_assoc]
      · intro x hx
        exact hmono1 x (List.mem_cons_of_mem _ hx)
      · obtain ⟨hsub3, htopo3, hnd3⟩ := hinv3
        refine ⟨?_, ?_, ?_⟩
        · intro x hx
          rcases List.mem_append.mp hx with h1 | h1
          · exact hsub3 x h1
          · rw [List.mem_singleton.mp h1]
            exact hnode_v3
        · intro a ha b hb
          rcases List.mem_append.mp ha with h1 | h1
          · exact (htopo3 a h1 b hb).trans (List.sublist_append_left o3 [node])
          · rw [List.mem_singleton.mp h1] at hb ⊢
            have hbo3 : b ∈ o3 := hdsin b hb
            have h2 : List.Sublist [b] o3 :=
              List.singleton_sublist.mpr hbo3
            exact h2.append (List.Sublist.refl [node])
        · rw [List.nodup_append]
          refine ⟨hnd3, List.nodup_singleton _, ?_⟩
          intro x hx hx2
          rw [List.mem_singleton.mp hx2] at hx
          exact hnode_no3 hx
      · intro x
        constructor
        · rintro ⟨hx, hxo⟩
          have hxo3 : x ∉ o3 := fun h => hxo (List.mem_append_left _ h)
          have hxnode : x ≠ node := by
            intro h
            exact hxo (by rw [h]; exact List.mem_append_right _ (List.mem_singleton.mpr rfl))
          obtain ⟨hx1, hxo1⟩ := (hiff1 x).mp ⟨hx, hxo3⟩
          rcases List.mem_cons.mp hx1 with h1 | h1
          · exact absurd h1 hxnode
          · exact ⟨h1, hxo1⟩
        · rintro ⟨hx, hxo⟩
          have hx1 : x ∈ node :: v := List.mem_cons_of_mem _ hx
          obtain ⟨hx3, hxo3⟩ := (hiff1 x).mpr ⟨hx1, hxo⟩
          refine ⟨hx3, ?_⟩
          intro hmem'
          rcases List.mem_append.mp hmem' with h1 | h1
          · exact hxo3 h1
          · rw [List.mem_singleton.mp h1] at hx
            exact hmem hx
      · exact List.mem_append_right _ (List.mem_singleton.mpr rfl)

/-- The topological-order property of the batch packer's DFS: with a rank
function decreasing along edges (acyclicity) and enough fuel, every node of
`nodes` ends up in the order, the order has no duplicates, and every
dependency `b ∈ adj a` of an ordered node `a` appears strictly before `a`. -/
theorem visit_topological {α : Type} [DecidableEq α] (adj : α → List α)
    (r : α → Nat) (hr : ∀ a, ∀ b ∈ adj a, r b < r a) (fuel : Nat)
    (nodes : List α) (hfuel : ∀ n ∈ nodes, r n < fuel) :
    (∀ a ∈ runVisit adj fuel nodes, ∀ b ∈ adj a,
      List.Sublist [b, a] (runVisit adj fuel nodes)) ∧
    (∀ n ∈ nodes, n ∈ runVisit adj fuel nodes) ∧
    (runVisit adj fuel nodes).Nodup := by
  have hrun : ∀ (ns : List α), (∀ n ∈ ns, r n < fuel) →
      ∀ (v o : List α), dfsInv adj v o → (∀ x ∈ v, x ∈ o) →
      ∃ v' o' Δ,
        ns.foldl (fun s node => visitF adj fuel node s) (v, o) = (v', o') ∧
        o' = o ++ Δ ∧ dfsInv adj v' o' ∧ (∀ x ∈ v', x ∈ o') ∧
        (∀ n ∈ ns, n ∈ o') := by
    intro ns
    induction ns with
    | nil =>
      intro _ v o hinv hfull
      exact ⟨v, o, [], rfl, by simp, hinv, hfull, by simp⟩
    | cons n ns' ihns =>
      intro hns v o hinv hfull
      have hstack : ∀ x ∈ v, x ∉ o → r n < r x := by
        intro x hx hxo
        exact absurd (hfull x hx) hxo
      obtain ⟨v1, o1, Δ1, heq1, hext1, hmono1, hinv1, hiff1, hnin⟩ :=
        visitF_spec adj r hr fuel n v o (hns n (List.mem_cons_self _ _))
          hinv hstack
      have hfull1 : ∀ x ∈ v1, x ∈ o1 := by
        intro x hx
        by_contra hxo
        obtain ⟨hx0, hxo0⟩ := (hiff1 x).mp ⟨hx, hxo⟩
        exact hxo0 (hfull x hx0)
      obtain ⟨v2, o2, Δ2, heq2, hext2, hinv2, hfull2, hns'in⟩ :=
        ihns (fun m hm => hns m (List.mem_cons_of_mem _ hm)) v1 o1 hinv1 hfull1
      refine ⟨v2, o2, Δ1 ++ Δ2, ?_, ?_, hinv2, hfull2, ?_⟩
      · simp only [List.foldl_cons, heq1, heq2]
      · rw [hext2, hext1, List.append_assoc]
      · intro m hm
        rcases List.mem_cons.mp hm with heq | hmem'
        · subst heq
          rw [hext2]
          exact List.mem_append_left _ hnin
        · exact hns'in m hmem'
  have hinv0 : dfsInv adj [] [] := by
    refine ⟨?_, ?_, List.nodup_nil⟩
    · intro x hx
      simp at hx
    · intro a ha
      simp at ha
  obtain ⟨v', o', Δ, heq, _, hinv', _, hmem⟩ :=
    hrun nodes hfuel [] [] hinv0 (by intro x hx; simp at hx)
  unfold runVisit
  rw [heq]
  exact ⟨hinv'.2.1, hmem, hinv'.2.2⟩

/-- `adjacency.get(node, set())` (`src/pack.py:842`): association-list
lookup with an empty default. -/
def lookupAdj (al : List (PPath × List PPath)) (x : PPath) : List PPath :=
  match al.find? (fun kv => decide (kv.1 = x)) with
  | some kv => kv.2
  | none => []

/-- The blend→blend adjacency and node set built by the batch packer
(`src/pack.py:821-832`): for each `(lib, uses)` of `find_blend_asset_usage`,
add `src = library_abspath(lib)` as a node with an (initially empty)
adjacency entry, then add an edge `src → use.abspath` for every blend-file
usage. -/
def buildAdjacency (libAbs : Option Library → PPath) (blendDeps : AUMap) :
    List (PPath × List PPath) × List PPath :=
  blendDeps.foldl
    (fun acc kv =>
      kv.2.foldl
        (fun acc2 use =>
          if use.is_blendfile then
            (dictAddTo acc2.1 (libAbs kv.1) use.abspath,
              listSetInsert use.abspath acc2.2)
          else acc2)
        (dictSetdefault acc.1 (libAbs kv.1), listSetInsert (libAbs kv.1) acc.2))
    ([], [])

theorem lookupAdj_mem (al : List (PPath × List PPath)) (x b : PPath)
    (hb : b ∈ lookupAdj al x) : ∃ kv ∈ al, kv.1 = x ∧ b ∈ kv.2 := by
  unfold lookupAdj at hb
  cases hfind : al.find? (fun kv => decide (kv.1 = x)) with
  | none =>
    rw [hfind] at hb
    simp at hb
  | some kv =>
    rw [hfind] at hb
    have hmem := List.mem_of_find?_eq_some hfind
    have hpred := List.find?_some hfind
    simp only [decide_eq_true_eq] at hpred
    exact ⟨kv, hmem, hpred, hb⟩

/-- C1 (amended): topological order of the batch packer's processing order.
For the adjacency built from the blend dependency map (`src/pack.py:821-832`)
and any rank function decreasing along its edges (acyclicity witness), the
order computed by the DFS `visit` (`src/pack.py:834-847`) contains every
node exactly once, and for every edge `a → b` (document `a` links document
`b`), `b` appears strictly before `a` in the order.  (The IncrementalPacker's
`FIND_DEPENDENCIES` work-list does **not** satisfy this property — see the
corresponding counterexample.) -/
theorem pack_visit_order_topological (libAbs : Option Library → PPath)
    (blendDeps : AUMap) (r : PPath → Nat) (fuel : Nat)
    (hr : ∀ kv ∈ (buildAdjacency libAbs blendDeps).1, ∀ b ∈ kv.2, r b < r kv.1)
    (hfuel : ∀ n ∈ (buildAdjacency libAbs blendDeps).2, r n < fuel) :
    (∀ a ∈ runVisit (lookupAdj (buildAdjacency libAbs blendDeps).1) fuel
        (buildAdjacency libAbs blendDeps).2,
      ∀ b ∈ lookupAdj (buildAdjacency libAbs blendDeps).1 a,
        List.Sublist [b, a]
          (runVisit (lookupAdj (buildAdjacency libAbs blendDeps).1) fuel
            (buildAdjacency libAbs blendDeps).2)) ∧
    (∀ n ∈ (buildAdjacency libAbs blendDeps).2,
      n ∈ runVisit (lookupAdj (buildAdjacency libAbs blendDeps).1) fuel
        (buildAdjacency libAbs blendDeps).2) ∧
    (runVisit (lookupAdj (buildAdjacency libAbs blendDeps).1) fuel
      (buildAdjacency libAbs blendDeps).2).Nodup := by
  apply visit_topological
  · intro a b hb
    obtain ⟨kv, hkv, hfst, hbkv⟩ := lookupAdj_mem _ a b hb
    have := hr kv hkv b hbkv
    rw [hfst] at this
    exact this
  · exact hfuel

/-- Concrete blend dependency map for the `pack_visit_order_topological`
witness: the open file links `wLib`. -/
def wBlendDeps : AUMap :=
  [(none, [⟨⟨.posix, ["p", "lib.blend"]⟩, "//lib.blend", true⟩]),
    (some wLib, [])]

/-- Concrete rank for the witness: the top-level blend is above the
library. -/
def wRank : PPath → Nat := fun p =>
  if p = ⟨.posix, ["p", "top.blend"]⟩ then 1 else 0

/-- Witness for `pack_visit_order_topological` on the concrete graph: the
computed order is `[lib, top]`, the library strictly before the top-level
file. -/
theorem pack_visit_order_topological_witness :
    (∀ kv ∈ (buildAdjacency wLibAbs wBlendDeps).1, ∀ b ∈ kv.2,
      wRank b < wRank kv.1) ∧
    (∀ n ∈ (buildAdjacency wLibAbs wBlendDeps).2, wRank n < 2) ∧
    runVisit (lookupAdj (buildAdjacency wLibAbs wBlendDeps).1) 2
        (buildAdjacency wLibAbs wBlendDeps).2
      = [⟨.posix, ["p", "lib.blend"]⟩, ⟨.posix, ["p", "top.blend"]⟩] ∧
    (∀ a ∈ runVisit (lookupAdj (buildAdjacency wLibAbs wBlendDeps).1) 2
        (buildAdjacency wLibAbs wBlendDeps).2,
      ∀ b ∈ lookupAdj (buildAdjacency wLibAbs wBlendDeps).1 a,
        List.Sublist [b, a]
          (runVisit (lookupAdj (buildAdjacency wLibAbs wBlendDeps).1) 2
            (buildAdjacency wLibAbs wBlendDeps).2)) :=
  ⟨by decide, by decide, by decide,
    (pack_visit_order_topological wLibAbs wBlendDeps wRank 2
      (by decide) (by decide)).1⟩

/-! ### The IncrementalPacker state machine (src/ops/pack_ops.py:881-1376)

`process_batch` is embedded as a pure step function over an explicit state
record.  Host/filesystem effects (`au.find()`, `library_abspath`,
`Path.exists`, `shutil.copy2` success, `copy_blend_caches` results, the
Blender subprocess calls, `tempfile.mkdtemp`, the final `rglob`) are frozen
into a read-only `World`; the packer's only interaction with them is to
read the results, so a deterministic world captures one run over fixed
inputs.  `copy_events` is instrumentation recording every successful
`shutil.copy2` source in order (it shadows no Python state). -/

/-- The phase names of the incremental packer. -/
inductive Phase where
  | INIT
  | FIND_ASSETS
  | COLLECT_PATHS
  | FIND_COMMON_ROOT
  | PREPARE_COPY_TOP_BLEND
  | COPY_ASSETS
  | TRUNCATING_CACHES
  | FIND_DEPENDENCIES
  | ENABLE_NLA
  | REMAP_PATHS
  | PACK_ALL
  | PACK_LINKED
  | COMPLETE
  deriving DecidableEq, Repr

/-- The distinct outcomes `process_batch` can raise: the cooperative
`InterruptedError` cancellation (line 949), the `ValueError` of a failed
common-root computation (line 1010), and a propagated `asset_usage`
failure. -/
inductive PackSignal where
  | cancelled
  | valueError
  | auError (e : AUError)
  deriving DecidableEq, Repr

/-- The mutable state of one `IncrementalPacker` (`__init__`,
`src/ops/pack_ops.py:884-937`). -/
structure PackerState where
  workflow_copy_only : Bool
  target_path : Option PPath
  enable_nla : Bool
  frame_start : Option Int
  frame_end : Option Int
  frame_step : Option Int
  temp_blend_path : Option PPath
  original_blend_path : Option PPath
  phase : Phase
  autopack_on_save : Bool
  run_pack_linked : Bool
  asset_usages : AUMap
  top_level_blend_abs : Option PPath
  all_filepaths : List PPath
  common_root : Option PPath
  copied_paths : List PPath
  copy_map : List (PPath × PPath)
  missing_on_copy : List PPath
  assets_to_copy : List (AssetUsage × List String)
  assets_copied : Nat
  top_level_target_blend : Option PPath
  cache_dirs : List PPath
  blend_deps : AUMap
  to_remap : List PPath
  nla_index : Nat
  remap_index : Nat
  pack_all_index : Nat
  pack_linked_index : Nat
  cache_truncate_index : Nat
  oversized_files_all : List String
  file_path : Option PPath
  copy_events : List PPath
  deriving DecidableEq, Repr

/-- The constructor arguments of `IncrementalPacker.__init__`. -/
structure PackerConfig where
  workflow_copy_only : Bool
  target_path : Option PPath
  enable_nla : Bool
  frame_start : Option Int
  frame_end : Option Int
  frame_step : Option Int
  temp_blend_path : Option PPath
  original_blend_path : Option PPath
  deriving DecidableEq, Repr

/-- `IncrementalPacker.__init__` (`src/ops/pack_ops.py:884-937`). -/
def mkPacker (cfg : PackerConfig) : PackerState :=
  { workflow_copy_only := cfg.workflow_copy_only
    target_path := cfg.target_path
    enable_nla := cfg.enable_nla
    frame_start := cfg.frame_start
    frame_end := cfg.frame_end
    frame_step := cfg.frame_step
    temp_blend_path := cfg.temp_blend_path
    original_blend_path := cfg.original_blend_path
    phase := .INIT
    autopack_on_save := !cfg.workflow_copy_only
    run_pack_linked := !cfg.workflow_copy_only
    asset_usages := []
    top_level_blend_abs := none
    all_filepaths := []
    common_root := none
    copied_paths := []
    copy_map := []
    missing_on_copy := []
    assets_to_copy := []
    assets_copied := 0
    top_level_target_blend := none
    cache_dirs := []
    blend_deps := []
    to_remap := []
    nla_index := 0
    remap_index := 0
    pack_all_index := 0
    pack_linked_index := 0
    cache_truncate_index := 0
    oversized_files_all := []
    file_path := none
    copy_events := [] }

/-- The read-only environment of one packing run: results of every host,
filesystem and subprocess interaction the state machine consumes. -/
structure World where
  nt : Bool
  find_result : Except AUError AUMap
  top_level_abs : PPath
  lib_abspath : Option Library → PPath
  blend_deps_find : Except AUError AUMap
  file_exists : PPath → Bool
  copy_ok : PPath → Bool
  temp_dir : PPath
  cache_copy_dirs : List PPath
  cache_copy_missing : List PPath
  bpy_filepath : PPath
  pack_linked_result : PPath → Option (List String × List String)
  target_blends_found : List PPath

/-- Python `dict` assignment `d[k] = v`: overwrite in place, append when
absent. -/
def dictPut {κ β : Type} [DecidableEq κ] : List (κ × β) → κ → β → List (κ × β)
  | [], k, v => [(k, v)]
  | (k', v') :: rest, k, v =>
    if k' = k then (k, v) :: rest else (k', v') :: dictPut rest k v

/-- The final path component (`Path.name`). -/
def pName (p : PPath) : String :=
  (p.parts.getLast?).getD ""

/-- `Path.suffix.lower()` of a path. -/
def pathSuffixLower (p : PPath) : String :=
  String.mk ((suffixL (pName p).toList).map Char.toLower)

/-- `str.startswith`. -/
def strStarts (pre s : String) : Bool :=
  partsLe pre.toList s.toList

/-- The string form of an anchor, matching `pathlib`'s first `parts`
element. -/
def anchorString : Anchor → String
  | .posix => "/"
  | .drive c => String.mk [c, ':', '\\']
  | .uncRoot srv sh => "\\\\" ++ srv ++ "\\" ++ sh ++ "\\"
  | .ntRooted => "\\"

/-- `len(p.parts) >= 2 and p.parts[-2] == "bakes"`: `pathlib` parts include
the anchor as the first element. -/
def bakesParent (p : PPath) : Bool :=
  let ps := anchorString p.anchor :: p.parts
  match ps.reverse with
  | _ :: second :: _ => decide (second = "bakes")
  | _ => false

/-- `Path.drive` of a path. -/
def pathDrive (p : PPath) : String :=
  match p.anchor with
  | .posix => ""
  | .drive c => String.mk [c, ':']
  | .uncRoot srv sh => "\\\\" ++ srv ++ "\\" ++ sh
  | .ntRooted => ""

/-- `Path.parent`. -/
def parentPath (p : PPath) : PPath :=
  ⟨p.anchor, p.parts.dropLast⟩

/-- Longest common component prefix of two component lists. -/
def commonParts2 : List String → List String → List String
  | a :: as, b :: bs => if a = b then a :: commonParts2 as bs else []
  | _, _ => []

/-- Model of `os.path.commonpath` on resolved absolute paths: `none` models
the `ValueError` on an empty sequence or on mixed anchors (different
drives); otherwise the shared anchor plus the longest common component
prefix.  (On absolute inputs the result is never the empty string, so the
`if not common_root_str` re-raise at `src/ops/pack_ops.py:1009-1010` is
unreachable in the model.) -/
def commonPathOpt (paths : List PPath) : Option PPath :=
  match paths with
  | [] => none
  | p :: ps =>
    if ps.all (fun q => decide (q.anchor = p.anchor)) then
      some ⟨p.anchor, ps.foldl (fun acc q => commonParts2 acc q.parts) p.parts⟩
    else none

/-- The file suffixes recorded into the copy map during `COPY_ASSETS`
(`src/ops/pack_ops.py:1125`). -/
def remapExts : List String :=
  [".blend", ".png", ".jpg", ".jpeg", ".tga", ".tiff", ".exr", ".hdr",
    ".bmp", ".dds", ".mp4", ".avi", ".mov"]

/-- A placeholder path for impossible `Option.getD` defaults. -/
def dummyPath : PPath :=
  ⟨.posix, []⟩

/-- The `INIT` phase (`src/ops/pack_ops.py:951-960`): materialize the
target directory (a fresh temp dir when none was given). -/
def initPhase (w : World) (s : PackerState) : PackerState :=
  { s with
    target_path := some ((s.target_path).getD w.temp_dir)
    phase := .FIND_ASSETS }

/-- The `FIND_ASSETS` phase body on a successful `au.find()`
(`src/ops/pack_ops.py:962-971`). -/
def findAssetsApply (w : World) (s : PackerState) (au : AUMap) : PackerState :=
  { s with
    asset_usages := au
    top_level_blend_abs := some w.top_level_abs
    phase := .COLLECT_PATHS }

/-- The `COLLECT_PATHS` phase (`src/ops/pack_ops.py:973-991`): all keys'
resolved paths plus all usages' absolute paths, minus the temp source. -/
def collectPhase (w : World) (s : PackerState) : PackerState :=
  let all := s.asset_usages.map (fun kv => w.lib_abspath kv.1) ++
    (s.asset_usages.map (fun kv => kv.2.map AssetUsage.abspath)).flatten
  let all := match s.temp_blend_path with
    | some t => all.filter (fun p => decide (¬ p = t))
    | none => all
  { s with all_filepaths := all, phase := .FIND_COMMON_ROOT }

/-- The `FIND_COMMON_ROOT` computation (`src/ops/pack_ops.py:993-1013`):
`os.path.commonpath` over everything; on `ValueError` restrict to the open
file's drive; an empty drive subset falls back to the open file's parent;
a second `ValueError` (outside any `try`) propagates. -/
def fcrCompute (w : World) (s : PackerState) : Except PackSignal PPath :=
  match commonPathOpt s.all_filepaths with
  | some cr => .ok cr
  | none =>
    let blendDrive := pathDrive w.bpy_filepath
    let projPaths := s.all_filepaths.filter
      (fun p => decide (pathDrive p = blendDrive))
    match projPaths with
    | [] => .ok (parentPath w.bpy_filepath)
    | _ =>
      match commonPathOpt projPaths with
      | some cr => .ok cr
      | none => .error .valueError

/-- The `PREPARE_COPY_TOP_BLEND` phase (`src/ops/pack_ops.py:1017-1103`):
copy the top-level blend (temp sources go directly under the target root),
record it in the copy map, mirror its cache directories, then build the
asset work-list, skipping already-copied paths and cache-named entries. -/
def preparePhase (w : World) (s : PackerState) : PackerState :=
  let cur := s.top_level_blend_abs.getD w.top_level_abs
  let cr := s.common_root.getD dummyPath
  let tgt := s.target_path.getD dummyPath
  let is_temp := match s.temp_blend_path with
    | some t => decide (cur = t)
    | none => false
  let target_file :=
    if is_temp then joinUnder tgt [pName cur]
    else joinUnder tgt (compute_target_relpath w.nt cur cr)
  let s1 :=
    if cur ∈ s.copied_paths then s
    else if w.copy_ok cur then
      { s with
        copied_paths := listSetInsert cur s.copied_paths
        copy_events := s.copy_events ++ [cur]
        copy_map :=
          if pathSuffixLower cur = ".blend" then
            dictPut s.copy_map cur target_file
          else s.copy_map
        top_level_target_blend := some target_file
        cache_dirs := s.cache_dirs ++ w.cache_copy_dirs
        missing_on_copy := s.missing_on_copy ++ w.cache_copy_missing }
    else { s with missing_on_copy := s.missing_on_copy ++ [cur] }
  let worklist := s.asset_usages.foldl
    (fun acc kv =>
      kv.2.foldl
        (fun acc2 u =>
          if u.abspath ∈ s1.copied_paths then acc2
          else if strStarts "blendcache_" (pName u.abspath) ||
              strStarts "cache_" (pName u.abspath) ||
              bakesParent u.abspath then acc2
          else acc2 ++ [(u, compute_target_relpath w.nt u.abspath cr)])
        acc)
    []
  { s1 with
    assets_to_copy := worklist
    assets_copied := 0
    phase := .COPY_ASSETS }

/-- One `COPY_ASSETS` item (`src/ops/pack_ops.py:1110-1131`): skip missing
sources into the missing-list; on a successful copy record the path in the
copied-set and, for blend/image/video suffixes, in the copy map. -/
def copyItem (w : World) (st : PackerState) (item : AssetUsage × List String) :
    PackerState :=
  let u := item.1
  if ¬ w.file_exists u.abspath then
    { st with missing_on_copy := st.missing_on_copy ++ [u.abspath] }
  else
    let target := joinUnder (st.target_path.getD dummyPath) item.2
    if w.copy_ok u.abspath then
      { st with
        copied_paths := listSetInsert u.abspath st.copied_paths
        copy_events := st.copy_events ++ [u.abspath]
        copy_map :=
          if pathSuffixLower u.abspath ∈ remapExts then
            dictPut st.copy_map u.abspath target
          else st.copy_map }
    else { st with missing_on_copy := st.missing_on_copy ++ [u.abspath] }

/-- The transition taken when `COPY_ASSETS` has consumed its whole list
(`src/ops/pack_ops.py:1142-1162`). -/
def copyDonePhase (s : PackerState) : PackerState :=
  let framesSome := s.frame_start.isSome && s.frame_end.isSome && s.frame_step.isSome
  let cachesFiltered := s.workflow_copy_only && framesSome
  if framesSome && !s.cache_dirs.isEmpty && !cachesFiltered then
    { s with cache_truncate_index := 0, phase := .TRUNCATING_CACHES }
  else
    { s with phase := .FIND_DEPENDENCIES }

/-- One `TRUNCATING_CACHES` item (`src/ops/pack_ops.py:1173-1183`): the
on-disk truncation leaves the packer state untouched apart from the
cursor. -/
def truncStep (st : PackerState) : PackerState :=
  { st with cache_truncate_index := st.cache_truncate_index + 1 }

/-- The `FIND_DEPENDENCIES` phase body on a successful
`au.find_blend_asset_usage()` (`src/ops/pack_ops.py:1189-1220`): the
top-level target copy first, then each dependency key's target copy that
exists on disk. -/
def findDepApply (w : World) (s : PackerState) (bd : AUMap) : PackerState :=
  let cr := s.common_root.getD dummyPath
  let tgt := s.target_path.getD dummyPath
  let head := match s.top_level_target_blend with
    | some t => if w.file_exists t then [t] else []
    | none => []
  let rest := bd.foldl
    (fun acc kv =>
      let ab := w.lib_abspath kv.1
      if ¬ (pathSuffixLower ab = ".blend") then acc
      else
        let target := joinUnder tgt (compute_target_relpath w.nt ab cr)
        if w.file_exists target then acc ++ [target] else acc)
    []
  { s with
    blend_deps := bd
    to_remap := head ++ rest
    nla_index := 0
    phase := if s.enable_nla then .ENABLE_NLA else .REMAP_PATHS }

/-- One `ENABLE_NLA` item (`src/ops/pack_ops.py:1229-1238`): the Blender
subprocess leaves the packer state untouched apart from the cursor. -/
def nlaStep (st : PackerState) : PackerState :=
  { st with nla_index := st.nla_index + 1 }

/-- One `REMAP_PATHS` item (`src/ops/pack_ops.py:1252-1273`): the remap
subprocess result is only printed, so only the cursor advances. -/
def remapStep (st : PackerState) : PackerState :=
  { st with remap_index := st.remap_index + 1 }

/-- The transition after `REMAP_PATHS` (`src/ops/pack_ops.py:1274-1282`). -/
def remapDonePhase (s : PackerState) : PackerState :=
  if s.workflow_copy_only then { s with phase := .COMPLETE }
  else { s with pack_all_index := 0, phase := .PACK_ALL }

/-- One `PACK_ALL` item (`src/ops/pack_ops.py:1291-1300`). -/
def packAllStep (st : PackerState) : PackerState :=
  { st with pack_all_index := st.pack_all_index + 1 }

/-- The transition after `PACK_ALL` (`src/ops/pack_ops.py:1301-1309`). -/
def packAllDonePhase (s : PackerState) : PackerState :=
  if s.run_pack_linked then { s with pack_linked_index := 0, phase := .PACK_LINKED }
  else { s with phase := .COMPLETE }

/-- One `PACK_LINKED` item (`src/ops/pack_ops.py:1318-1348`): collect the
oversized files of a successful `pack_linked_in_blend`; a missing file or a
caught subprocess exception contributes nothing. -/
def packLinkedStep (w : World) (st : PackerState) (b : PPath) : PackerState :=
  { st with
    oversized_files_all := st.oversized_files_all ++
      (if w.file_exists b then
        match w.pack_linked_result b with
        | some pr => pr.2
        | none => []
      else [])
    pack_linked_index := st.pack_linked_index + 1 }

/-- The `COMPLETE` phase (`src/ops/pack_ops.py:1354-1374`): copy-only runs
produce no single file; pack-and-save returns the top-level target copy,
falling back to the first `*.blend` found under the target root. -/
def completePhase (w : World) (s : PackerState) : PackerState :=
  { s with
    file_path :=
      if s.workflow_copy_only then none
      else
        match s.top_level_target_blend with
        | some t => if w.file_exists t then some t else w.target_blends_found.head?
        | none => w.target_blends_found.head? }

/-- Embedding of `IncrementalPacker.process_batch(batch_size)`
(`src/ops/pack_ops.py:939-1376`): the cancel predicate's current value is
passed as `cancelNow` and consulted first; the result carries the updated
state and the `(next_phase, is_complete)` pair the Python method returns. -/
def process_batch (w : World) (cancelNow : Bool) (batch_size : Nat)
    (s : PackerState) : Except PackSignal (PackerState × Phase × Bool) :=
  if cancelNow then .error .cancelled
  else
    match s.phase with
    | .INIT =>
      .ok (initPhase w s, .FIND_ASSETS, false)
    | .FIND_ASSETS =>
      match w.find_result with
      | .error e => .error (.auError e)
      | .ok au => .ok (findAssetsApply w s au, .COLLECT_PATHS, false)
    | .COLLECT_PATHS =>
      .ok (collectPhase w s, .FIND_COMMON_ROOT, false)
    | .FIND_COMMON_ROOT =>
      match fcrCompute w s with
      | .error e => .error e
      | .ok cr =>
        .ok ({ s with common_root := some cr, phase := .PREPARE_COPY_TOP_BLEND },
          .PREPARE_COPY_TOP_BLEND, false)
    | .PREPARE_COPY_TOP_BLEND =>
      .ok (preparePhase w s, .COPY_ASSETS, false)
    | .COPY_ASSETS =>
      let total := s.assets_to_copy.length
      let bEnd := min (s.assets_copied + batch_size) total
      let chunk := (s.assets_to_copy.drop s.assets_copied).take (bEnd - s.assets_copied)
      let s1 := chunk.foldl (copyItem w) s
      let s2 := { s1 with assets_copied := bEnd }
      if total ≤ bEnd then
        let s3 := copyDonePhase s2
        .ok (s3, s3.phase, false)
      else
        .ok (s2, .COPY_ASSETS, false)
    | .TRUNCATING_CACHES =>
      if s.cache_truncate_index < s.cache_dirs.length then
        .ok (truncStep s, .TRUNCATING_CACHES, false)
      else
        .ok ({ s with phase := .FIND_DEPENDENCIES }, .FIND_DEPENDENCIES, false)
    | .FIND_DEPENDENCIES =>
      match w.blend_deps_find with
      | .error e => .error (.auError e)
      | .ok bd =>
        let s' := findDepApply w s bd
        .ok (s', s'.phase, false)
    | .ENABLE_NLA =>
      if s.nla_index < s.to_remap.length then
        .ok (nlaStep s, .ENABLE_NLA, false)
      else
        .ok ({ s with remap_index := 0, phase := .REMAP_PATHS }, .REMAP_PATHS, false)
    | .REMAP_PATHS =>
      if s.remap_index < s.to_remap.length then
        .ok (remapStep s, .REMAP_PATHS, false)
      else
        let s' := remapDonePhase s
        .ok (s', s'.phase, false)
    | .PACK_ALL =>
      if s.pack_all_index < s.to_remap.length then
        .ok (packAllStep s, .PACK_ALL, false)
      else
        let s' := packAllDonePhase s
        .ok (s', s'.phase, false)
    | .PACK_LINKED =>
      if s.pack_linked_index < s.to_remap.length then
        .ok (packLinkedStep w s (s.to_remap.getD s.pack_linked_index dummyPath),
          .PACK_LINKED, false)
      else
        .ok ({ s with phase := .COMPLETE }, .COMPLETE, false)
    | .COMPLETE =>
      .ok (completePhase w s, .COMPLETE, true)

/-! ### The whole-run denotation of the packer

`bigStepFrom` runs every remaining phase of a packer state in one pure
computation.  Each phase's body reuses the very helper the step function
uses, so `process_batch` refines `bigStepFrom` batch by batch: this is the
mechanism behind batch-size independence. -/

/-- Denotation from `PACK_LINKED` onwards. -/
def bigPackLinked (w : World) (s : PackerState) : PackerState :=
  completePhase w
    { (s.to_remap.drop s.pack_linked_index).foldl (packLinkedStep w) s with
      phase := .COMPLETE }

/-- Denotation from `PACK_ALL` onwards. -/
def bigPackAll (w : World) (s : PackerState) : PackerState :=
  let s1 := (s.to_remap.drop s.pack_all_index).foldl (fun st _ => packAllStep st) s
  if s1.run_pack_linked then
    bigPackLinked w { s1 with pack_linked_index := 0, phase := .PACK_LINKED }
  else
    completePhase w { s1 with phase := .COMPLETE }

/-- Denotation from `REMAP_PATHS` onwards. -/
def bigRemap (w : World) (s : PackerState) : PackerState :=
  let s1 := (s.to_remap.drop s.remap_index).foldl (fun st _ => remapStep st) s
  if s1.workflow_copy_only then
    completePhase w { s1 with phase := .COMPLETE }
  else
    bigPackAll w { s1 with pack_all_index := 0, phase := .PACK_ALL }

/-- Denotation from `ENABLE_NLA` onwards. -/
def bigNla (w : World) (s : PackerState) : PackerState :=
  let s1 := (s.to_remap.drop s.nla_index).foldl (fun st _ => nlaStep st) s
  bigRemap w { s1 with remap_index := 0, phase := .REMAP_PATHS }

/-- Denotation from `FIND_DEPENDENCIES` onwards. -/
def bigFindDep (w : World) (s : PackerState) : Except PackSignal PackerState :=
  match w.blend_deps_find with
  | .error e => .error (.auError e)
  | .ok bd =>
    let s' := findDepApply w s bd
    if s.enable_nla then .ok (bigNla w s') else .ok (bigRemap w s')

/-- Denotation from `TRUNCATING_CACHES` onwards. -/
def bigTrunc (w : World) (s : PackerState) : Except PackSignal PackerState :=
  let s1 := (s.cache_dirs.drop s.cache_truncate_index).foldl
    (fun st _ => truncStep st) s
  bigFindDep w { s1 with phase := .FIND_DEPENDENCIES }

/-- Tail of the copy-phase denotation: set the cursor to the work-list
length and take the post-copy transition. -/
def copyFinish (w : World) (s1 : PackerState) (total : Nat) :
    Except PackSignal PackerState :=
  let s2 := { s1 with assets_copied := total }
  let framesSome := s2.frame_start.isSome && s2.frame_end.isSome && s2.frame_step.isSome
  let cachesFiltered := s2.workflow_copy_only && framesSome
  if framesSome && !s2.cache_dirs.isEmpty && !cachesFiltered then
    bigTrunc w { s2 with cache_truncate_index := 0, phase := .TRUNCATING_CACHES }
  else
    bigFindDep w { s2 with phase := .FIND_DEPENDENCIES }

/-- Denotation from `COPY_ASSETS` onwards. -/
def bigCopy (w : World) (s : PackerState) : Except PackSignal PackerState :=
  copyFinish w ((s.assets_to_copy.drop s.assets_copied).foldl (copyItem w) s)
    s.assets_to_copy.length

/-- Denotation from `PREPARE_COPY_TOP_BLEND` onwards. -/
def bigPrepare (w : World) (s : PackerState) : Except PackSignal PackerState :=
  bigCopy w (preparePhase w s)

/-- Denotation from `FIND_COMMON_ROOT` onwards. -/
def bigFCR (w : World) (s : PackerState) : Except PackSignal PackerState :=
  match fcrCompute w s with
  | .error e => .error e
  | .ok cr =>
    bigPrepare w { s with common_root := some cr, phase := .PREPARE_COPY_TOP_BLEND }

/-- Denotation from `COLLECT_PATHS` onwards. -/
def bigCollect (w : World) (s : PackerState) : Except PackSignal PackerState :=
  bigFCR w (collectPhase w s)

/-- Denotation from `FIND_ASSETS` onwards. -/
def bigFindAssets (w : World) (s : PackerState) : Except PackSignal PackerState :=
  match w.find_result with
  | .error e => .error (.auError e)
  | .ok au => bigCollect w (findAssetsApply w s au)

/-- Denotation from `INIT` onwards. -/
def bigInit (w : World) (s : PackerState) : Except PackSignal PackerState :=
  bigFindAssets w (initPhase w s)

/-- The run denotation of a packer state: either the propagated error or
the terminal state of the whole remaining run. -/
def bigStepFrom (w : World) (s : PackerState) : Except PackSignal PackerState :=
  match s.phase with
  | .INIT => bigInit w s
  | .FIND_ASSETS => bigFindAssets w s
  | .COLLECT_PATHS => bigCollect w s
  | .FIND_COMMON_ROOT => bigFCR w s
  | .PREPARE_COPY_TOP_BLEND => bigPrepare w s
  | .COPY_ASSETS => bigCopy w s
  | .TRUNCATING_CACHES => bigTrunc w s
  | .FIND_DEPENDENCIES => bigFindDep w s
  | .ENABLE_NLA => .ok (bigNla w s)
  | .REMAP_PATHS => .ok (bigRemap w s)
  | .PACK_ALL => .ok (bigPackAll w s)
  | .PACK_LINKED => .ok (bigPackLinked w s)
  | .COMPLETE => .ok (completePhase w s)

/-- Decompose a `drop` at an in-range index into head and tail. -/
theorem drop_cons_getD {α : Type} (l : List α) (n : Nat) (d : α)
    (h : n < l.length) : l.drop n = l.getD n d :: l.drop (n + 1) := by
  induction l generalizing n with
  | nil => simp at h
  | cons a t ih =>
    cases n with
    | zero => rfl
    | succ m =>
      have h' : m < t.length := by simpa using h
      simpa [List.getD] using ih m h'

/-- `copyItem` never changes the phase. -/
theorem copyItem_phase (w : World) (st : PackerState)
    (it : AssetUsage × List String) : (copyItem w st it).phase = st.phase := by
  cases hfe : w.file_exists it.1.abspath <;>
    cases hco : w.copy_ok it.1.abspath <;>
      simp [copyItem, hfe, hco]

/-- `copyItem` never changes the work-list. -/
theorem copyItem_to_copy (w : World) (st : PackerState)
    (it : AssetUsage × List String) :
    (copyItem w st it).assets_to_copy = st.assets_to_copy := by
  cases hfe : w.file_exists it.1.abspath <;>
    cases hco : w.copy_ok it.1.abspath <;>
      simp [copyItem, hfe, hco]

/-- `copyItem` commutes with overwriting the copy cursor. -/
theorem copyItem_set_ac (w : World) (st : PackerState) (n : Nat)
    (it : AssetUsage × List String) :
    copyItem w { st with assets_copied := n } it
      = { copyItem w st it with assets_copied := n } := by
  cases hfe : w.file_exists it.1.abspath <;>
    cases hco : w.copy_ok it.1.abspath <;>
      simp [copyItem, hfe, hco]

/-- Folding `copyItem` never changes the phase. -/
theorem foldl_copyItem_phase (w : World) (l : List (AssetUsage × List String))
    (st : PackerState) : (l.foldl (copyItem w) st).phase = st.phase := by
  induction l generalizing st with
  | nil => rfl
  | cons a t ih => rw [List.foldl_cons, ih, copyItem_phase]

/-- Folding `copyItem` never changes the work-list. -/
theorem foldl_copyItem_to_copy (w : World) (l : List (AssetUsage × List String))
    (st : PackerState) :
    (l.foldl (copyItem w) st).assets_to_copy = st.assets_to_copy := by
  induction l generalizing st with
  | nil => rfl
  | cons a t ih => rw [List.foldl_cons, ih, copyItem_to_copy]

/-- Folding `copyItem` commutes with overwriting the copy cursor. -/
theorem foldl_copyItem_set_ac (w : World) (l : List (AssetUsage × List String))
    (st : PackerState) (n : Nat) :
    l.foldl (copyItem w) { st with assets_copied := n }
      = { l.foldl (copyItem w) st with assets_copied := n } := by
  induction l generalizing st with
  | nil => rfl
  | cons a t ih => rw [List.foldl_cons, copyItem_set_ac, ih, List.foldl_cons]

/-- Dispatching the run denotation on a finished copy phase mirrors the
branch `copyDonePhase` took. -/
theorem bigStepFrom_copyDone (w : World) (s : PackerState) :
    bigStepFrom w (copyDonePhase s) =
      (if (s.frame_start.isSome && s.frame_end.isSome && s.frame_step.isSome)
          && !s.cache_dirs.isEmpty
          && !(s.workflow_copy_only &&
            (s.frame_start.isSome && s.frame_end.isSome && s.frame_step.isSome)) then
        bigTrunc w { s with cache_truncate_index := 0, phase := .TRUNCATING_CACHES }
      else
        bigFindDep w { s with phase := .FIND_DEPENDENCIES }) := by
  by_cases hc : ((s.frame_start.isSome && s.frame_end.isSome && s.frame_step.isSome)
      && !s.cache_dirs.isEmpty
      && !(s.workflow_copy_only &&
        (s.frame_start.isSome && s.frame_end.isSome && s.frame_step.isSome))) = true
  · simp only [copyDonePhase, hc, if_true]
    rfl
  · simp only [copyDonePhase, hc, if_false]
    rfl

/-- An uncancelled batch that raises propagates the same signal the
whole-run denotation produces. -/
theorem process_batch_err (w : World) (batch : Nat) (s : PackerState)
    (e : PackSignal) (h : process_batch w false batch s = .error e) :
    bigStepFrom w s = .error e := by
  cases hph : s.phase <;>
    simp only [process_batch, Bool.false_eq_true, if_false, hph] at h <;>
    simp only [bigStepFrom, hph]
  case INIT => exact Except.noConfusion h
  case FIND_ASSETS =>
    cases hfr : w.find_result with
    | error e' =>
      simp only [hfr] at h
      injection h with h
      subst h
      simp only [bigFindAssets, hfr]
    | ok au =>
      simp only [hfr] at h
      exact Except.noConfusion h
  case COLLECT_PATHS => exact Except.noConfusion h
  case FIND_COMMON_ROOT =>
    cases hc : fcrCompute w s with
    | error e' =>
      simp only [hc] at h
      injection h with h
      subst h
      simp only [bigFCR, hc]
    | ok cr =>
      simp only [hc] at h
      exact Except.noConfusion h
  case PREPARE_COPY_TOP_BLEND => exact Except.noConfusion h
  case COPY_ASSETS =>
    split at h <;> exact Except.noConfusion h
  case TRUNCATING_CACHES =>
    split at h <;> exact Except.noConfusion h
  case FIND_DEPENDENCIES =>
    cases hbd : w.blend_deps_find with
    | error e' =>
      simp only [hbd] at h
      injection h with h
      subst h
      simp only [bigFindDep, hbd]
    | ok bd =>
      simp only [hbd] at h
      exact Except.noConfusion h
  case ENABLE_NLA =>
    split at h <;> exact Except.noConfusion h
  case REMAP_PATHS =>
    split at h <;> exact Except.noConfusion h
  case PACK_ALL =>
    split at h <;> exact Except.noConfusion h
  case PACK_LINKED =>
    split at h <;> exact Except.noConfusion h
  case COMPLETE => exact Except.noConfusion h

/-- A batch reporting completion returns exactly the whole-run denotation's
terminal state. -/
theorem process_batch_done (w : World) (batch : Nat) (s s' : PackerState)
    (ph : Phase) (h : process_batch w false batch s = .ok (s', ph, true)) :
    bigStepFrom w s = .ok s' := by
  cases hph : s.phase <;>
    simp only [process_batch, Bool.false_eq_true, if_false, hph] at h <;>
    simp only [bigStepFrom, hph]
  case INIT => simp at h
  case FIND_ASSETS =>
    cases hfr : w.find_result <;> simp [hfr] at h
  case COLLECT_PATHS => simp at h
  case FIND_COMMON_ROOT =>
    cases hc : fcrCompute w s <;> simp [hc] at h
  case PREPARE_COPY_TOP_BLEND => simp at h
  case COPY_ASSETS =>
    split at h <;> simp at h
  case TRUNCATING_CACHES =>
    split at h <;> simp at h
  case FIND_DEPENDENCIES =>
    cases hbd : w.blend_deps_find <;> simp [hbd] at h
  case ENABLE_NLA =>
    split at h <;> simp at h
  case REMAP_PATHS =>
    split at h <;> simp at h
  case PACK_ALL =>
    split at h <;> simp at h
  case PACK_LINKED =>
    split at h <;> simp at h
  case COMPLETE =>
    simp only [Except.ok.injEq, Prod.mk.injEq, and_true] at h
    rw [h.1]

/-- Dispatch of the run denotation at a `COPY_ASSETS` state. -/
theorem bigStepFrom_eq_copy (w : World) (s : PackerState)
    (h : s.phase = .COPY_ASSETS) : bigStepFrom w s = bigCopy w s := by
  simp only [bigStepFrom, h]

/-- Dispatch of the run denotation at a `TRUNCATING_CACHES` state. -/
theorem bigStepFrom_eq_trunc (w : World) (s : PackerState)
    (h : s.phase = .TRUNCATING_CACHES) : bigStepFrom w s = bigTrunc w s := by
  simp only [bigStepFrom, h]

/-- Dispatch of the run denotation at an `ENABLE_NLA` state. -/
theorem bigStepFrom_eq_nla (w : World) (s : PackerState)
    (h : s.phase = .ENABLE_NLA) : bigStepFrom w s = .ok (bigNla w s) := by
  simp only [bigStepFrom, h]

/-- Dispatch of the run denotation at a `REMAP_PATHS` state. -/
theorem bigStepFrom_eq_remap (w : World) (s : PackerState)
    (h : s.phase = .REMAP_PATHS) : bigStepFrom w s = .ok (bigRemap w s) := by
  simp only [bigStepFrom, h]

/-- Dispatch of the run denotation at a `PACK_ALL` state. -/
theorem bigStepFrom_eq_packAll (w : World) (s : PackerState)
    (h : s.phase = .PACK_ALL) : bigStepFrom w s = .ok (bigPackAll w s) := by
  simp only [bigStepFrom, h]

/-- Dispatch of the run denotation at a `PACK_LINKED` state. -/
theorem bigStepFrom_eq_packLinked (w : World) (s : PackerState)
    (h : s.phase = .PACK_LINKED) : bigStepFrom w s = .ok (bigPackLinked w s) := by
  simp only [bigStepFrom, h]

/-- Dispatch of the run denotation at an `INIT` state. -/
theorem bigStepFrom_eq_init (w : World) (s : PackerState)
    (h : s.phase = .INIT) : bigStepFrom w s = bigInit w s := by
  simp only [bigStepFrom, h]

/-- Dispatch of the run denotation at a `FIND_ASSETS` state. -/
theorem bigStepFrom_eq_findAssets (w : World) (s : PackerState)
    (h : s.phase = .FIND_ASSETS) : bigStepFrom w s = bigFindAssets w s := by
  simp only [bigStepFrom, h]

/-- Dispatch of the run denotation at a `COLLECT_PATHS` state. -/
theorem bigStepFrom_eq_collect (w : World) (s : PackerState)
    (h : s.phase = .COLLECT_PATHS) : bigStepFrom w s = bigCollect w s := by
  simp only [bigStepFrom, h]

/-- Dispatch of the run denotation at a `FIND_COMMON_ROOT` state. -/
theorem bigStepFrom_eq_fcr (w : World) (s : PackerState)
    (h : s.phase = .FIND_COMMON_ROOT) : bigStepFrom w s = bigFCR w s := by
  simp only [bigStepFrom, h]

/-- Dispatch of the run denotation at a `PREPARE_COPY_TOP_BLEND` state. -/
theorem bigStepFrom_eq_prepare (w : World) (s : PackerState)
    (h : s.phase = .PREPARE_COPY_TOP_BLEND) : bigStepFrom w s = bigPrepare w s := by
  simp only [bigStepFrom, h]

/-- Dispatch of the run denotation at a `FIND_DEPENDENCIES` state. -/
theorem bigStepFrom_eq_findDep (w : World) (s : PackerState)
    (h : s.phase = .FIND_DEPENDENCIES) : bigStepFrom w s = bigFindDep w s := by
  simp only [bigStepFrom, h]

/-- Overwriting the cursor of `copyFinish`'s input state is absorbed by
the cursor reset it performs itself. -/
theorem copyFinish_set_ac (w : World) (s1 : PackerState) (m total : Nat) :
    copyFinish w { s1 with assets_copied := m } total
      = copyFinish w s1 total := rfl

/-- Consuming a prefix chunk of the copy work-list and advancing the
cursor preserves the whole-run denotation. -/
theorem bigCopy_step (w : World) (s : PackerState) (n : Nat)
    (hph : s.phase = .COPY_ASSETS) (hc : s.assets_copied ≤ n)
    (hn : n ≤ s.assets_to_copy.length) :
    bigCopy w s = bigStepFrom w
      { ((s.assets_to_copy.drop s.assets_copied).take
          (n - s.assets_copied)).foldl (copyItem w) s with
        assets_copied := n } := by
  have hS2ph : (((s.assets_to_copy.drop s.assets_copied).take
      (n - s.assets_copied)).foldl (copyItem w) s).phase
        = Phase.COPY_ASSETS := (foldl_copyItem_phase w _ s).trans hph
  rw [bigStepFrom_eq_copy w
    { ((s.assets_to_copy.drop s.assets_copied).take
        (n - s.assets_copied)).foldl (copyItem w) s with
      assets_copied := n } hS2ph]
  have hto : (({ ((s.assets_to_copy.drop s.assets_copied).take
      (n - s.assets_copied)).foldl (copyItem w) s with
        assets_copied := n } : PackerState)).assets_to_copy
      = s.assets_to_copy := foldl_copyItem_to_copy w _ s
  rw [bigCopy, bigCopy, hto]
  have hac : (({ ((s.assets_to_copy.drop s.assets_copied).take
      (n - s.assets_copied)).foldl (copyItem w) s with
        assets_copied := n } : PackerState)).assets_copied = n := rfl
  rw [hac]
  have hsplit : s.assets_to_copy.drop s.assets_copied
      = ((s.assets_to_copy.drop s.assets_copied).take (n - s.assets_copied))
        ++ s.assets_to_copy.drop n := by
    conv_lhs => rw [← List.take_append_drop (n - s.assets_copied)
      (s.assets_to_copy.drop s.assets_copied)]
    congr 1
    rw [List.drop_drop]
    congr 1
    omega
  conv_lhs => rw [hsplit]
  rw [List.foldl_append]
  exact ((congrArg (fun st => copyFinish w st s.assets_to_copy.length)
    (foldl_copyItem_set_ac w (s.assets_to_copy.drop n)
      (((s.assets_to_copy.drop s.assets_copied).take
        (n - s.assets_copied)).foldl (copyItem w) s) n)).trans
    (copyFinish_set_ac w _ n _)).symm

/-- An uncancelled batch that does not report completion preserves the
whole-run denotation: one `process_batch` call refines `bigStepFrom`. -/
theorem process_batch_cont (w : World) (batch : Nat) (s s' : PackerState)
    (ph : Phase) (h : process_batch w false batch s = .ok (s', ph, false)) :
    bigStepFrom w s = bigStepFrom w s' := by
  cases hph : s.phase <;>
    simp only [process_batch, Bool.false_eq_true, if_false, hph] at h
  case INIT =>
    simp only [Except.ok.injEq, Prod.mk.injEq, eq_self_iff_true, and_true] at h
    obtain ⟨rfl, rfl⟩ := h
    rw [bigStepFrom_eq_init w s hph]
    rfl
  case FIND_ASSETS =>
    cases hfr : w.find_result with
    | error e' =>
      simp only [hfr] at h
      exact Except.noConfusion h
    | ok au =>
      simp only [hfr, Except.ok.injEq, Prod.mk.injEq, eq_self_iff_true,
        and_true] at h
      obtain ⟨rfl, rfl⟩ := h
      rw [bigStepFrom_eq_findAssets w s hph]
      simp only [bigFindAssets, hfr]
      rfl
  case COLLECT_PATHS =>
    simp only [Except.ok.injEq, Prod.mk.injEq, eq_self_iff_true, and_true] at h
    obtain ⟨rfl, rfl⟩ := h
    rw [bigStepFrom_eq_collect w s hph]
    rfl
  case FIND_COMMON_ROOT =>
    cases hc : fcrCompute w s with
    | error e' =>
      simp only [hc] at h
      exact Except.noConfusion h
    | ok cr =>
      simp only [hc, Except.ok.injEq, Prod.mk.injEq, eq_self_iff_true,
        and_true] at h
      obtain ⟨rfl, rfl⟩ := h
      rw [bigStepFrom_eq_fcr w s hph]
      simp only [bigFCR, hc]
      rfl
  case PREPARE_COPY_TOP_BLEND =>
    simp only [Except.ok.injEq, Prod.mk.injEq, eq_self_iff_true, and_true] at h
    obtain ⟨rfl, rfl⟩ := h
    rw [bigStepFrom_eq_prepare w s hph]
    rfl
  case COPY_ASSETS =>
    rw [bigStepFrom_eq_copy w s hph]
    split at h
    · rename_i htot
      simp only [Except.ok.injEq, Prod.mk.injEq, eq_self_iff_true, and_true] at h
      obtain ⟨rfl, rfl⟩ := h
      have hbe : min (s.assets_copied + batch) s.assets_to_copy.length
          = s.assets_to_copy.length := by omega
      rw [hbe]
      have htake : (s.assets_to_copy.drop s.assets_copied).take
          (s.assets_to_copy.length - s.assets_copied)
          = s.assets_to_copy.drop s.assets_copied := by
        rw [← List.length_drop, List.take_length]
      rw [htake, bigStepFrom_copyDone]
      rfl
    · rename_i hlt
      simp only [Except.ok.injEq, Prod.mk.injEq, eq_self_iff_true, and_true] at h
      obtain ⟨rfl, rfl⟩ := h
      exact bigCopy_step w s
        (min (s.assets_copied + batch) s.assets_to_copy.length) hph
        (by omega) (by omega)
  case TRUNCATING_CACHES =>
    rw [bigStepFrom_eq_trunc w s hph]
    split at h
    · rename_i hlt
      simp only [Except.ok.injEq, Prod.mk.injEq, eq_self_iff_true, and_true] at h
      obtain ⟨rfl, rfl⟩ := h
      rw [bigStepFrom_eq_trunc w (truncStep s) (hph : (truncStep s).phase = _)]
      simp only [bigTrunc, truncStep]
      rw [drop_cons_getD s.cache_dirs s.cache_truncate_index dummyPath hlt,
        List.foldl_cons]
    · rename_i hge
      simp only [Except.ok.injEq, Prod.mk.injEq, eq_self_iff_true, and_true] at h
      obtain ⟨rfl, rfl⟩ := h
      rw [bigStepFrom_eq_findDep w _ rfl]
      simp only [bigTrunc]
      rw [List.drop_eq_nil_of_le (by omega), List.foldl_nil]
  case FIND_DEPENDENCIES =>
    rw [bigStepFrom_eq_findDep w s hph]
    cases hbd : w.blend_deps_find with
    | error e' =>
      simp only [hbd] at h
      exact Except.noConfusion h
    | ok bd =>
      simp only [hbd, Except.ok.injEq, Prod.mk.injEq, eq_self_iff_true,
        and_true] at h
      obtain ⟨rfl, rfl⟩ := h
      simp only [bigFindDep, hbd]
      by_cases hen : s.enable_nla = true
      · rw [if_pos hen,
          bigStepFrom_eq_nla w _ (by simp only [findDepApply, hen, if_true])]
      · rw [if_neg hen,
          bigStepFrom_eq_remap w _ (by
            simp only [findDepApply]
            rw [if_neg hen])]
  case ENABLE_NLA =>
    rw [bigStepFrom_eq_nla w s hph]
    split at h
    · rename_i hlt
      simp only [Except.ok.injEq, Prod.mk.injEq, eq_self_iff_true, and_true] at h
      obtain ⟨rfl, rfl⟩ := h
      rw [bigStepFrom_eq_nla w (nlaStep s) (hph : (nlaStep s).phase = _)]
      simp only [bigNla, nlaStep]
      rw [drop_cons_getD s.to_remap s.nla_index dummyPath hlt, List.foldl_cons]
    · rename_i hge
      simp only [Except.ok.injEq, Prod.mk.injEq, eq_self_iff_true, and_true] at h
      obtain ⟨rfl, rfl⟩ := h
      rw [bigStepFrom_eq_remap w _ rfl]
      simp only [bigNla]
      rw [List.drop_eq_nil_of_le (by omega), List.foldl_nil]
  case REMAP_PATHS =>
    rw [bigStepFrom_eq_remap w s hph]
    split at h
    · rename_i hlt
      simp only [Except.ok.injEq, Prod.mk.injEq, eq_self_iff_true, and_true] at h
      obtain ⟨rfl, rfl⟩ := h
      rw [bigStepFrom_eq_remap w (remapStep s) (hph : (remapStep s).phase = _)]
      simp only [bigRemap, remapStep]
      rw [drop_cons_getD s.to_remap s.remap_index dummyPath hlt, List.foldl_cons]
    · rename_i hge
      simp only [Except.ok.injEq, Prod.mk.injEq, eq_self_iff_true, and_true] at h
      obtain ⟨rfl, rfl⟩ := h
      simp only [bigRemap]
      rw [List.drop_eq_nil_of_le (by omega), List.foldl_nil]
      by_cases hw : s.workflow_copy_only = true
      · rw [if_pos hw]
        rw [show remapDonePhase s = { s with phase := .COMPLETE } from by
          simp only [remapDonePhase, hw, if_true]]
        rfl
      · rw [if_neg hw]
        rw [show remapDonePhase s
            = { s with pack_all_index := 0, phase := .PACK_ALL } from by
          simp only [remapDonePhase]
          rw [if_neg hw]]
        rw [bigStepFrom_eq_packAll w _ rfl]
  case PACK_ALL =>
    rw [bigStepFrom_eq_packAll w s hph]
    split at h
    · rename_i hlt
      simp only [Except.ok.injEq, Prod.mk.injEq, eq_self_iff_true, and_true] at h
      obtain ⟨rfl, rfl⟩ := h
      rw [bigStepFrom_eq_packAll w (packAllStep s)
        (hph : (packAllStep s).phase = _)]
      simp only [bigPackAll, packAllStep]
      rw [drop_cons_getD s.to_remap s.pack_all_index dummyPath hlt,
        List.foldl_cons]
    · rename_i hge
      simp only [Except.ok.injEq, Prod.mk.injEq, eq_self_iff_true, and_true] at h
      obtain ⟨rfl, rfl⟩ := h
      simp only [bigPackAll]
      rw [List.drop_eq_nil_of_le (by omega), List.foldl_nil]
      by_cases hr : s.run_pack_linked = true
      · rw [if_pos hr]
        rw [show packAllDonePhase s
            = { s with pack_linked_index := 0, phase := .PACK_LINKED } from by
          simp only [packAllDonePhase, hr, if_true]]
        rw [bigStepFrom_eq_packLinked w _ rfl]
      · rw [if_neg hr]
        rw [show packAllDonePhase s = { s with phase := .COMPLETE } from by
          simp only [packAllDonePhase]
          rw [if_neg hr]]
        rfl
  case PACK_LINKED =>
    rw [bigStepFrom_eq_packLinked w s hph]
    split at h
    · rename_i hlt
      simp only [Except.ok.injEq, Prod.mk.injEq, eq_self_iff_true, and_true] at h
      obtain ⟨rfl, rfl⟩ := h
      rw [bigStepFrom_eq_packLinked w
        (packLinkedStep w s (s.to_remap.getD s.pack_linked_index dummyPath))
        (hph : (packLinkedStep w s (s.to_remap.getD s.pack_linked_index
          dummyPath)).phase = _)]
      simp only [bigPackLinked, packLinkedStep]
      rw [drop_cons_getD s.to_remap s.pack_linked_index dummyPath hlt,
        List.foldl_cons]
      rfl
    · rename_i hge
      simp only [Except.ok.injEq, Prod.mk.injEq, eq_self_iff_true, and_true] at h
      obtain ⟨rfl, rfl⟩ := h
      simp only [bigPackLinked]
      rw [List.drop_eq_nil_of_le (by omega), List.foldl_nil]
      rfl
  case COMPLETE =>
    simp only [Except.ok.injEq, Prod.mk.injEq, Bool.true_eq_false,
      and_false] at h

/-- Repeatedly calling `process_batch` (with a never-firing cancel
predicate) until it reports completion, under a fuel bound: `.ok none`
means the fuel ran out first. -/
def drive (w : World) (batch : Nat) :
    Nat → PackerState → Except PackSignal (Option PackerState)
  | 0, _ => .ok none
  | fuel + 1, s =>
    match process_batch w false batch s with
    | .error e => .error e
    | .ok (s', _, true) => .ok (some s')
    | .ok (s', _, false) => drive w batch fuel s'

/-- A completed drive computes exactly the whole-run denotation,
independently of the batch size and the fuel. -/
theorem drive_bigStep (w : World) (batch : Nat) :
    ∀ (fuel : Nat) (s t : PackerState), drive w batch fuel s = .ok (some t) →
      bigStepFrom w s = .ok t := by
  intro fuel
  induction fuel with
  | zero =>
    intro s t h
    simp [drive] at h
  | succ n ih =>
    intro s t h
    rw [drive] at h
    cases hstep : process_batch w false batch s with
    | error e =>
      rw [hstep] at h
      exact Except.noConfusion h
    | ok r =>
      obtain ⟨s', ph, done⟩ := r
      cases done with
      | true =>
        rw [hstep] at h
        simp only [Except.ok.injEq, Option.some.injEq] at h
        subst h
        exact process_batch_done w batch s s' ph hstep
      | false =>
        rw [hstep] at h
        exact (process_batch_cont w batch s s' ph hstep).trans (ih s' t h)

/-- C8.  Batch resumability: with the same inputs and a cancel predicate
that never fires, driving `process_batch` to completion with batch size 1
reaches the same terminal `copy_map` and `missing_on_copy` as driving it
with batch size 1000 (the `COPY_ASSETS` cursor resumes across calls
instead of restarting), for any fuel bounds that suffice. -/
theorem incremental_packer_batch_resumable (w : World) (cfg : PackerConfig)
    (f1 f2 : Nat) (t1 t2 : PackerState)
    (h1 : drive w 1 f1 (mkPacker cfg) = .ok (some t1))
    (h2 : drive w 1000 f2 (mkPacker cfg) = .ok (some t2)) :
    t1.copy_map = t2.copy_map ∧ t1.missing_on_copy = t2.missing_on_copy := by
  have e1 := drive_bigStep w 1 f1 (mkPacker cfg) t1 h1
  have e2 := drive_bigStep w 1000 f2 (mkPacker cfg) t2 h2
  rw [e1] at e2
  injection e2 with e2
  subst e2
  exact ⟨rfl, rfl⟩

/-- Top-level blend of the resumability witness run. -/
def wPkTop : PPath := ⟨.posix, ["p", "top.blend"]⟩

/-- Texture asset of the resumability witness run. -/
def wPkTex : PPath := ⟨.posix, ["p", "a", "tex.png"]⟩

/-- The one asset usage of the resumability witness run. -/
def wPkU : AssetUsage := ⟨wPkTex, "//a/tex.png", false⟩

/-- A concrete world: one texture linked from the open file, every
filesystem operation succeeding. -/
def wPkWorld : World :=
  { nt := false
    find_result := .ok [(none, [wPkU])]
    top_level_abs := wPkTop
    lib_abspath := fun _ => wPkTop
    blend_deps_find := .ok [(none, [])]
    file_exists := fun _ => true
    copy_ok := fun _ => true
    temp_dir := ⟨.posix, ["tmp"]⟩
    cache_copy_dirs := []
    cache_copy_missing := []
    bpy_filepath := wPkTop
    pack_linked_result := fun _ => some ([], [])
    target_blends_found := [] }

/-- A copy-only packer configuration targeting `/out`. -/
def wPkCfg : PackerConfig :=
  { workflow_copy_only := true
    target_path := some ⟨.posix, ["out"]⟩
    enable_nla := false
    frame_start := none
    frame_end := none
    frame_step := none
    temp_blend_path := none
    original_blend_path := none }

/-- Terminal state of the witness run. -/
def wPkT : PackerState :=
  ((drive wPkWorld 1 20 (mkPacker wPkCfg)).toOption.join).getD (mkPacker wPkCfg)

/-- Witness: both drives of the concrete run complete, and the theorem
applies to them. -/
theorem incremental_packer_batch_resumable_witness :
    drive wPkWorld 1 20 (mkPacker wPkCfg) = .ok (some wPkT) ∧
      drive wPkWorld 1000 20 (mkPacker wPkCfg) = .ok (some wPkT) ∧
      (wPkT.copy_map = wPkT.copy_map ∧
        wPkT.missing_on_copy = wPkT.missing_on_copy) := by
  have h1 : drive wPkWorld 1 20 (mkPacker wPkCfg) = .ok (some wPkT) := by rfl
  have h2 : drive wPkWorld 1000 20 (mkPacker wPkCfg) = .ok (some wPkT) := by rfl
  exact ⟨h1, h2,
    incremental_packer_batch_resumable wPkWorld wPkCfg 20 20 wPkT wPkT h1 h2⟩

/-- The only error the common-root computation raises is the
`ValueError` signal. -/
theorem fcrCompute_err (w : World) (s : PackerState) (e : PackSignal)
    (h : fcrCompute w s = .error e) : e = .valueError := by
  unfold fcrCompute at h
  cases hm : commonPathOpt s.all_filepaths with
  | some cr =>
    simp only [hm] at h
    exact Except.noConfusion h
  | none =>
    simp only [hm] at h
    cases hpp : s.all_filepaths.filter
        (fun p => decide (pathDrive p = pathDrive w.bpy_filepath)) with
    | nil =>
      simp only [hpp] at h
      exact Except.noConfusion h
    | cons a l =>
      simp only [hpp] at h
      cases hm2 : commonPathOpt (a :: l) with
      | some cr =>
        simp only [hm2] at h
        exact Except.noConfusion h
      | none =>
        simp only [hm2] at h
        injection h with h
        exact h.symm

/-- C9.  Cooperative cancellation: the cancel predicate is consulted
before any phase work, so a firing predicate makes `process_batch` raise
the distinct cancellation signal from every state (leaving the state
untouched, as no updated state is produced), while a non-firing predicate
can never produce that signal — any error an uncancelled call raises is
distinguishable from cancellation. -/
theorem process_batch_cancel_first (w : World) (batch : Nat)
    (s : PackerState) :
    process_batch w true batch s = .error .cancelled ∧
      ∀ e, process_batch w false batch s = .error e → e ≠ .cancelled := by
  constructor
  · rfl
  · intro e he
    cases hph : s.phase <;>
      simp only [process_batch, Bool.false_eq_true, if_false, hph] at he
    case INIT => exact Except.noConfusion he
    case FIND_ASSETS =>
      cases hfr : w.find_result with
      | error e' =>
        simp only [hfr] at he
        injection he with he
        subst he
        exact fun hc => PackSignal.noConfusion hc
      | ok au =>
        simp only [hfr] at he
        exact Except.noConfusion he
    case COLLECT_PATHS => exact Except.noConfusion he
    case FIND_COMMON_ROOT =>
      cases hc : fcrCompute w s with
      | error e' =>
        simp only [hc] at he
        injection he with he
        subst he
        rw [fcrCompute_err w s e' hc]
        exact fun hc2 => PackSignal.noConfusion hc2
      | ok cr =>
        simp only [hc] at he
        exact Except.noConfusion he
    case PREPARE_COPY_TOP_BLEND => exact Except.noConfusion he
    case COPY_ASSETS =>
      split at he <;> exact Except.noConfusion he
    case TRUNCATING_CACHES =>
      split at he <;> exact Except.noConfusion he
    case FIND_DEPENDENCIES =>
      cases hbd : w.blend_deps_find with
      | error e' =>
        simp only [hbd] at he
        injection he with he
        subst he
        exact fun hc => PackSignal.noConfusion hc
      | ok bd =>
        simp only [hbd] at he
        exact Except.noConfusion he
    case ENABLE_NLA =>
      split at he <;> exact Except.noConfusion he
    case REMAP_PATHS =>
      split at he <;> exact Except.noConfusion he
    case PACK_ALL =>
      split at he <;> exact Except.noConfusion he
    case PACK_LINKED =>
      split at he <;> exact Except.noConfusion he
    case COMPLETE => exact Except.noConfusion he

/-- A world whose asset discovery fails, for the cancellation witness. -/
def wC9World : World :=
  { wPkWorld with find_result := .error .attributeError }

/-- A packer state sitting in `FIND_ASSETS`, for the cancellation
witness. -/
def wC9State : PackerState :=
  { mkPacker wPkCfg with phase := .FIND_ASSETS }

/-- Witness: on a concrete state, a firing cancel predicate yields the
cancellation signal, and the error the uncancelled call raises is not the
cancellation signal. -/
theorem process_batch_cancel_first_witness :
    process_batch wC9World true 5 wC9State = .error .cancelled ∧
      (process_batch wC9World false 5 wC9State
          = .error (.auError .attributeError) ∧
        PackSignal.auError .attributeError ≠ .cancelled) := by
  refine ⟨(process_batch_cancel_first wC9World 5 wC9State).1, by rfl, ?_⟩
  exact (process_batch_cancel_first wC9World 5 wC9State).2
    (.auError .attributeError) (by rfl)

/-! ### The batch packer's copy loop (src/pack.py:712-805)

The per-usage copy loop of `main`, with the filesystem frozen into a
read-only `CopyEnv`.  `main_copies` records the source of every successful
`shutil.copy2` of the per-usage file loop (line 759), `nb_copies` those of
the nested library non-blend loop (line 794); neither shadows Python
state. -/

/-- Read-only environment of the batch copy loop. -/
structure CopyEnv where
  nt : Bool
  file_exists : PPath → Bool
  copy_ok : PPath → Bool
  expand : PPath → (List PPath × Option String)
  collect_nonblend : PPath → List PPath

/-- The mutable state the batch copy loop threads. -/
structure CopyState where
  copied_paths : List PPath
  copy_map : List (PPath × PPath)
  missing_on_copy : List PPath
  sequences_copied : List (String × Nat)
  outside_root_assets : List PPath
  main_copies : List PPath
  nb_copies : List PPath
  deriving DecidableEq, Repr

/-- `sequences_copied[base_pat] = sequences_copied.get(base_pat, 0) + n`
(`src/pack.py:735`). -/
def seqBump (m : List (String × Nat)) (k : String) (n : Nat) :
    List (String × Nat) :=
  let cur := ((m.find? (fun kv => decide (kv.1 = k))).map Prod.snd).getD 0
  dictPut m k (cur + n)

/-- The nested non-blend copy loop of a just-copied library blend
(`src/pack.py:780-799`): missing or failing sources go to the missing
list, successes are recorded (the `lib_map` it also builds is local to the
remap call and not packer state). -/
def nbLoop (env : CopyEnv) (cr tgt : PPath) :
    CopyState → List PPath → CopyState
  | st, [] => st
  | st, nb :: rest =>
    if ¬ env.file_exists nb then
      nbLoop env cr tgt
        { st with missing_on_copy := st.missing_on_copy ++ [nb] } rest
    else if env.copy_ok nb then
      nbLoop env cr tgt { st with nb_copies := st.nb_copies ++ [nb] } rest
    else
      nbLoop env cr tgt
        { st with missing_on_copy := st.missing_on_copy ++ [nb] } rest

/-- Recording an out-of-root source (`src/pack.py:745-750`): the
`relative_to` failure branch appends to `outside_root_assets` (the `rel`
value itself always equals `compute_target_relpath`). -/
def noteOutside (cr : PPath) (st : CopyState) (f : PPath) : CopyState :=
  if underRoot f cr then st
  else { st with outside_root_assets := st.outside_root_assets ++ [f] }

/-- The state updates of one successful `shutil.copy2` in the per-usage
file loop (`src/pack.py:757-763`). -/
def copySuccess (env : CopyEnv) (cr tgt : PPath) (isBlend : Bool)
    (st : CopyState) (f : PPath) : CopyState :=
  { noteOutside cr st f with
    copied_paths := listSetInsert f (noteOutside cr st f).copied_paths
    main_copies := (noteOutside cr st f).main_copies ++ [f]
    copy_map :=
      if isBlend ∧ pathSuffixLower f = ".blend" then
        dictPut (noteOutside cr st f).copy_map f
          (joinUnder tgt (compute_target_relpath env.nt f cr))
      else (noteOutside cr st f).copy_map }

/-- Copying one file of a usage (`src/pack.py:738-799`): skip missing
sources into the missing list; note out-of-root sources; on success add to
the copied-set, record blend targets in the copy map, and run the nested
non-blend loop for library blends. -/
def processFile (env : CopyEnv) (cr tgt : PPath) (isBlend : Bool)
    (st : CopyState) (f : PPath) : CopyState :=
  if ¬ env.file_exists f then
    { st with missing_on_copy := st.missing_on_copy ++ [f] }
  else if env.copy_ok f then
    if isBlend ∧ pathSuffixLower f = ".blend" then
      nbLoop env cr tgt (copySuccess env cr tgt isBlend st f)
        (env.collect_nonblend f)
    else copySuccess env cr tgt isBlend st f
  else
    { noteOutside cr st f with
      missing_on_copy := (noteOutside cr st f).missing_on_copy ++ [f] }

/-- The files one usage contributes (`src/pack.py:727-735`): non-blend
sources expand to their frame sequence when more than one frame and a base
pattern exist, with the base pattern reported for the sequence counter. -/
def seqFiles (env : CopyEnv) (u : AssetUsage) : List PPath × Option String :=
  if ¬ u.is_blendfile then
    if 1 < (env.expand u.abspath).1.length ∧
        (env.expand u.abspath).2.isSome = true then
      env.expand u.abspath
    else (([u.abspath] : List PPath), (none : Option String))
  else (([u.abspath] : List PPath), (none : Option String))

/-- Bump the sequence counter when a base pattern was reported. -/
def seqNote (st : CopyState) (fs : List PPath × Option String) : CopyState :=
  match fs.2 with
  | some bp =>
    { st with sequences_copied := seqBump st.sequences_copied bp fs.1.length }
  | none => st

/-- Processing one `AssetUsage` (`src/pack.py:712-737`): skip when the
absolute path is already in the copied-set; otherwise copy each file the
usage contributes. -/
def processUsage (env : CopyEnv) (cr tgt : PPath) (st : CopyState)
    (u : AssetUsage) : CopyState :=
  if u.abspath ∈ st.copied_paths then st
  else
    (seqFiles env u).1.foldl (processFile env cr tgt u.is_blendfile)
      (seqNote st (seqFiles env u))

/-- The whole per-usage copy loop over the discovered usages. -/
def mainCopyLoop (env : CopyEnv) (cr tgt : PPath) (au : AUMap)
    (st : CopyState) : CopyState :=
  au.foldl (fun acc kv => kv.2.foldl (processUsage env cr tgt) acc) st

/-- The set-insert always contains the inserted element. -/
theorem listSetInsert_self {α : Type} [DecidableEq α] (x : α) (l : List α) :
    x ∈ listSetInsert x l := by
  unfold listSetInsert
  by_cases hx : x ∈ l
  · rw [if_pos hx]; exact hx
  · rw [if_neg hx]
    exact List.mem_append_right _ (List.mem_singleton.mpr rfl)

/-- The set-insert preserves membership. -/
theorem mem_listSetInsert_of_mem {α : Type} [DecidableEq α] (x v : α)
    (l : List α) (h : v ∈ l) : v ∈ listSetInsert x l := by
  unfold listSetInsert
  by_cases hx : x ∈ l
  · rw [if_pos hx]; exact h
  · rw [if_neg hx]
    exact List.mem_append_left _ h

/-- Dedup invariant of the batch copy loop: the successful main-loop copy
trace has no duplicates and is contained in the copied-set. -/
def mainInv (st : CopyState) : Prop :=
  st.main_copies.Nodup ∧ ∀ x ∈ st.main_copies, x ∈ st.copied_paths

/-- The nested non-blend loop leaves trace and copied-set untouched. -/
theorem nbLoop_main (env : CopyEnv) (cr tgt : PPath) :
    ∀ (l : List PPath) (st : CopyState),
      (nbLoop env cr tgt st l).main_copies = st.main_copies ∧
        (nbLoop env cr tgt st l).copied_paths = st.copied_paths := by
  intro l
  induction l with
  | nil => intro st; exact ⟨rfl, rfl⟩
  | cons nb rest ih =>
    intro st
    unfold nbLoop
    by_cases hfe : ¬ env.file_exists nb = true
    · rw [if_pos hfe]
      exact ih _
    · rw [if_neg hfe]
      by_cases hco : env.copy_ok nb = true
      · rw [if_pos hco]
        exact ih _
      · rw [if_neg hco]
        exact ih _

/-- `noteOutside` touches neither the copy trace nor the copied-set. -/
theorem noteOutside_fields (cr : PPath) (st : CopyState) (f : PPath) :
    (noteOutside cr st f).main_copies = st.main_copies ∧
      (noteOutside cr st f).copied_paths = st.copied_paths := by
  unfold noteOutside
  by_cases hur : underRoot f cr = true
  · rw [if_pos hur]; exact ⟨rfl, rfl⟩
  · rw [if_neg hur]; exact ⟨rfl, rfl⟩

/-- One file copy of a not-yet-copied source preserves the dedup
invariant. -/
theorem processFile_inv (env : CopyEnv) (cr tgt : PPath) (isBlend : Bool)
    (st : CopyState) (f : PPath) (hf : f ∉ st.copied_paths)
    (h : mainInv st) : mainInv (processFile env cr tgt isBlend st f) := by
  obtain ⟨hnd, hsub⟩ := h
  obtain ⟨hm, hc⟩ := noteOutside_fields cr st f
  unfold processFile
  by_cases hfe : ¬ env.file_exists f = true
  · rw [if_pos hfe]
    exact ⟨hnd, hsub⟩
  · rw [if_neg hfe]
    by_cases hco : env.copy_ok f = true
    · rw [if_pos hco]
      have hcs : mainInv (copySuccess env cr tgt isBlend st f) := by
        constructor
        · show ((noteOutside cr st f).main_copies ++ [f]).Nodup
          rw [hm]
          refine List.Nodup.append hnd (List.nodup_singleton f) ?_
          intro a ha haf
          rw [List.mem_singleton.mp haf] at ha
          exact hf (hsub f ha)
        · intro x hx
          have hx' : x ∈ (noteOutside cr st f).main_copies ++ [f] := hx
          rw [hm] at hx'
          show x ∈ listSetInsert f (noteOutside cr st f).copied_paths
          rw [hc]
          rcases List.mem_append.mp hx' with hxm | hxf
          · exact mem_listSetInsert_of_mem f x _ (hsub x hxm)
          · rw [List.mem_singleton.mp hxf]
            exact listSetInsert_self f _
      by_cases hbl : isBlend ∧ pathSuffixLower f = ".blend"
      · rw [if_pos hbl]
        obtain ⟨hm2, hc2⟩ := nbLoop_main env cr tgt (env.collect_nonblend f)
          (copySuccess env cr tgt isBlend st f)
        constructor
        · rw [hm2]; exact hcs.1
        · intro x hx
          rw [hm2] at hx
          rw [hc2]
          exact hcs.2 x hx
      · rw [if_neg hbl]
        exact hcs
    · rw [if_neg hco]
      constructor
      · show (noteOutside cr st f).main_copies.Nodup
        rw [hm]; exact hnd
      · intro x hx
        have hx' : x ∈ (noteOutside cr st f).main_copies := hx
        rw [hm] at hx'
        show x ∈ (noteOutside cr st f).copied_paths
        rw [hc]
        exact hsub x hx'

/-- One usage preserves the dedup invariant when no sequence expansion
occurs. -/
theorem processUsage_inv (env : CopyEnv) (cr tgt : PPath)
    (hexp : ∀ p : PPath, ¬(1 < (env.expand p).1.length ∧
      (env.expand p).2.isSome = true))
    (st : CopyState) (u : AssetUsage) (h : mainInv st) :
    mainInv (processUsage env cr tgt st u) := by
  unfold processUsage
  by_cases hin : u.abspath ∈ st.copied_paths
  · rw [if_pos hin]
    exact h
  · rw [if_neg hin]
    have hfs : seqFiles env u = (([u.abspath] : List PPath), (none : Option String)) := by
      unfold seqFiles
      by_cases hb : ¬ u.is_blendfile = true
      · rw [if_pos hb, if_neg (hexp u.abspath)]
      · rw [if_neg hb]
    rw [hfs]
    exact processFile_inv env cr tgt u.is_blendfile st u.abspath hin h

/-- A whole usage list preserves the dedup invariant. -/
theorem foldl_processUsage_inv (env : CopyEnv) (cr tgt : PPath)
    (hexp : ∀ p : PPath, ¬(1 < (env.expand p).1.length ∧
      (env.expand p).2.isSome = true)) :
    ∀ (l : List AssetUsage) (st : CopyState), mainInv st →
      mainInv (l.foldl (processUsage env cr tgt) st) := by
  intro l
  induction l with
  | nil => intro st h; exact h
  | cons u rest ih =>
    intro st h
    rw [List.foldl_cons]
    exact ih _ (processUsage_inv env cr tgt hexp st u h)

/-- C7 (amended).  Batch-packer copy deduplication: in `main`'s per-usage
copy loop every copy is guarded by the copied-set, so — absent image
sequence expansion — each source absolute path is copied at most once: the
trace of successful copies is duplicate-free and contained in the
copied-set.  (The IncrementalPacker checks the copied-set only while
building `assets_to_copy` in `PREPARE_COPY_TOP_BLEND`, not in
`COPY_ASSETS`; two usages sharing an absolute path are copied twice there
— see the counterexample.) -/
theorem batch_copy_dedup (env : CopyEnv) (cr tgt : PPath) (au : AUMap)
    (st : CopyState)
    (hexp : ∀ p : PPath, ¬(1 < (env.expand p).1.length ∧
      (env.expand p).2.isSome = true))
    (hnd : st.main_copies.Nodup)
    (hsub : ∀ x ∈ st.main_copies, x ∈ st.copied_paths) :
    (mainCopyLoop env cr tgt au st).main_copies.Nodup ∧
      ∀ x ∈ (mainCopyLoop env cr tgt au st).main_copies,
        x ∈ (mainCopyLoop env cr tgt au st).copied_paths := by
  suffices hgen : ∀ (d : AUMap) (st0 : CopyState), mainInv st0 →
      mainInv (d.foldl (fun acc kv =>
        kv.2.foldl (processUsage env cr tgt) acc) st0) by
    exact hgen au st ⟨hnd, hsub⟩
  intro d
  induction d with
  | nil => intro st0 h; exact h
  | cons kv rest ih =>
    intro st0 h
    rw [List.foldl_cons]
    exact ih _ (foldl_processUsage_inv env cr tgt hexp kv.2 st0 h)

/-- A texture referenced by two distinct usages. -/
def wC7P : PPath := ⟨.posix, ["p", "tex.png"]⟩

/-- First usage of the texture. -/
def wC7U1 : AssetUsage := ⟨wC7P, "//tex.png", false⟩

/-- Second usage of the same texture under a different literal reference
path. -/
def wC7U2 : AssetUsage := ⟨wC7P, "//./tex.png", false⟩

/-- Batch-loop environment with no sequences and an always-succeeding
filesystem. -/
def wC7Env : CopyEnv :=
  { nt := false
    file_exists := fun _ => true
    copy_ok := fun _ => true
    expand := fun p => ([p], none)
    collect_nonblend := fun _ => [] }

/-- The duplicate-abspath usage map. -/
def wC7AU : AUMap := [(none, [wC7U1, wC7U2])]

/-- Fresh batch-loop state. -/
def wC7Init : CopyState := ⟨[], [], [], [], [], [], []⟩

/-- Project root of the batch-loop witness. -/
def wC7Root : PPath := ⟨.posix, ["p"]⟩

/-- Target directory of the batch-loop witness. -/
def wC7Tgt : PPath := ⟨.posix, ["out"]⟩

/-- Witness: on the duplicate-abspath usages the batch loop copies the
texture exactly once, and the theorem applies. -/
theorem batch_copy_dedup_witness :
    (mainCopyLoop wC7Env wC7Root wC7Tgt wC7AU wC7Init).main_copies
        = [wC7P] ∧
      ((mainCopyLoop wC7Env wC7Root wC7Tgt wC7AU wC7Init).main_copies.Nodup ∧
        ∀ x ∈ (mainCopyLoop wC7Env wC7Root wC7Tgt wC7AU wC7Init).main_copies,
          x ∈ (mainCopyLoop wC7Env wC7Root wC7Tgt wC7AU wC7Init).copied_paths) := by
  constructor
  · rfl
  · exact batch_copy_dedup wC7Env wC7Root wC7Tgt wC7AU wC7Init
      (fun p h => absurd h.1 (Nat.lt_irrefl 1)) (by decide)
      (fun x hx => absurd hx (List.not_mem_nil x))

/-- A packer world discovering the two duplicate-abspath usages. -/
def wC7World : World :=
  { wPkWorld with find_result := .ok [(none, [wC7U1, wC7U2])] }

/-- Terminal state of the duplicate-abspath packer run. -/
def wC7T : PackerState :=
  ((drive wC7World 1000 20 (mkPacker wPkCfg)).toOption.join).getD
    (mkPacker wPkCfg)

/-- C7 counterexample: the IncrementalPacker's `COPY_ASSETS` phase has no
copied-set guard; with two distinct usages sharing one absolute path the
completed run performs two successful `shutil.copy2` calls on that same
source, so "every source absolute path is copied at most once" fails for
the `COPY_ASSETS` phase. -/
theorem incremental_copy_dedup_violated :
    wC7U1 ≠ wC7U2 ∧ wC7U1.abspath = wC7U2.abspath ∧
      drive wC7World 1000 20 (mkPacker wPkCfg) = .ok (some wC7T) ∧
      wC7T.copy_events.count wC7P = 2 := by
  refine ⟨by decide, rfl, by rfl, by rfl⟩

/-- A library linked by the open file. -/
def wC1Lib : Library := ⟨1, "//lib.blend", false⟩

/-- The library's resolved path. -/
def wC1LibAbs : PPath := ⟨.posix, ["p", "lib.blend"]⟩

/-- The blend-dependency edge: the open file uses the library. -/
def wC1LibUsage : AssetUsage := ⟨wC1LibAbs, "//lib.blend", true⟩

/-- The blend-dependency map: the library key first (its `setdefault`
insertion), then the open file (`None`) with its edge to the library. -/
def wC1BD : AUMap := [(some wC1Lib, []), (none, [wC1LibUsage])]

/-- Packer world for the ordering counterexample: the open file links one
library blend, every filesystem operation succeeds. -/
def wC1World : World :=
  { wPkWorld with
    find_result := .ok wC1BD
    lib_abspath := fun ol => match ol with
      | none => wPkTop
      | some _ => wC1LibAbs
    blend_deps_find := .ok wC1BD }

/-- Copied target of the top-level (parent) blend. -/
def wC1TopT : PPath := ⟨.posix, ["out", "top.blend"]⟩

/-- Copied target of the library (child) blend. -/
def wC1LibT : PPath := ⟨.posix, ["out", "lib.blend"]⟩

/-- Terminal state of the ordering counterexample run. -/
def wC1T : PackerState :=
  ((drive wC1World 1000 25 (mkPacker wPkCfg)).toOption.join).getD
    (mkPacker wPkCfg)

/-- C1 counterexample: `FIND_DEPENDENCIES` appends the top-level target
blend first and never topologically sorts, so the work-list that
`REMAP_PATHS`, `PACK_ALL` and `PACK_LINKED` iterate starts with the parent
document even though the parent links the child — the child is *not*
processed before its parent in the IncrementalPacker's order. -/
theorem incremental_remap_order_not_topological :
    wC1World.blend_deps_find = .ok wC1BD ∧
      (none, [wC1LibUsage]) ∈ wC1BD ∧
      wC1LibUsage.is_blendfile = true ∧
      drive wC1World 1000 25 (mkPacker wPkCfg) = .ok (some wC1T) ∧
      wC1T.to_remap = [wC1TopT, wC1LibT, wC1TopT] ∧
      wC1TopT ≠ wC1LibT := by
  refine ⟨rfl, by decide, rfl, by rfl, by rfl, by decide⟩

end SheepIt
